import Mathlib

/-!
# ffmbc: ADTS AAC probe and aspect-ratio filter

A shallow embedding of two parts of the repository,

* `adts_aac_probe` (`libavformat/aacdec.c`), the scoring routine of the raw
  ADTS AAC demuxer, and
* `init` / `setsar_config_props` (`libavfilter/vf_aspect.c`), the argument
  parsing and link configuration of the aspect-ratio filters,

followed by the properties established about them.  C `int`s are modelled as
`Int`, bytes as `UInt8`, pointers into the probe buffer as offsets from its
start.
-/

deriving instance DecidableEq for Except

namespace AacDec

/-! ## `libavformat/aacdec.c` -/

/-- The two ways in which a run of the model can fail to produce a C result:
a read outside `[0, buf_size)`, or the recursion budget of a loop running out. -/
inductive Fault where
  | outOfBounds
  | outOfFuel
  deriving DecidableEq

/-- The probe input `AVProbeData`: `buf` holds the `buf_size` bytes handed to
the probe, so `buf_size` is the length of `buf` (a non-negative `int`). -/
structure AVProbeData where
  buf : List UInt8

/-- The field `p->buf_size`. -/
def AVProbeData.buf_size (p : AVProbeData) : Int := p.buf.length

/-- Modelled from the spec: the score scale `AVPROBE_SCORE_MAX` of `avformat.h`,
whose value is 100. -/
def AVPROBE_SCORE_MAX : Int := 100

/-- Reading the byte `buf0[i]`; a read outside the buffer is a fault. -/
def rd (p : AVProbeData) (i : Nat) : Except Fault Nat :=
  match p.buf[i]? with
  | some b => .ok b.toNat
  | none => .error .outOfBounds

/-- Modelled from the spec: `AV_RB16(buf0 + i)` of `libavutil/intreadwrite.h`, the
16-bit big-endian word at bytes `i`, `i + 1`. -/
def AV_RB16 (p : AVProbeData) (i : Nat) : Except Fault Nat :=
  match rd p i, rd p (i + 1) with
  | .ok b0, .ok b1 => .ok ((b0 <<< 8) ||| b1)
  | _, _ => .error .outOfBounds

/-- Modelled from the spec: `AV_RB32(buf0 + i)` of `libavutil/intreadwrite.h`, the
32-bit big-endian word at bytes `i .. i + 3`. -/
def AV_RB32 (p : AVProbeData) (i : Nat) : Except Fault Nat :=
  match rd p i, rd p (i + 1), rd p (i + 2), rd p (i + 3) with
  | .ok b0, .ok b1, .ok b2, .ok b3 =>
    .ok ((b0 <<< 24) ||| (b1 <<< 16) ||| (b2 <<< 8) ||| b3)
  | _, _, _, _ => .error .outOfBounds

/-- The inner loop `for(frames = 0; buf2 < end; frames++)` of `adts_aac_probe`,
started at cursor `buf2` with `frames` frames counted; the result is the final
cursor and count.  The first argument bounds the number of iterations. -/
def scanFrames (p : AVProbeData) (end_ : Int) : Nat → Nat → Int → Except Fault (Nat × Int)
  | 0, _, _ => .error .outOfFuel
  | fuel + 1, buf2, frames =>
    if (buf2 : Int) < end_ then
      match AV_RB16 p buf2 with
      | .error e => .error e
      | .ok header =>
        if header &&& 0xFFF6 ≠ 0xFFF0 then .ok (buf2, frames)
        else
          match AV_RB32 p (buf2 + 3) with
          | .error e => .error e
          | .ok w =>
            let fsize := (w >>> 13) &&& 0x1FFF
            if fsize < 7 then .ok (buf2, frames)
            else scanFrames p end_ fuel (buf2 + fsize) (frames + 1)
    else .ok (buf2, frames)

/-- The outer loop `for(; buf < end; buf = buf2+1)` of `adts_aac_probe`, started at
`buf` with the current `max_frames` and `first_frames`; the result is the final
`(max_frames, first_frames)`.  The first argument bounds the number of
iterations. -/
def scanOffsets (p : AVProbeData) (end_ : Int) :
    Nat → Nat → Int → Int → Except Fault (Int × Int)
  | 0, _, _, _ => .error .outOfFuel
  | fuel + 1, buf, max_frames, first_frames =>
    if (buf : Int) < end_ then
      match scanFrames p end_ (p.buf.length + 1) buf 0 with
      | .error e => .error e
      | .ok (buf2, frames) =>
        scanOffsets p end_ fuel (buf2 + 1) (max max_frames frames)
          (if buf = 0 then frames else first_frames)
    else .ok (max_frames, first_frames)

/-- The function `adts_aac_probe`. -/
def adts_aac_probe (p : AVProbeData) : Except Fault Int :=
  let end_ : Int := p.buf_size - 7
  match scanOffsets p end_ (p.buf.length + 1) 0 0 0 with
  | .error e => .error e
  | .ok (max_frames, first_frames) =>
    if first_frames ≥ 3 then .ok (AVPROBE_SCORE_MAX / 2 + 1)
    else if max_frames > 500 then .ok (AVPROBE_SCORE_MAX / 2)
    else if max_frames ≥ 3 then .ok (AVPROBE_SCORE_MAX / 4)
    else if max_frames ≥ 1 then .ok 1
    else .ok 0

/-! ### Vocabulary for statements about buffers -/

/-- The value of byte `i` of `b` (0 past the end). -/
def byteAt (b : List UInt8) (i : Nat) : Nat := (b.getD i 0).toNat

/-- The 16-bit big-endian word at bytes `i`, `i + 1` of `b`. -/
def rb16 (b : List UInt8) (i : Nat) : Nat := (byteAt b i <<< 8) ||| byteAt b (i + 1)

/-- The 32-bit big-endian word at bytes `i .. i + 3` of `b`. -/
def rb32 (b : List UInt8) (i : Nat) : Nat :=
  (byteAt b i <<< 24) ||| (byteAt b (i + 1) <<< 16) ||| (byteAt b (i + 2) <<< 8)
    ||| byteAt b (i + 3)

/-- The word at offset `i` is a sync word: `(w & 0xFFF6) == 0xFFF0`. -/
def syncAt (b : List UInt8) (i : Nat) : Prop := rb16 b i &&& 0xFFF6 = 0xFFF0

/-- The 13-bit length field of a header at offset `i`. -/
def fsizeAt (b : List UInt8) (i : Nat) : Nat := (rb32 b (i + 3) >>> 13) &&& 0x1FFF

instance (b : List UInt8) (i : Nat) : Decidable (syncAt b i) := by
  unfold syncAt; infer_instance

/-- Offset `k` carries a whole 7-byte header inside `b`, with a matching sync
word and a length field of at least 7. -/
def ValidHeaderAt (b : List UInt8) (k : Nat) : Prop :=
  k + 6 < b.length ∧ syncAt b k ∧ 7 ≤ fsizeAt b k

/-- The byte list `f` is one frame: it starts with a sync word and its length
field equals its actual length, which is at least 7. -/
def IsFrame (f : List UInt8) : Prop :=
  7 ≤ f.length ∧ syncAt f 0 ∧ fsizeAt f 0 = f.length

instance (b : List UInt8) (k : Nat) : Decidable (ValidHeaderAt b k) := by
  unfold ValidHeaderAt; infer_instance

instance (f : List UInt8) : Decidable (IsFrame f) := by
  unfold IsFrame; infer_instance

/-- A frame of the minimal length 7: header only, length field 7. -/
def minimalFrame : List UInt8 := [0xFF, 0xF1, 0x50, 0x80, 0x00, 0xFF, 0xFC]

/-- A frame of length 8: header and one payload byte, length field 8. -/
def shortFrame : List UInt8 := [0xFF, 0xF1, 0x50, 0x80, 0x01, 0x1F, 0xFC, 0x21]

/-- A frame of length 9 after one leading zero byte and before two trailing
ones. -/
def paddedFrame : List UInt8 :=
  [0x00, 0xFF, 0xF1, 0x50, 0x80, 0x01, 0x3F, 0xFC, 0x21, 0x1B, 0x00, 0x00]

/-- Ten bytes without any sync word, near misses included. -/
def noSyncSample : List UInt8 := [0xFF, 0xF2, 0x10, 0xF0, 0xFF, 0xE0, 0, 0, 0xF6, 0xFF]

/-! ### The scan as the spec words it -/

/-- Spec-worded run length: from offset `i`, count a frame while the header at the
cursor lies below `buf_size - 7`, its sync word matches and its length field is at
least 7, advancing by that length.  The first argument bounds the count. -/
def specRunLength (b : List UInt8) : Nat → Nat → Nat
  | 0, _ => 0
  | n + 1, i =>
    if i + 7 < b.length ∧ syncAt b i ∧ 7 ≤ fsizeAt b i then
      specRunLength b n (i + fsizeAt b i) + 1
    else 0

/-- Spec-worded end of the run that starts at `i`: the cursor at which it stops. -/
def specRunEnd (b : List UInt8) : Nat → Nat → Nat
  | 0, i => i
  | n + 1, i =>
    if i + 7 < b.length ∧ syncAt b i ∧ 7 ≤ fsizeAt b i then
      specRunEnd b n (i + fsizeAt b i)
    else i

/-- The number of consecutive valid frames decodable starting at offset `i`. -/
def runLengthAt (b : List UInt8) (i : Nat) : Nat := specRunLength b b.length i

/-- The cursor at which the run starting at offset `i` stops. -/
def runEndAt (b : List UInt8) (i : Nat) : Nat := specRunEnd b b.length i

/-- The largest element of a list of counts, 0 for the empty list. -/
def maxOf (l : List Nat) : Nat := l.foldr max 0

/-- Spec-worded `max_frames`: the maximum run length over every starting offset
`i` with `0 ≤ i < buf_size - 7`. -/
def specMaxFrames (b : List UInt8) : Nat :=
  maxOf ((List.range (b.length - 7)).map (runLengthAt b))

/-- Spec-worded `first_frames`: the run length found when starting at offset 0. -/
def specFirstFrames (b : List UInt8) : Nat := runLengthAt b 0

/-- Spec-worded mapping of the two counts to a score. -/
def specScore (max_frames first_frames : Int) : Int :=
  if first_frames ≥ 3 then AVPROBE_SCORE_MAX / 2 + 1
  else if max_frames > 500 then AVPROBE_SCORE_MAX / 2
  else if max_frames ≥ 3 then AVPROBE_SCORE_MAX / 4
  else if max_frames ≥ 1 then 1
  else 0

/-- The starting offsets the outer loop goes through from `i` on: `i` itself while
it lies below `buf_size - 7`, then one past the cursor where the run from `i`
stopped (`buf = buf2 + 1`).  The first argument bounds their number. -/
def scanStartsFrom (b : List UInt8) : Nat → Nat → List Nat
  | 0, _ => []
  | n + 1, i =>
    if i + 7 < b.length then i :: scanStartsFrom b n (runEndAt b i + 1) else []

/-- The starting offsets the outer loop of `adts_aac_probe` goes through. -/
def scanStarts (b : List UInt8) : List Nat := scanStartsFrom b b.length 0

/-- The two counters `(max_frames, first_frames)` with which the loops of
`adts_aac_probe` end. -/
def probeCounts (p : AVProbeData) : Except Fault (Int × Int) :=
  scanOffsets p (p.buf_size - 7) (p.buf.length + 1) 0 0 0

/-! ### The byte indices read -/

/-- The byte indices read by the inner loop of `adts_aac_probe` started at cursor
`buf2`, in order: `AV_RB16(buf2)` reads two bytes, `AV_RB32(buf2 + 3)` four. -/
def scanFramesReads (p : AVProbeData) (end_ : Int) : Nat → Nat → List Nat
  | 0, _ => []
  | fuel + 1, buf2 =>
    if (buf2 : Int) < end_ then
      [buf2, buf2 + 1] ++
        (match AV_RB16 p buf2 with
        | .error _ => []
        | .ok header =>
          if header &&& 0xFFF6 ≠ 0xFFF0 then []
          else
            [buf2 + 3, buf2 + 4, buf2 + 5, buf2 + 6] ++
              (match AV_RB32 p (buf2 + 3) with
              | .error _ => []
              | .ok w =>
                if (w >>> 13) &&& 0x1FFF < 7 then []
                else scanFramesReads p end_ fuel (buf2 + ((w >>> 13) &&& 0x1FFF))))
    else []

/-- The byte indices read by the outer loop of `adts_aac_probe` started at `buf`. -/
def scanOffsetsReads (p : AVProbeData) (end_ : Int) : Nat → Nat → List Nat
  | 0, _ => []
  | fuel + 1, buf =>
    if (buf : Int) < end_ then
      scanFramesReads p end_ (p.buf.length + 1) buf ++
        (match scanFrames p end_ (p.buf.length + 1) buf 0 with
        | .error _ => []
        | .ok (buf2, _) => scanOffsetsReads p end_ fuel (buf2 + 1))
    else []

/-- The byte indices read by `adts_aac_probe`, in order. -/
def probeReads (p : AVProbeData) : List Nat :=
  scanOffsetsReads p (p.buf_size - 7) (p.buf.length + 1) 0

/-- A frame header announcing 40 bytes, three frames of length 7 inside those 40
bytes, and eight zero bytes: 36 bytes in all. -/
def nestedRuns : List UInt8 :=
  [0xFF, 0xF1, 0x50, 0x80, 0x05, 0x1F, 0xFC] ++ minimalFrame ++ minimalFrame ++ minimalFrame
    ++ [0, 0, 0, 0, 0, 0, 0, 0]

/-- Two garbage bytes, then two frames of length 7 and one of length 8. -/
def garbageThenFrames : List UInt8 := [0x49, 0x44] ++ minimalFrame ++ minimalFrame ++ shortFrame

end AacDec

namespace VfAspect

/-! ## `libavfilter/vf_aspect.c` -/

/-- The type `AVRational`: a pair of C `int`s. -/
structure AVRational where
  num : Int
  den : Int
  deriving DecidableEq

/-- The private context `AspectContext` of the filter. -/
structure AspectContext where
  aspect : AVRational
  deriving DecidableEq

/-- The errno value `EINVAL`. -/
def EINVAL : Int := 22

/-- The error code `AVERROR(e)`, the negated errno value. -/
def AVERROR (e : Int) : Int := -e

/-- The largest `int`. -/
def INT_MAX : Int := 2147483647

/-- The smallest `int`. -/
def INT_MIN : Int := -2147483648

/-- The largest `long` (64 bits). -/
def LONG_MAX : Int := 9223372036854775807

/-- The smallest `long` (64 bits). -/
def LONG_MIN : Int := -9223372036854775808

/-- The string terminator. -/
def NUL : Char := Char.ofNat 0

/-- The characters of the C string stored in `a`: all those before the first
NUL. -/
def cstr (a : List Char) : List Char := a.takeWhile (fun ch => ch != NUL)

/-! ### The two `sscanf` calls

`sscanf` is the C library's; the model follows the GNU C library (glibc 2.36,
`vfscanf`).  A numeric conversion skips white space and then reads characters
for as long as they can continue a number.  For `%d` the characters read must
form an integer.  For `%lf` they are handed to `strtod`, and the conversion
succeeds when `strtod` finds a number at their start: an exponent marker, with
the sign after it, is read even when no digit follows, and the mantissa is then
converted on its own; `nan` is read without a parenthesised part. -/

/-- The C-locale `isspace`: space, and `\t \n \v \f \r`. -/
def isspace (ch : Char) : Bool := ch.toNat = 32 || (9 ≤ ch.toNat && ch.toNat ≤ 13)

/-- The decimal digits `0 .. 9`. -/
def isdigit (ch : Char) : Bool := 48 ≤ ch.toNat && ch.toNat ≤ 57

/-- The hexadecimal digits. -/
def isxdigit (ch : Char) : Bool :=
  isdigit ch || (97 ≤ ch.toNat && ch.toNat ≤ 102) || (65 ≤ ch.toNat && ch.toNat ≤ 70)

/-- The value of a run of decimal digits. -/
def decimalValue (ds : List Char) : Nat :=
  ds.foldl (fun acc ch => 10 * acc + (ch.toNat - 48)) 0

/-- Conversion of a 64-bit value to `int`: the low 32 bits, two's complement. -/
def toInt32 (v : Int) : Int := (v + 2147483648) % 4294967296 - 2147483648

/-- The `int` stored by `%d` for the mathematical value `v`.  Inside the `int`
range this is `v`; outside it ISO C leaves the result undefined and the model
follows glibc, which reads with `strtol` (clamping to `long`) and stores the low
32 bits. -/
def storeInt (v : Int) : Int :=
  toInt32 (if v < LONG_MIN then LONG_MIN else if LONG_MAX < v then LONG_MAX else v)

/-- An optional sign: whether it is a minus, and the input after it. -/
def stripSign (s : List Char) : Bool × List Char :=
  match s with
  | ch :: rest =>
    if ch == '-' then (true, rest) else if ch == '+' then (false, rest) else (false, s)
  | [] => (false, [])

/-- The outcome of one conversion: no input left, input that does not match, or a
value and the input after it. -/
inductive Conv (α : Type) where
  | inputFailure
  | matchFailure
  | ok (v : α) (rest : List Char)
  deriving DecidableEq

/-- The conversion `%d`: white space, an optional sign, a non-empty digit run. -/
def scanInt (s : List Char) : Conv Int :=
  match s.dropWhile isspace with
  | [] => .inputFailure
  | t =>
    let (neg, body) := stripSign t
    let ds := body.takeWhile isdigit
    if ds.isEmpty then .matchFailure
    else .ok (storeInt (if neg then -(decimalValue ds : Int) else decimalValue ds))
      (body.dropWhile isdigit)

/-- What `sscanf(args, "%d:%d%c", &num, &den, &c)` converted: nothing before the
input ended (`EOF`), nothing, `num`, `num` and `den`, or all three. -/
inductive PairScan where
  | eof
  | none
  | one (num : Int)
  | two (num den : Int)
  | three (num den : Int) (c : Char)
  deriving DecidableEq

/-- The value returned by the call. -/
def PairScan.ret : PairScan → Int
  | .eof => -1
  | .none => 0
  | .one _ => 1
  | .two _ _ => 2
  | .three _ _ _ => 3

/-- The variable `num` after the call, `old` being its value before. -/
def PairScan.num (r : PairScan) (old : Int) : Int :=
  match r with
  | .one n => n
  | .two n _ => n
  | .three n _ _ => n
  | _ => old

/-- The variable `den` after the call, `old` being its value before. -/
def PairScan.den (r : PairScan) (old : Int) : Int :=
  match r with
  | .two _ d => d
  | .three _ d _ => d
  | _ => old

/-- The variable `c` after the call, `old` being its value before. -/
def PairScan.c (r : PairScan) (old : Char) : Char :=
  match r with
  | .three _ _ c => c
  | _ => old

/-- The call `sscanf(args, "%d:%d%c", ...)` on the string `s`. -/
def sscanf_d_d_c (s : List Char) : PairScan :=
  match scanInt s with
  | .inputFailure => .eof
  | .matchFailure => .none
  | .ok n r1 =>
    match r1 with
    | [] => .one n
    | ch :: r2 =>
      if ch == ':' then
        match scanInt r2 with
        | .ok d r3 =>
          match r3 with
          | [] => .two n d
          | c :: _ => .three n d c
        | _ => .one n
      else .one n

/-- The longest common prefix of the lower-case word `w` and the input, letter
case ignored: its length and the input after it. -/
def matchWord : List Char → List Char → Nat × List Char
  | w :: ws, ch :: rest =>
    if ch.toLower == w then ((matchWord ws rest).1 + 1, (matchWord ws rest).2)
    else (0, ch :: rest)
  | _, s => (0, s)

/-- The mantissa loop of `%lf`: a run of digits, then an optional radix point
with a further run of digits.  The result is whether a digit was read
(`got_digit`), whether the point was read (`got_dot`), and the input after the
characters read. -/
def scanMantissa (dig : Char → Bool) (s : List Char) : Bool × Bool × List Char :=
  match s.dropWhile dig with
  | [] => (!(s.takeWhile dig).isEmpty, false, [])
  | ch :: rest =>
    if ch == '.' then
      (!(s.takeWhile dig).isEmpty || !(rest.takeWhile dig).isEmpty, true, rest.dropWhile dig)
    else (!(s.takeWhile dig).isEmpty, false, ch :: rest)

/-- The exponent of `%lf`, entered once a digit of the mantissa has been read:
the marker (`lo` or `up`), when it is there, is read together with an optional
sign and the decimal digits after it, of which there may be none.  The result is
the input after the characters read. -/
def scanExponent (lo up : Char) (s : List Char) : List Char :=
  match s with
  | ch :: rest =>
    if ch == lo || ch == up then (stripSign rest).2.dropWhile isdigit else s
  | [] => []

/-- The unsigned part of a `%lf` input; the result is the input left after the
characters read, or `none` for a matching failure.  The letters `nan`; `inf`,
which a following `i` obliges to continue to `infinity`; after `0x` a
hexadecimal mantissa, which needs a digit or the point, with a `p` exponent
when it has a digit; otherwise a decimal mantissa, which needs a digit, with an
`e` exponent. -/
def scanFloatBody (s : List Char) : Option (List Char) :=
  match s with
  | [] => Option.none
  | ch :: rest =>
    if ch.toLower == 'n' then
      if (matchWord "nan".toList s).1 = 3 then some (matchWord "nan".toList s).2
      else Option.none
    else if ch.toLower == 'i' then
      if (matchWord "infinity".toList s).1 = 3 ∨ (matchWord "infinity".toList s).1 = 8 then
        some (matchWord "infinity".toList s).2
      else Option.none
    else if ch == '0' && (rest.head? == some 'x' || rest.head? == some 'X') then
      if (scanMantissa isxdigit rest.tail).1 then
        some (scanExponent 'p' 'P' (scanMantissa isxdigit rest.tail).2.2)
      else if (scanMantissa isxdigit rest.tail).2.1 then
        some (scanMantissa isxdigit rest.tail).2.2
      else Option.none
    else if (scanMantissa isdigit s).1 then
      some (scanExponent 'e' 'E' (scanMantissa isdigit s).2.2)
    else Option.none

/-- The conversion `%lf`, without the value read: the `double` is not modelled,
only the extent of the input that the conversion reads. -/
def scanFloat (s : List Char) : Conv Unit :=
  match s.dropWhile isspace with
  | [] => .inputFailure
  | t =>
    match scanFloatBody (stripSign t).2 with
    | Option.none => .matchFailure
    | some rest => .ok () rest

/-- What `sscanf(args, "%lf%c", &ratio, &c)` converted: nothing before the input
ended (`EOF`), nothing, `ratio`, or `ratio` and `c`. -/
inductive NumScan where
  | eof
  | none
  | one
  | two (c : Char)
  deriving DecidableEq

/-- The value returned by the call. -/
def NumScan.ret : NumScan → Int
  | .eof => -1
  | .none => 0
  | .one => 1
  | .two _ => 2

/-- The variable `c` after the call, `old` being its value before. -/
def NumScan.c (r : NumScan) (old : Char) : Char :=
  match r with
  | .two c => c
  | _ => old

/-- The call `sscanf(args, "%lf%c", ...)` on the string `s`. -/
def sscanf_lf_c (s : List Char) : NumScan :=
  match scanFloat s with
  | .inputFailure => .eof
  | .matchFailure => .none
  | .ok _ r =>
    match r with
    | [] => .one
    | c :: _ => .two c

/-- The macro `FFABS`. -/
def FFABS (a : Int) : Int := if a ≥ 0 then a else -a

/-- The recursion of `av_gcd`, with a bound on its depth. -/
def av_gcd_loop : Nat → Int → Int → Int
  | 0, a, _ => a
  | fuel + 1, a, b => if b ≠ 0 then av_gcd_loop fuel b (Int.tmod a b) else a

/-- Modelled from the spec: `av_gcd` of `libavutil/mathematics.c`, the greatest
common divisor computed by the Euclidean algorithm, `av_gcd(a, b)` being
`av_gcd(b, a % b)` while `b` is not zero and `a` otherwise.  The depth bound is
never reached, the second argument shrinking in absolute value at every step. -/
def av_gcd (a b : Int) : Int := av_gcd_loop (b.natAbs + 1) a b

/-- The function `init`.  The node is represented by its private context `ctx`,
`args` is `none` for a NULL pointer, and the result is the value returned together
with the private context left behind.  `d2q` stands for the value that
`av_d2q(ratio, 100)` (`libavutil/rational.c`) yields for the `double` read by
`%lf`; the call is made at most once.  The `av_log` calls are left out. -/
def init (d2q : AVRational) (ctx : AspectContext) (args : Option (List Char)) :
    Int × AspectContext :=
  let finish : AVRational → Int × AspectContext := fun a =>
    (0, ⟨if a.den = 0 then ⟨0, 1⟩ else a⟩)
  match args with
  | Option.none => finish ctx.aspect
  | some a =>
    let s := cstr a
    let r1 := sscanf_d_d_c s
    let a1 : AVRational := ⟨r1.num ctx.aspect.num, r1.den ctx.aspect.den⟩
    let c1 := r1.c NUL
    let r2 := sscanf_lf_c s
    let a2 : AVRational := if r1.ret ≠ 2 then (if r2.ret = 1 then d2q else a1) else a1
    let c2 : Char := if r1.ret ≠ 2 then r2.c c1 else c1
    if c2 ≠ NUL ∨ a2.num ≤ 0 ∨ a2.den ≤ 0 then (AVERROR EINVAL, ⟨a2⟩)
    else
      let gcd := av_gcd (FFABS a2.num) (FFABS a2.den)
      finish (if gcd ≠ 0 then ⟨Int.tdiv a2.num gcd, Int.tdiv a2.den gcd⟩ else a2)

/-- The filter node `AVFilterContext` as far as the aspect filters use it: the
private context, and `rest` for every other field. -/
structure AVFilterContext (ν : Type) where
  priv : AspectContext
  rest : ν

/-- The link `AVFilterLink`: the peer `src` feeding it, the node `dst` owning the
input pad, the negotiated `sample_aspect_ratio`, and `rest` for every other
field. -/
structure AVFilterLink (σ ν μ : Type) where
  src : σ
  dst : AVFilterContext ν
  sample_aspect_ratio : AVRational
  rest : μ

/-- The function `setsar_config_props`: the value returned and the link left
behind. -/
def setsar_config_props {σ ν μ : Type} (inlink : AVFilterLink σ ν μ) :
    Int × AVFilterLink σ ν μ :=
  let aspect := inlink.dst.priv
  (0, { inlink with sample_aspect_ratio := aspect.aspect })

/-! ### Vocabulary for statements about argument strings -/

/-- The decimal text of an integer, as `printf("%d")` writes it. -/
def intText (z : Int) : List Char := (toString z).toList

/-- The text `N:D`. -/
def pairText (N D : Int) : List Char := intText N ++ ':' :: intText D

/-- Every character of `s` satisfies `p`. -/
def AllChars (p : Char → Bool) (s : List Char) : Prop := ∀ ch ∈ s, p ch = true

/-- An optional sign: nothing, `+` or `-`. -/
def IsSign (sg : List Char) : Prop := sg = [] ∨ sg = ['+'] ∨ sg = ['-']

/-- The text of an integer: an optional sign and at least one decimal digit. -/
def IsIntText (t : List Char) : Prop :=
  ∃ sg ds, t = sg ++ ds ∧ IsSign sg ∧ ds ≠ [] ∧ AllChars isdigit ds

/-- The grammar integer `:` integer: white space, an integer, a colon right after
it, white space, an integer, and nothing more. -/
def IsPairText (s : List Char) : Prop :=
  ∃ ws1 i1 ws2 i2, s = ws1 ++ i1 ++ ':' :: (ws2 ++ i2) ∧
    AllChars isspace ws1 ∧ IsIntText i1 ∧ AllChars isspace ws2 ∧ IsIntText i2

/-- An optional fraction: nothing, or a radix point and a run of digits, which may
be empty. -/
def IsFraction (dig : Char → Bool) (fr : List Char) : Prop :=
  fr = [] ∨ ∃ ds, fr = '.' :: ds ∧ AllChars dig ds

/-- A mantissa: a run of digits, which may be empty, and an optional fraction. -/
def IsMantissa (dig : Char → Bool) (m : List Char) : Prop :=
  ∃ ip fr, m = ip ++ fr ∧ AllChars dig ip ∧ IsFraction dig fr

/-- The text `m` has a digit. -/
def HasDigit (dig : Char → Bool) (m : List Char) : Prop := ∃ ch ∈ m, dig ch = true

/-- An optional exponent part: nothing, or the marker (`lo` or `up`), an optional
sign and a run of decimal digits, which may be empty. -/
def IsExponentPart (lo up : Char) (ex : List Char) : Prop :=
  ex = [] ∨ ∃ m sg ds, ex = m :: (sg ++ ds) ∧ (m = lo ∨ m = up) ∧ IsSign sg ∧
    AllChars isdigit ds

/-- A decimal number without its sign: a mantissa with at least one digit and an
optional exponent part. -/
def IsDecimalBody (b : List Char) : Prop :=
  ∃ m ex, b = m ++ ex ∧ IsMantissa isdigit m ∧ HasDigit isdigit m ∧
    IsExponentPart 'e' 'E' ex

/-- A hexadecimal number without its sign: `0x` or `0X`, a non-empty hexadecimal
mantissa and, when the mantissa has a digit, an optional `p` exponent part. -/
def IsHexBody (b : List Char) : Prop :=
  ∃ x m ex, b = '0' :: x :: (m ++ ex) ∧ (x = 'x' ∨ x = 'X') ∧ IsMantissa isxdigit m ∧
    m ≠ [] ∧ IsExponentPart 'p' 'P' ex ∧ (ex ≠ [] → HasDigit isxdigit m)

/-- The letters of `w`, in either case. -/
def IsWord (w : String) (b : List Char) : Prop := b.map Char.toLower = w.toList

/-- A number without its sign: `nan`, `inf`, `infinity`, a hexadecimal or a decimal
number. -/
def IsNumberBody (b : List Char) : Prop :=
  IsWord "nan" b ∨ IsWord "inf" b ∨ IsWord "infinity" b ∨ IsHexBody b ∨ IsDecimalBody b

/-- The grammar of a number: white space, an optional sign, a number, and nothing
more. -/
def IsNumberText (s : List Char) : Prop :=
  ∃ ws sg b, s = ws ++ sg ++ b ∧ AllChars isspace ws ∧ IsSign sg ∧ IsNumberBody b

/-- A decimal literal in the usual lexical form: an optional sign, a mantissa with
at least one digit and, optionally, an exponent part that has at least one
digit. -/
def IsDecimalLiteral (s : List Char) : Prop :=
  ∃ sg m ex, s = sg ++ m ++ ex ∧ IsSign sg ∧ IsMantissa isdigit m ∧ HasDigit isdigit m ∧
    IsExponentPart 'e' 'E' ex ∧ (ex ≠ [] → HasDigit isdigit ex)

/-- The character `ch` cannot continue the decimal number made of the mantissa `m`
and the exponent part `ex`: it is no digit; after a number without exponent part
it is no exponent marker, no radix point when the mantissa has none, and no `x`
when the mantissa is a lone `0`; after a bare exponent marker it is no sign. -/
def EndsDecimal (m ex : List Char) (ch : Char) : Prop :=
  isdigit ch = false ∧
    (ex = [] → ch ≠ 'e' ∧ ch ≠ 'E') ∧
    (ex = [] → '.' ∉ m → ch ≠ '.') ∧
    (ex = [] → m = ['0'] → ch ≠ 'x' ∧ ch ≠ 'X') ∧
    (ex.length = 1 → ch ≠ '+' ∧ ch ≠ '-')

instance (p : Char → Bool) (s : List Char) : Decidable (AllChars p s) := by
  unfold AllChars; infer_instance

instance (sg : List Char) : Decidable (IsSign sg) := by
  unfold IsSign; infer_instance

instance (dig : Char → Bool) (m : List Char) : Decidable (HasDigit dig m) := by
  unfold HasDigit; infer_instance

instance (m ex : List Char) (ch : Char) : Decidable (EndsDecimal m ex ch) := by
  unfold EndsDecimal; infer_instance

/-- The aspect and the character `c` as the two `sscanf` calls of `init` leave them,
before the validity test. -/
def afterScans (d2q : AVRational) (ctx : AspectContext) (a : List Char) : AVRational × Char :=
  let s := cstr a
  let r1 := sscanf_d_d_c s
  let a1 : AVRational := ⟨r1.num ctx.aspect.num, r1.den ctx.aspect.den⟩
  let c1 := r1.c NUL
  let r2 := sscanf_lf_c s
  (if r1.ret ≠ 2 then (if r2.ret = 1 then d2q else a1) else a1,
    if r1.ret ≠ 2 then r2.c c1 else c1)

end VfAspect

namespace AacDec

open VfAspect (AVRational av_gcd AVERROR)

/-! ## `adts_aac_read_header` -/

/-- Modelled from the spec: the media kinds `enum AVMediaType` of `libavutil/avutil.h`. -/
inductive AVMediaType where
  | AVMEDIA_TYPE_UNKNOWN
  | AVMEDIA_TYPE_VIDEO
  | AVMEDIA_TYPE_AUDIO
  | AVMEDIA_TYPE_DATA
  | AVMEDIA_TYPE_SUBTITLE
  | AVMEDIA_TYPE_ATTACHMENT
  deriving DecidableEq

/-- Modelled from the spec: the parsing modes `enum AVStreamParseType` of
`libavformat/avformat.h`. -/
inductive AVStreamParseType where
  | AVSTREAM_PARSE_NONE
  | AVSTREAM_PARSE_FULL
  | AVSTREAM_PARSE_HEADERS
  | AVSTREAM_PARSE_TIMESTAMPS
  deriving DecidableEq

/-- Modelled from the spec: the fields of `AVCodecContext` (`libavcodec/avcodec.h`) that
the header reader sets, media kind and codec identifier. -/
structure AVCodecContext where
  codec_type : AVMediaType
  codec_id : Int
  deriving DecidableEq

/-- Modelled from the spec: the fields of `AVStream` (`libavformat/avformat.h`) used
here, position in the stream table, codec context, parsing mode, timebase and the
width of its timestamps in bits. -/
structure AVStream where
  index : Int
  codec : AVCodecContext
  need_parsing : AVStreamParseType
  time_base : AVRational
  pts_wrap_bits : Int
  deriving DecidableEq

/-- Modelled from the spec: the container context `AVFormatContext`
(`libavformat/avformat.h`), where `iformat_value` is `s->iformat->value`, `pb` the byte
source, `streams` the stream table and `metadata` the tag dictionary. -/
structure AVFormatContext (π μ : Type) where
  iformat_value : Int
  pb : π
  streams : List AVStream
  metadata : μ

/-- The errno value `ENOMEM`. -/
def ENOMEM : Int := 12

/-- The timebase denominator passed to `av_set_pts_info` by
`adts_aac_read_header`. -/
def ADTS_TIMEBASE_DEN : Nat := 28224000

/-- Modelled from the spec: the thirteen standard ADTS sample rates, the legal native
clock rates of the format. -/
def ADTS_SAMPLE_RATES : List Nat :=
  [96000, 88200, 64000, 48000, 44100, 32000, 24000, 22050, 16000, 12000, 11025, 8000, 7350]

/-- Modelled from the spec: `av_set_pts_info` of `libavformat/utils.c`, which stores
the width of the timestamps and the timebase `pts_num / pts_den` reduced by the
greatest common divisor. -/
def av_set_pts_info (st : AVStream) (pts_wrap_bits : Int) (pts_num pts_den : Nat) : AVStream :=
  { st with
    pts_wrap_bits := pts_wrap_bits
    time_base := ⟨Int.tdiv pts_num (av_gcd pts_num pts_den),
      Int.tdiv pts_den (av_gcd pts_num pts_den)⟩ }

/-- The function `adts_aac_read_header`: the value returned and the context left
behind.  `fresh` is what `av_new_stream(s, 0)` (`libavformat/utils.c`) yields, `none`
for NULL and otherwise the new stream, which it has added to the stream table;
`id3` is the effect of `ff_id3v1_read` (`libavformat/id3v1.c`), which reads a tag
block from the byte source into the tag dictionary and leaves the streams alone. -/
def adts_aac_read_header {π μ : Type} (fresh : Option AVStream) (id3 : π → μ → μ)
    (s : AVFormatContext π μ) : Int × AVFormatContext π μ :=
  match fresh with
  | none => (AVERROR ENOMEM, s)
  | some st =>
    let st := { st with codec := { st.codec with codec_type := AVMediaType.AVMEDIA_TYPE_AUDIO } }
    let st := { st with codec := { st.codec with codec_id := s.iformat_value } }
    let st := { st with need_parsing := .AVSTREAM_PARSE_FULL }
    let metadata := id3 s.pb s.metadata
    let st := av_set_pts_info st 64 1 ADTS_TIMEBASE_DEN
    (0, { s with streams := s.streams ++ [st], metadata := metadata })

/-- A stream as allocation leaves it: kind unknown, no parsing, the MPEG-like
default timebase 1/90000 with 33 bits. -/
def blankStream : AVStream :=
  ⟨0, ⟨AVMediaType.AVMEDIA_TYPE_UNKNOWN, 0⟩, .AVSTREAM_PARSE_NONE, ⟨1, 90000⟩, 33⟩

end AacDec

namespace AacDec

/-! ## Properties of `adts_aac_probe` -/

/-- A read inside the buffer succeeds and yields the byte. -/
theorem rd_ok (p : AVProbeData) (i : Nat) (h : i < p.buf.length) : rd p i = .ok (byteAt p.buf i) := by
  unfold rd byteAt
  rw [List.getElem?_eq_getElem h]
  simp [List.getD, List.getElem?_eq_getElem h]

/-- A 16-bit read inside the buffer succeeds. -/
theorem AV_RB16_ok (p : AVProbeData) (i : Nat) (h : i + 1 < p.buf.length) :
    AV_RB16 p i = .ok (rb16 p.buf i) := by
  unfold AV_RB16 rb16
  rw [rd_ok p i (by omega), rd_ok p (i + 1) h]

/-- A 32-bit read inside the buffer succeeds. -/
theorem AV_RB32_ok (p : AVProbeData) (i : Nat) (h : i + 3 < p.buf.length) :
    AV_RB32 p i = .ok (rb32 p.buf i) := by
  unfold AV_RB32 rb32
  rw [rd_ok p i (by omega), rd_ok p (i + 1) (by omega), rd_ok p (i + 2) (by omega), rd_ok p (i + 3) h]

/-- The inner loop ends when the cursor has reached `end`. -/
theorem scanFrames_stop (p : AVProbeData) (fuel buf2 : Nat) (frames : Int)
    (h : ¬ ((buf2 : Int) < p.buf_size - 7)) :
    scanFrames p (p.buf_size - 7) (fuel + 1) buf2 frames = .ok (buf2, frames) := by
  rw [scanFrames, if_neg h]

/-- The inner loop ends at a header that is not valid. -/
theorem scanFrames_break (p : AVProbeData) (fuel buf2 : Nat) (frames : Int)
    (h : (buf2 : Int) < p.buf_size - 7) (hv : ¬ (syncAt p.buf buf2 ∧ 7 ≤ fsizeAt p.buf buf2)) :
    scanFrames p (p.buf_size - 7) (fuel + 1) buf2 frames = .ok (buf2, frames) := by
  have hl : buf2 + 7 < p.buf.length := by unfold AVProbeData.buf_size at h; omega
  rw [scanFrames, if_pos h, AV_RB16_ok p buf2 (by omega)]
  simp only
  by_cases hs : syncAt p.buf buf2
  · have hs' : rb16 p.buf buf2 &&& 0xFFF6 = 0xFFF0 := hs
    rw [if_neg (by simpa using hs'), AV_RB32_ok p (buf2 + 3) (by omega)]
    simp only
    have : fsizeAt p.buf buf2 < 7 := by
      by_contra hc; exact hv ⟨hs, by omega⟩
    unfold fsizeAt at this
    rw [if_pos this]
  · have hs' : ¬ rb16 p.buf buf2 &&& 0xFFF6 = 0xFFF0 := hs
    rw [if_pos (by simpa using hs')]

/-- The inner loop moves over a valid header by its length field. -/
theorem scanFrames_step (p : AVProbeData) (fuel buf2 : Nat) (frames : Int)
    (h : (buf2 : Int) < p.buf_size - 7) (hs : syncAt p.buf buf2) (hf : 7 ≤ fsizeAt p.buf buf2) :
    scanFrames p (p.buf_size - 7) (fuel + 1) buf2 frames
      = scanFrames p (p.buf_size - 7) fuel (buf2 + fsizeAt p.buf buf2) (frames + 1) := by
  have hl : buf2 + 7 < p.buf.length := by unfold AVProbeData.buf_size at h; omega
  have hs' : rb16 p.buf buf2 &&& 0xFFF6 = 0xFFF0 := hs
  rw [scanFrames, if_pos h, AV_RB16_ok p buf2 (by omega)]
  simp only
  rw [if_neg (by simpa using hs'), AV_RB32_ok p (buf2 + 3) (by omega)]
  simp only
  have : ¬ ((rb32 p.buf (buf2 + 3) >>> 13) &&& 0x1FFF) < 7 := by
    unfold fsizeAt at hf; omega
  rw [if_neg this]
  rfl

/-- Inner loop totality -/
theorem scanFrames_total (p : AVProbeData) :
    ∀ (fuel buf2 : Nat) (frames : Int), (p.buf_size - 7 - buf2).toNat < fuel →
      ∃ b f, scanFrames p (p.buf_size - 7) fuel buf2 frames = .ok (b, f) ∧ buf2 ≤ b ∧ frames ≤ f := by
  intro fuel
  induction fuel with
  | zero => intro buf2 frames h; omega
  | succ n ih =>
    intro buf2 frames h
    by_cases hlt : (buf2 : Int) < p.buf_size - 7
    · by_cases hv : syncAt p.buf buf2 ∧ 7 ≤ fsizeAt p.buf buf2
      · rw [scanFrames_step p n buf2 frames hlt hv.1 hv.2]
        obtain ⟨b, f, he, hb, hf⟩ := ih (buf2 + fsizeAt p.buf buf2) (frames + 1) (by
          have := hv.2
          push_cast
          omega)
        exact ⟨b, f, he, by omega, by omega⟩
      · exact ⟨buf2, frames, scanFrames_break p n buf2 frames hlt hv, le_refl _, le_refl _⟩
    · exact ⟨buf2, frames, scanFrames_stop p n buf2 frames hlt, le_refl _, le_refl _⟩

/-- The outer loop ends when the start offset has reached `end`. -/
theorem scanOffsets_stop (p : AVProbeData) (fuel buf : Nat) (m f : Int)
    (h : ¬ ((buf : Int) < p.buf_size - 7)) :
    scanOffsets p (p.buf_size - 7) (fuel + 1) buf m f = .ok (m, f) := by
  rw [scanOffsets, if_neg h]

/-- One iteration of the outer loop, given the run found by the inner loop. -/
theorem scanOffsets_step (p : AVProbeData) (fuel buf : Nat) (m f : Int) (buf2 : Nat) (frames : Int)
    (h : (buf : Int) < p.buf_size - 7)
    (hs : scanFrames p (p.buf_size - 7) (p.buf.length + 1) buf 0 = .ok (buf2, frames)) :
    scanOffsets p (p.buf_size - 7) (fuel + 1) buf m f
      = scanOffsets p (p.buf_size - 7) fuel (buf2 + 1) (max m frames)
          (if buf = 0 then frames else f) := by
  rw [scanOffsets, if_pos h, hs]

/-- The inner loop, with the budget the probe gives it, always produces a run. -/
theorem scanFrames_top (p : AVProbeData) (buf : Nat) (frames : Int) :
    ∃ b f, scanFrames p (p.buf_size - 7) (p.buf.length + 1) buf frames = .ok (b, f)
      ∧ buf ≤ b ∧ frames ≤ f :=
  scanFrames_total p _ buf frames (by unfold AVProbeData.buf_size; omega)

/-- Outer loop totality; later starts never touch first_frames -/
theorem scanOffsets_total (p : AVProbeData) :
    ∀ (fuel buf : Nat) (m f : Int), (p.buf_size - 7 - buf).toNat < fuel →
      ∃ m' f', scanOffsets p (p.buf_size - 7) fuel buf m f = .ok (m', f') ∧ m ≤ m'
        ∧ (0 < buf → f' = f) := by
  intro fuel
  induction fuel with
  | zero => intro buf m f h; omega
  | succ n ih =>
    intro buf m f h
    by_cases hlt : (buf : Int) < p.buf_size - 7
    · obtain ⟨b, fr, hs, hb, hfr⟩ := scanFrames_top p buf 0
      rw [scanOffsets_step p n buf m f b fr hlt hs]
      obtain ⟨m', f', he, hm, hf⟩ := ih (b + 1) (max m fr) (if buf = 0 then fr else f) (by
        push_cast; omega)
      refine ⟨m', f', he, le_trans (le_max_left _ _) hm, ?_⟩
      intro hpos
      rw [hf (by omega), if_neg (by omega)]
    · exact ⟨m, f, scanOffsets_stop p n buf m f hlt, le_refl _, fun _ => rfl⟩

/-- C4: for every buffer, of any size, `adts_aac_probe` returns a score, the score lies in
`[0, AVPROBE_SCORE_MAX]`, and it is one of 0, 1, `AVPROBE_SCORE_MAX/4`,
`AVPROBE_SCORE_MAX/2`, `AVPROBE_SCORE_MAX/2 + 1`. -/
theorem probe_range (p : AVProbeData) :
    ∃ s, adts_aac_probe p = .ok s ∧ 0 ≤ s ∧ s ≤ AVPROBE_SCORE_MAX ∧
      (s = 0 ∨ s = 1 ∨ s = AVPROBE_SCORE_MAX / 4 ∨ s = AVPROBE_SCORE_MAX / 2
        ∨ s = AVPROBE_SCORE_MAX / 2 + 1) := by
  obtain ⟨m, f, he, -, -⟩ := scanOffsets_total p (p.buf.length + 1) 0 0 0 (by
    unfold AVProbeData.buf_size; omega)
  unfold adts_aac_probe
  simp only [he]
  unfold AVPROBE_SCORE_MAX
  split_ifs <;> simp

/-- Offsets without a valid header leave the counters alone -/
theorem scanOffsets_quiet (p : AVProbeData) :
    ∀ (fuel buf : Nat) (m f : Int), (p.buf_size - 7 - buf).toNat < fuel →
      (∀ k, buf ≤ k → (k : Int) < p.buf_size - 7 → ¬ (syncAt p.buf k ∧ 7 ≤ fsizeAt p.buf k)) →
      0 ≤ m → (buf = 0 → f = 0) →
      scanOffsets p (p.buf_size - 7) fuel buf m f = .ok (m, f) := by
  intro fuel
  induction fuel with
  | zero => intro buf m f h; omega
  | succ n ih =>
    intro buf m f h hq hm hf
    by_cases hlt : (buf : Int) < p.buf_size - 7
    · have hs := scanFrames_break p p.buf.length buf 0 hlt (hq buf (le_refl _) hlt)
      rw [scanOffsets_step p n buf m f buf 0 hlt hs, max_eq_left hm]
      have hf' : (if buf = 0 then (0 : Int) else f) = f := by
        split_ifs with h0
        · exact (hf h0).symm
        · rfl
      rw [hf']
      exact ih (buf + 1) m f (by push_cast; omega) (fun k hk => hq k (by omega)) hm (by omega)
    · exact scanOffsets_stop p n buf m f hlt

/-- The score as a function of the two counters the scan ends with. -/
theorem probe_of_counts (p : AVProbeData) (m f : Int)
    (h : scanOffsets p (p.buf_size - 7) (p.buf.length + 1) 0 0 0 = .ok (m, f)) :
    adts_aac_probe p =
      if f ≥ 3 then .ok (AVPROBE_SCORE_MAX / 2 + 1)
      else if m > 500 then .ok (AVPROBE_SCORE_MAX / 2)
      else if m ≥ 3 then .ok (AVPROBE_SCORE_MAX / 4)
      else if m ≥ 1 then .ok 1
      else .ok 0 := by
  unfold adts_aac_probe
  simp only [h]

/-- C2: if no offset `i` of the buffer has a 16-bit big-endian word `w` at bytes `i`, `i +
1` with `(w & 0xFFF6) == 0xFFF0`, then `adts_aac_probe` returns 0. -/
theorem probe_no_sync (b : List UInt8) (h : ∀ i, i + 1 < b.length → ¬ syncAt b i) :
    adts_aac_probe ⟨b⟩ = .ok 0 := by
  have hq := scanOffsets_quiet ⟨b⟩ (b.length + 1) 0 0 0
    (by unfold AVProbeData.buf_size; simp only; omega)
    (fun k _ hk hv => h k (by unfold AVProbeData.buf_size at hk; simp only at hk; omega) hv.1)
    (le_refl _) (fun _ => rfl)
  rw [probe_of_counts _ 0 0 hq]
  simp

/-- A lone valid header yields a run of exactly one frame -/
theorem scanFrames_single (p : AVProbeData) (j : Nat)
    (hj : (j : Int) < p.buf_size - 7) (hs : syncAt p.buf j) (hf : 7 ≤ fsizeAt p.buf j)
    (hu : ∀ k : Nat, (k : Int) < p.buf_size - 7 → syncAt p.buf k ∧ 7 ≤ fsizeAt p.buf k → k = j) :
    scanFrames p (p.buf_size - 7) (p.buf.length + 1) j 0 = .ok (j + fsizeAt p.buf j, 1) := by
  have hl : j + 7 < p.buf.length := by unfold AVProbeData.buf_size at hj; omega
  rw [scanFrames_step p p.buf.length j 0 hj hs hf]
  obtain ⟨n, hn⟩ : ∃ n, p.buf.length = n + 1 := ⟨p.buf.length - 1, by omega⟩
  rw [hn]
  by_cases hlt : ((j + fsizeAt p.buf j : Nat) : Int) < p.buf_size - 7
  · rw [scanFrames_break p n _ _ hlt (fun hv => by have := hu _ hlt hv; omega)]
    rfl
  · rw [scanFrames_stop p n _ _ hlt]
    rfl

/-- With a single valid header, at `j`, the scan ends with `max_frames = 1`. -/
theorem scanOffsets_single (p : AVProbeData) (j : Nat)
    (hj : (j : Int) < p.buf_size - 7) (hs : syncAt p.buf j) (hf : 7 ≤ fsizeAt p.buf j)
    (hu : ∀ k : Nat, (k : Int) < p.buf_size - 7 → syncAt p.buf k ∧ 7 ≤ fsizeAt p.buf k → k = j) :
    ∀ (fuel buf : Nat), (p.buf_size - 7 - buf).toNat < fuel → buf ≤ j →
      scanOffsets p (p.buf_size - 7) fuel buf 0 0 = .ok (1, if j = 0 then 1 else 0) := by
  intro fuel
  induction fuel with
  | zero => intro buf h; omega
  | succ n ih =>
    intro buf h hle
    by_cases hbj : buf = j
    · subst hbj
      rw [scanOffsets_step p n buf 0 0 _ _ hj (scanFrames_single p buf hj hs hf hu)]
      apply scanOffsets_quiet p n _ _ _ (by push_cast; omega)
      · intro k hk hkl hv
        have := hu k hkl hv
        omega
      · simp
      · intro h0; omega
    · have hlt : (buf : Int) < p.buf_size - 7 := by omega
      have hb := scanFrames_break p p.buf.length buf 0 hlt (fun hv => hbj (hu buf hlt hv))
      rw [scanOffsets_step p n buf 0 0 buf 0 hlt hb]
      have e : (if buf = 0 then (0 : Int) else 0) = 0 := by split_ifs <;> rfl
      rw [e, max_self]
      exact ih (buf + 1) (by push_cast; omega) (by omega)

/-- C3 (amended): if exactly one offset `j` of the buffer carries a matching sync word
followed by a length field of at least 7, and `j < buf_size - 7`, then `adts_aac_probe`
returns 1. -/
theorem probe_single_frame (b : List UInt8) (j : Nat) (hj : j + 7 < b.length)
    (hv : ValidHeaderAt b j) (hu : ∀ k, ValidHeaderAt b k → k = j) :
    adts_aac_probe ⟨b⟩ = .ok 1 := by
  have hj' : (j : Int) < (AVProbeData.mk b).buf_size - 7 := by
    unfold AVProbeData.buf_size; simp only; omega
  have h := scanOffsets_single ⟨b⟩ j hj' hv.2.1 hv.2.2
    (fun k hk hkv => hu k ⟨by unfold AVProbeData.buf_size at hk; simp only at hk; omega, hkv⟩)
    (b.length + 1) 0 (by unfold AVProbeData.buf_size; simp only; omega) (Nat.zero_le _)
  rw [probe_of_counts _ _ _ h]
  split_ifs <;> simp_all

/-- A byte of a segment of the buffer, read through the buffer. -/
theorem byteAt_window (pre f post : List UInt8) (k : Nat) (hk : k < f.length) :
    byteAt (pre ++ (f ++ post)) (pre.length + k) = byteAt f k := by
  unfold byteAt
  congr 1
  rw [List.getD_eq_getElem?_getD, List.getD_eq_getElem?_getD,
    List.getElem?_append_right (by omega)]
  simp only [Nat.add_sub_cancel_left]
  rw [List.getElem?_append_left hk]

/-- The sync test at the start of a segment of the buffer. -/
theorem syncAt_window (pre f post : List UInt8) (h : 2 ≤ f.length) :
    syncAt (pre ++ (f ++ post)) pre.length ↔ syncAt f 0 := by
  unfold syncAt rb16
  have h0 := byteAt_window pre f post 0 (by omega)
  have h1 := byteAt_window pre f post 1 (by omega)
  simp only [Nat.add_zero] at h0
  rw [h0, h1, Nat.zero_add]

/-- The length field at the start of a segment of the buffer. -/
theorem fsizeAt_window (pre f post : List UInt8) (h : 7 ≤ f.length) :
    fsizeAt (pre ++ (f ++ post)) pre.length = fsizeAt f 0 := by
  unfold fsizeAt rb32
  have h3 := byteAt_window pre f post 3 (by omega)
  have h4 := byteAt_window pre f post 4 (by omega)
  have h5 := byteAt_window pre f post 5 (by omega)
  have h6 := byteAt_window pre f post 6 (by omega)
  simp only [Nat.add_assoc, Nat.zero_add] at *
  rw [h3, h4, h5, h6]

/-- A frame sitting at offset `pre.length`, examined by the scan, extends the run -/
theorem scanFrames_frame (pre f post : List UInt8) (fuel : Nat) (frames : Int)
    (hf : IsFrame f) (h : pre.length + 7 < (pre ++ (f ++ post)).length) :
    scanFrames ⟨pre ++ (f ++ post)⟩ ((AVProbeData.mk (pre ++ (f ++ post))).buf_size - 7)
        (fuel + 1) pre.length frames
      = scanFrames ⟨pre ++ (f ++ post)⟩ ((AVProbeData.mk (pre ++ (f ++ post))).buf_size - 7)
        fuel (pre.length + f.length) (frames + 1) := by
  obtain ⟨h7, hs, hl⟩ := hf
  have hlt : (pre.length : Int) < (AVProbeData.mk (pre ++ (f ++ post))).buf_size - 7 := by
    unfold AVProbeData.buf_size; simp only; omega
  have e := scanFrames_step ⟨pre ++ (f ++ post)⟩ fuel pre.length frames hlt
    ((syncAt_window pre f post (by omega)).2 hs)
    (by simp only; rw [fsizeAt_window pre f post h7, hl]; exact h7)
  simp only at e
  rw [fsizeAt_window pre f post h7, hl] at e
  exact e

/-- C1 (amended): if the buffer is exactly the concatenation of `n ≥ 3` frames, each
starting with a matching sync word and carrying a length field equal to its actual
length (at least 7), and the third frame starts at an offset below `buf_size - 7` (which
holds as soon as `n ≥ 4` or the last frame is longer than 7 bytes), then
`adts_aac_probe` returns `AVPROBE_SCORE_MAX/2 + 1`. -/
theorem probe_three_frames (fs : List (List UInt8)) (h3 : 3 ≤ fs.length)
    (hf : ∀ f ∈ fs, IsFrame f) (hend : (fs.take 2).flatten.length + 7 < fs.flatten.length) :
    adts_aac_probe ⟨fs.flatten⟩ = .ok (AVPROBE_SCORE_MAX / 2 + 1) := by
  match fs, h3, hf, hend with
  | f0 :: f1 :: f2 :: rest, _, hf, hend =>
    have hf0 : IsFrame f0 := hf f0 (by simp)
    have hf1 : IsFrame f1 := hf f1 (by simp)
    have hf2 : IsFrame f2 := hf f2 (by simp)
    have l0 := hf0.1
    have l1 := hf1.1
    have l2 := hf2.1
    simp only [List.take, List.flatten, List.append_nil, List.length_append] at hend
    have hb : (f0 :: f1 :: f2 :: rest).flatten = f0 ++ f1 ++ f2 ++ rest.flatten := by
      simp [List.flatten]
    rw [hb]
    set b := f0 ++ f1 ++ f2 ++ rest.flatten with hbdef
    have hlen : b.length = f0.length + f1.length + f2.length + rest.flatten.length := by
      simp only [hbdef, List.length_append]
    -- the three frames, seen from offset 0
    have e0 : b = [] ++ (f0 ++ (f1 ++ f2 ++ rest.flatten)) := by simp [hbdef]
    have e1 : b = f0 ++ (f1 ++ (f2 ++ rest.flatten)) := by simp [hbdef]
    have e2 : b = (f0 ++ f1) ++ (f2 ++ rest.flatten) := by simp [hbdef]
    obtain ⟨n, hn⟩ : ∃ n, b.length = n + 2 := ⟨b.length - 2, by omega⟩
    have s0 : scanFrames ⟨b⟩ ((AVProbeData.mk b).buf_size - 7) (b.length + 1) 0 0
        = scanFrames ⟨b⟩ ((AVProbeData.mk b).buf_size - 7) b.length f0.length 1 := by
      have := scanFrames_frame [] f0 (f1 ++ f2 ++ rest.flatten) b.length 0 hf0
        (by rw [← e0]; simp only [List.length_nil]; omega)
      rw [← e0] at this
      simpa using this
    have s1 : scanFrames ⟨b⟩ ((AVProbeData.mk b).buf_size - 7) (n + 2) f0.length 1
        = scanFrames ⟨b⟩ ((AVProbeData.mk b).buf_size - 7) (n + 1) (f0.length + f1.length) 2 := by
      have := scanFrames_frame f0 f1 (f2 ++ rest.flatten) (n + 1) 1 hf1
        (by rw [← e1]; omega)
      rw [← e1] at this
      simpa using this
    have s2 : scanFrames ⟨b⟩ ((AVProbeData.mk b).buf_size - 7) (n + 1) (f0.length + f1.length) 2
        = scanFrames ⟨b⟩ ((AVProbeData.mk b).buf_size - 7) n
            (f0.length + f1.length + f2.length) 3 := by
      have := scanFrames_frame (f0 ++ f1) f2 rest.flatten n 2 hf2
        (by rw [← e2]; simp only [List.length_append]; omega)
      rw [← e2] at this
      simpa using this
    obtain ⟨e, fr, he, -, hfr⟩ := scanFrames_total ⟨b⟩ n (f0.length + f1.length + f2.length) 3
      (by unfold AVProbeData.buf_size; simp only; omega)
    have hrun : scanFrames ⟨b⟩ ((AVProbeData.mk b).buf_size - 7) (b.length + 1) 0 0
        = .ok (e, fr) := by
      rw [s0, hn, s1, s2, he]
    have hlt : ((0 : Nat) : Int) < (AVProbeData.mk b).buf_size - 7 := by
      unfold AVProbeData.buf_size; simp only; omega
    obtain ⟨m', f', ho, -, hf'⟩ := scanOffsets_total ⟨b⟩ b.length (e + 1) (max 0 fr) fr
      (by unfold AVProbeData.buf_size; simp only; omega)
    have hall : scanOffsets ⟨b⟩ ((AVProbeData.mk b).buf_size - 7) (b.length + 1) 0 0 0
        = .ok (m', f') := by
      rw [scanOffsets_step ⟨b⟩ b.length 0 0 0 e fr hlt hrun]
      simpa using ho
    rw [probe_of_counts _ _ _ hall, hf' (by omega)]
    rw [if_pos (by omega)]

/-- C2 (witness): the sample without sync words scores 0. -/
theorem probe_no_sync_witness :
    (∀ i, i + 1 < noSyncSample.length → ¬ syncAt noSyncSample i) ∧
      adts_aac_probe ⟨noSyncSample⟩ = .ok 0 :=
  ⟨fun i hi => by
      have h9 : i < 9 := by simp [noSyncSample] at hi; omega
      interval_cases i <;> decide,
    probe_no_sync noSyncSample (fun i hi => by
      have h9 : i < 9 := by simp [noSyncSample] at hi; omega
      interval_cases i <;> decide)⟩

/-- C1 (counterexample): three frames of the minimal length 7, each with a matching
sync word and a length field equal to its length, form a 21-byte buffer on which
`adts_aac_probe` returns 1, not `AVPROBE_SCORE_MAX/2 + 1`: the third header starts at
offset 14, which is `buf_size - 7`, and is never examined. -/
theorem probe_three_minimal_frames :
    3 ≤ [minimalFrame, minimalFrame, minimalFrame].length ∧
      (∀ f ∈ [minimalFrame, minimalFrame, minimalFrame], IsFrame f) ∧
      adts_aac_probe ⟨[minimalFrame, minimalFrame, minimalFrame].flatten⟩ = .ok 1 ∧
      adts_aac_probe ⟨[minimalFrame, minimalFrame, minimalFrame].flatten⟩
        ≠ .ok (AVPROBE_SCORE_MAX / 2 + 1) := by
  decide

/-- C1 (witness): two frames of length 7 and one of length 8 score
`AVPROBE_SCORE_MAX/2 + 1`. -/
theorem probe_three_frames_witness :
    (3 ≤ [minimalFrame, minimalFrame, shortFrame].length ∧
      (∀ f ∈ [minimalFrame, minimalFrame, shortFrame], IsFrame f) ∧
      ([minimalFrame, minimalFrame, shortFrame].take 2).flatten.length + 7
        < [minimalFrame, minimalFrame, shortFrame].flatten.length) ∧
      adts_aac_probe ⟨[minimalFrame, minimalFrame, shortFrame].flatten⟩
        = .ok (AVPROBE_SCORE_MAX / 2 + 1) :=
  ⟨by decide,
    probe_three_frames [minimalFrame, minimalFrame, shortFrame] (by decide) (by decide)
      (by decide)⟩

/-- C3 (counterexample): a buffer that is one frame of the minimal length 7 has
exactly one valid header, at offset 0, and `adts_aac_probe` returns 0 on it, not 1:
`end` is `buf0` and no header is examined. -/
theorem probe_lone_minimal_frame :
    ValidHeaderAt minimalFrame 0 ∧ (∀ k, ValidHeaderAt minimalFrame k → k = 0) ∧
      adts_aac_probe ⟨minimalFrame⟩ = .ok 0 ∧ adts_aac_probe ⟨minimalFrame⟩ ≠ .ok 1 :=
  ⟨by decide,
    fun k hk => by
      have := hk.1
      simp [minimalFrame] at this
      omega,
    by decide, by decide⟩

/-- C3 (witness): a single 9-byte frame at offset 1 of a 12-byte buffer scores 1. -/
theorem probe_single_frame_witness :
    (1 + 7 < paddedFrame.length ∧ ValidHeaderAt paddedFrame 1 ∧
      (∀ k, ValidHeaderAt paddedFrame k → k = 1)) ∧
      adts_aac_probe ⟨paddedFrame⟩ = .ok 1 :=
  ⟨⟨by decide, by decide, fun k hk => by
      have h6 : k < 6 := by
        have := hk.1
        simp [paddedFrame] at this
        omega
      interval_cases k <;> first | rfl | exact absurd hk (by decide)⟩,
    probe_single_frame paddedFrame 1 (by decide) (by decide) (fun k hk => by
      have h6 : k < 6 := by
        have := hk.1
        simp [paddedFrame] at this
        omega
      interval_cases k <;> first | rfl | exact absurd hk (by decide))⟩

end AacDec

namespace VfAspect

/-! ## Properties of `init` and `setsar_config_props` -/

/-- The digit characters are digits, with the expected values. -/
theorem digitChar_spec (m : Nat) (h : m < 10) :
    isdigit (Nat.digitChar m) = true ∧ (Nat.digitChar m).toNat - 48 = m := by
  interval_cases m <;> decide

/-- The value of a digit run extended by one digit. -/
theorem decimalValue_snoc (ds : List Char) (ch : Char) :
    decimalValue (ds ++ [ch]) = 10 * decimalValue ds + (ch.toNat - 48) := by
  simp [decimalValue, List.foldl_append]

/-- The digits written for `n` form a non-empty digit run of value `n`. -/
theorem toDigitsCore_spec : ∀ (fuel n : Nat) (acc : List Char), n < fuel →
    ∃ ds, Nat.toDigitsCore 10 fuel n acc = ds ++ acc ∧ ds ≠ [] ∧
      (∀ ch ∈ ds, isdigit ch = true) ∧ decimalValue ds = n := by
  intro fuel
  induction fuel with
  | zero => intro n acc h; omega
  | succ k ih =>
    intro n acc h
    obtain ⟨hd, hv⟩ := digitChar_spec (n % 10) (Nat.mod_lt _ (by norm_num))
    unfold Nat.toDigitsCore
    by_cases h0 : n / 10 = 0
    · simp only [h0, if_true]
      refine ⟨[Nat.digitChar (n % 10)], rfl, by simp, ?_, ?_⟩
      · intro ch hch
        rw [List.mem_singleton] at hch
        rw [hch]; exact hd
      · have := decimalValue_snoc [] (Nat.digitChar (n % 10))
        simp only [List.nil_append] at this
        rw [this, hv]
        simp only [decimalValue, List.foldl_nil]
        omega
    · simp only [h0, if_false]
      obtain ⟨ds, he, -, hdig, hval⟩ := ih (n / 10) (Nat.digitChar (n % 10) :: acc) (by omega)
      refine ⟨ds ++ [Nat.digitChar (n % 10)], by rw [he]; simp, by simp, ?_, ?_⟩
      · intro ch hch
        rcases List.mem_append.1 hch with h1 | h1
        · exact hdig ch h1
        · rw [List.mem_singleton] at h1
          rw [h1]; exact hd
      · rw [decimalValue_snoc, hval, hv]
        omega

/-- The decimal text of `n` is a non-empty digit run of value `n`. -/
theorem toDigits_spec (n : Nat) :
    Nat.toDigits 10 n ≠ [] ∧ (∀ ch ∈ Nat.toDigits 10 n, isdigit ch = true) ∧
      decimalValue (Nat.toDigits 10 n) = n := by
  obtain ⟨ds, he, hne, hdig, hval⟩ := toDigitsCore_spec (n + 1) n [] (by omega)
  unfold Nat.toDigits
  rw [he, List.append_nil]
  exact ⟨hne, hdig, hval⟩

/-- The text of a non-negative integer. -/
theorem intText_ofNat (n : Nat) : intText (n : Int) = Nat.toDigits 10 n := by
  show (toString (Int.ofNat n)).toList = _
  rfl

/-- The text of a negative integer. -/
theorem intText_negSucc (n : Nat) : intText (Int.negSucc n) = '-' :: Nat.toDigits 10 (n + 1) := by
  show (toString (Int.negSucc n)).toList = _
  rfl

/-- A digit differs from every character that is not one. -/
theorem ne_of_isdigit (ch x : Char) (h : isdigit ch = true) (hx : isdigit x = false) : ch ≠ x := by
  intro e
  rw [e, hx] at h
  cases h

/-- A digit is not white space. -/
theorem isspace_of_isdigit (ch : Char) (h : isdigit ch = true) : isspace ch = false := by
  unfold isdigit at h
  unfold isspace
  simp only [Bool.and_eq_true, decide_eq_true_eq] at h
  simp only [Bool.or_eq_false_iff, Bool.and_eq_false_imp, decide_eq_false_iff_not,
    decide_eq_true_eq]
  omega

/-- An input starting with a digit has no sign. -/
theorem stripSign_digit (ch : Char) (tl : List Char) (h : isdigit ch = true) :
    stripSign (ch :: tl) = (false, ch :: tl) := by
  have h1 : (ch == '-') = false := beq_eq_false_iff_ne.2 (ne_of_isdigit ch _ h (by decide))
  have h2 : (ch == '+') = false := beq_eq_false_iff_ne.2 (ne_of_isdigit ch _ h (by decide))
  simp [stripSign, h1, h2]

/-- A digit run followed by something that is not a digit is read in full. -/
theorem takeWhile_digits (ds rest : List Char) (hd : ∀ ch ∈ ds, isdigit ch = true)
    (hr : ∀ ch ∈ rest.head?, isdigit ch = false) :
    (ds ++ rest).takeWhile isdigit = ds ∧ (ds ++ rest).dropWhile isdigit = rest := by
  have hrt : rest.takeWhile isdigit = [] ∧ rest.dropWhile isdigit = rest := by
    cases rest with
    | nil => simp
    | cons c tl =>
      have : isdigit c = false := hr c (by simp)
      simp [List.takeWhile, List.dropWhile, this]
  induction ds with
  | nil => simpa using hrt
  | cons d tl ih =>
    have hdd : isdigit d = true := hd d (by simp)
    have := ih (fun ch hch => hd ch (by simp [hch]))
    simp [List.takeWhile, List.dropWhile, hdd, this]

/-- The `%d` conversion reads an unsigned digit run in full -/
theorem scanInt_digits (ds rest : List Char) (hne : ds ≠ [])
    (hd : ∀ ch ∈ ds, isdigit ch = true) (hr : ∀ ch ∈ rest.head?, isdigit ch = false) :
    scanInt (ds ++ rest) = .ok (storeInt (decimalValue ds)) rest := by
  obtain ⟨ht, hdr⟩ := takeWhile_digits ds rest hd hr
  match ds, hne with
  | d :: tl, _ =>
    have hdd : isdigit d = true := hd d (by simp)
    have hsp : (d :: tl ++ rest).dropWhile isspace = d :: tl ++ rest := by
      simp [List.dropWhile, isspace_of_isdigit d hdd]
    unfold scanInt
    rw [hsp]
    simp only [List.cons_append, stripSign_digit d _ hdd]
    simp only [List.cons_append] at ht hdr
    rw [ht, hdr]
    simp

/-- The `%d` conversion reads a minus sign and the digit run after it -/
theorem scanInt_neg_digits (ds rest : List Char) (hne : ds ≠ [])
    (hd : ∀ ch ∈ ds, isdigit ch = true) (hr : ∀ ch ∈ rest.head?, isdigit ch = false) :
    scanInt ('-' :: (ds ++ rest)) = .ok (storeInt (-(decimalValue ds : Int))) rest := by
  obtain ⟨ht, hdr⟩ := takeWhile_digits ds rest hd hr
  have hsp : ('-' :: (ds ++ rest)).dropWhile isspace = '-' :: (ds ++ rest) := by
    simp [List.dropWhile, show isspace '-' = false by decide]
  unfold scanInt
  rw [hsp]
  have hs : stripSign ('-' :: (ds ++ rest)) = (true, ds ++ rest) := by simp [stripSign]
  simp only [hs]
  rw [ht, hdr]
  have : ds.isEmpty = false := by cases ds <;> simp_all
  simp [this]

/-- A value in the `int` range is stored unchanged. -/
theorem toInt32_id (z : Int) (h1 : INT_MIN ≤ z) (h2 : z ≤ INT_MAX) : storeInt z = z := by
  unfold INT_MIN at h1
  unfold INT_MAX at h2
  unfold storeInt toInt32 LONG_MIN LONG_MAX
  rw [if_neg (by omega), if_neg (by omega)]
  omega

/-- The conversion `%d` reads back the text of an `int`. -/
theorem scanInt_intText (z : Int) (rest : List Char) (h1 : INT_MIN ≤ z) (h2 : z ≤ INT_MAX)
    (hr : ∀ ch ∈ rest.head?, isdigit ch = false) :
    scanInt (intText z ++ rest) = .ok z rest := by
  cases z with
  | ofNat n =>
    obtain ⟨hne, hd, hv⟩ := toDigits_spec n
    change INT_MIN ≤ (n : Int) at h1
    change (n : Int) ≤ INT_MAX at h2
    rw [show Int.ofNat n = (n : Int) from rfl, intText_ofNat, scanInt_digits _ _ hne hd hr, hv,
      toInt32_id _ h1 h2]
  | negSucc n =>
    obtain ⟨hne, hd, hv⟩ := toDigits_spec (n + 1)
    rw [intText_negSucc, List.cons_append, scanInt_neg_digits _ _ hne hd hr, hv]
    have e : (-((n + 1 : Nat) : Int)) = Int.negSucc n := by
      rw [Int.negSucc_eq]; push_cast; ring
    rw [e, toInt32_id _ h1 h2]

/-- The recursion of `av_gcd` computes the greatest common divisor. -/
theorem av_gcd_loop_nat : ∀ (fuel a b : Nat), b < fuel →
    av_gcd_loop fuel (a : Int) (b : Int) = (Nat.gcd a b : Int) := by
  intro fuel
  induction fuel with
  | zero => intro a b h; omega
  | succ k ih =>
    intro a b h
    unfold av_gcd_loop
    by_cases hb : b = 0
    · subst hb
      simp
    · have hb' : (b : Int) ≠ 0 := by exact_mod_cast hb
      rw [if_pos hb']
      have hm : Int.tmod (a : Int) (b : Int) = ((a % b : Nat) : Int) := by
        rw [Int.tmod_eq_emod (by omega) (by omega)]
        norm_cast
      rw [hm, ih b (a % b) (by have := Nat.mod_lt a (Nat.pos_of_ne_zero hb); omega)]
      congr 1
      rw [Nat.gcd_comm b (a % b), ← Nat.gcd_rec, Nat.gcd_comm]

/-- On non-negative arguments `av_gcd` is the greatest common divisor. -/
theorem av_gcd_nat (a b : Nat) : av_gcd (a : Int) (b : Int) = (Nat.gcd a b : Int) := by
  unfold av_gcd
  exact av_gcd_loop_nat _ a b (by simp)

/-- The divisor computed by `init` for a positive pair. -/
theorem av_gcd_pos (n d : Int) (hn : 0 < n) (hd : 0 < d) :
    av_gcd (FFABS n) (FFABS d) = (Int.gcd n d : Int) := by
  have e1 : FFABS n = (n.natAbs : Int) := by unfold FFABS; rw [if_pos (by omega)]; omega
  have e2 : FFABS d = (d.natAbs : Int) := by unfold FFABS; rw [if_pos (by omega)]; omega
  rw [e1, e2, av_gcd_nat]
  rfl

/-- The pair scan converts exactly the two integers of the text `N:D`. -/
theorem sscanf_pairText (N D : Int) (hN : INT_MIN ≤ N) (hN' : N ≤ INT_MAX)
    (hD : INT_MIN ≤ D) (hD' : D ≤ INT_MAX) :
    sscanf_d_d_c (pairText N D) = .two N D := by
  unfold sscanf_d_d_c pairText
  rw [scanInt_intText N _ hN hN' (by intro ch hch; simp at hch; rw [← hch]; decide)]
  simp only [beq_self_eq_true, if_true]
  have := scanInt_intText D [] hD hD' (by simp)
  rw [List.append_nil] at this
  rw [this]

/-- The pair scan converts both integers of `N:D` and the character after it. -/
theorem sscanf_pairText_more (N D : Int) (ch : Char) (rest : List Char)
    (hN : INT_MIN ≤ N) (hN' : N ≤ INT_MAX) (hD : INT_MIN ≤ D) (hD' : D ≤ INT_MAX)
    (hch : isdigit ch = false) :
    sscanf_d_d_c (pairText N D ++ ch :: rest) = .three N D ch := by
  unfold sscanf_d_d_c pairText
  rw [List.append_assoc, scanInt_intText N _ hN hN'
    (by intro x hx; simp at hx; rw [← hx]; decide)]
  simp only [List.cons_append, beq_self_eq_true, if_true]
  rw [scanInt_intText D _ hD hD' (by intro x hx; simp at hx; rw [← hx]; exact hch)]

/-- The text of an integer has no NUL. -/
theorem intText_ne_NUL (z : Int) : ∀ ch ∈ intText z, ch ≠ NUL := by
  have hdig : ∀ n : Nat, ∀ ch ∈ Nat.toDigits 10 n, ch ≠ NUL := fun n ch hch =>
    ne_of_isdigit ch NUL ((toDigits_spec n).2.1 ch hch) (by decide)
  cases z with
  | ofNat n => exact hdig n
  | negSucc n =>
    rw [intText_negSucc]
    intro ch hch
    rcases List.mem_cons.1 hch with h | h
    · rw [h]; decide
    · exact hdig _ ch h

/-- The text `N:D` has no NUL. -/
theorem pairText_ne_NUL (N D : Int) : ∀ ch ∈ pairText N D, ch ≠ NUL := by
  intro ch hch
  unfold pairText at hch
  rcases List.mem_append.1 hch with h | h
  · exact intText_ne_NUL N ch h
  · rcases List.mem_cons.1 h with h | h
    · rw [h]; decide
    · exact intText_ne_NUL D ch h

/-- A NUL-free front part belongs to the C string. -/
theorem cstr_append (pre rest : List Char) (h : ∀ ch ∈ pre, ch ≠ NUL) :
    cstr (pre ++ rest) = pre ++ cstr rest := by
  unfold cstr
  exact List.takeWhile_append_of_pos (fun ch hch => by simpa using h ch hch)

/-- The text `N:D` is a C string as it stands. -/
theorem cstr_pairText (N D : Int) : cstr (pairText N D) = pairText N D := by
  have := cstr_append (pairText N D) [] (pairText_ne_NUL N D)
  simpa [cstr] using this

/-- The text `N:D` followed by a character, as a C string. -/
theorem cstr_pairText_more (N D : Int) (ch : Char) (rest : List Char) (h : ch ≠ NUL) :
    cstr (pairText N D ++ ch :: rest) = pairText N D ++ ch :: cstr rest := by
  rw [cstr_append _ _ (pairText_ne_NUL N D)]
  congr 1
  have hx : (ch != NUL) = true := by simpa using h
  simp [cstr, List.takeWhile, hx]

/-- A C string has no NUL. -/
theorem cstr_ne_NUL (a : List Char) : ∀ ch ∈ cstr a, ch ≠ NUL := by
  intro ch hch
  have := List.mem_takeWhile_imp hch
  simpa using this

/-- What `init` does once the pair scan has read exactly two integers -/
theorem init_of_two (d2q : AVRational) (ctx : AspectContext) (a : List Char) (n d : Int)
    (h : sscanf_d_d_c (cstr a) = .two n d) :
    init d2q ctx (some a) =
      if n ≤ 0 ∨ d ≤ 0 then (AVERROR EINVAL, ⟨⟨n, d⟩⟩)
      else (0, ⟨⟨Int.tdiv n (Int.gcd n d), Int.tdiv d (Int.gcd n d)⟩⟩) := by
  unfold init
  simp only [h, PairScan.ret, PairScan.num, PairScan.den, PairScan.c, ne_eq, not_true_eq_false,
    if_false, false_or]
  by_cases hnd : n ≤ 0 ∨ d ≤ 0
  · rw [if_pos hnd, if_pos hnd]
  · rw [if_neg hnd, if_neg hnd]
    have hn : 0 < n := by omega
    have hd : 0 < d := by omega
    have hg : (0 : Int) < (Int.gcd n d : Int) := by
      exact_mod_cast Int.gcd_pos_of_ne_zero_left d (by omega)
    rw [av_gcd_pos n d hn hd]
    have hq : Int.tdiv d (Int.gcd n d) ≠ 0 := by
      have hdvd : (Int.gcd n d : Int) ∣ d := Int.gcd_dvd_right
      generalize (Int.gcd n d : Int) = g at hg hdvd ⊢
      obtain ⟨k, hk⟩ := hdvd
      rw [Int.tdiv_eq_ediv (by omega) (by omega), hk, Int.mul_ediv_cancel_left _ (by omega)]
      intro h0
      rw [h0] at hk
      omega
    simp only [ne_eq, hg.ne', not_false_eq_true, if_true, hq, if_false]

/-- The input after a sign is a suffix of the input. -/
theorem stripSign_suffix (s : List Char) : (stripSign s).2 <:+ s := by
  unfold stripSign
  split
  · split_ifs
    · exact List.suffix_cons _ _
    · exact List.suffix_cons _ _
    · exact List.suffix_refl _
  · exact List.suffix_refl _

/-- The input left by `%d` is a suffix of the input. -/
theorem scanInt_suffix (s rest : List Char) (v : Int) (h : scanInt s = .ok v rest) :
    rest <:+ s := by
  unfold scanInt at h
  split at h
  · cases h
  · simp only at h
    split_ifs at h <;> cases h <;>
      exact ((List.dropWhile_suffix _).trans (stripSign_suffix _)).trans (List.dropWhile_suffix _)

/-- The character read by the pair scan is a character of the string. -/
theorem sscanf_d_d_c_mem (s : List Char) (n d : Int) (c : Char)
    (h : sscanf_d_d_c s = .three n d c) : c ∈ s := by
  unfold sscanf_d_d_c at h
  split at h
  · cases h
  · cases h
  · rename_i n1 r1 h1
    split at h
    · cases h
    · rename_i ch r2
      split_ifs at h
      split at h
      · rename_i d1 r3 h3
        split at h
        · cases h
        · rename_i c1 r4
          cases h
          have s3 : (c :: r4) <:+ r2 := scanInt_suffix _ _ _ h3
          have s1 : (ch :: r2) <:+ s := scanInt_suffix _ _ _ h1
          exact (s3.trans ((List.suffix_cons _ _).trans s1)).subset (by simp)
      · cases h

/-! ### The scans and the grammars they read -/

/-- A run of characters satisfying `p`, followed by something that does not, is
taken in full. -/
theorem span_append (p : Char → Bool) (ds rest : List Char) (hd : AllChars p ds)
    (hr : ∀ ch ∈ rest.head?, p ch = false) :
    (ds ++ rest).takeWhile p = ds ∧ (ds ++ rest).dropWhile p = rest := by
  have hrt : rest.takeWhile p = [] ∧ rest.dropWhile p = rest := by
    cases rest with
    | nil => simp
    | cons c tl =>
      have : p c = false := hr c (by simp)
      simp [List.takeWhile, List.dropWhile, this]
  induction ds with
  | nil => simpa using hrt
  | cons d tl ih =>
    have hdd : p d = true := hd d (by simp)
    have := ih (fun ch hch => hd ch (by simp [hch]))
    simp [List.takeWhile, List.dropWhile, hdd, this]

/-- What `takeWhile` and `dropWhile` split an input into. -/
theorem span_spec (p : Char → Bool) (s : List Char) :
    s = s.takeWhile p ++ s.dropWhile p ∧ AllChars p (s.takeWhile p) ∧
      (∀ ch ∈ (s.dropWhile p).head?, p ch = false) := by
  refine ⟨(List.takeWhile_append_dropWhile p s).symm,
    fun ch hch => List.mem_takeWhile_imp hch, ?_⟩
  induction s with
  | nil => simp
  | cons c tl ih =>
    by_cases hc : p c = true
    · simpa [List.dropWhile, hc] using ih
    · simp [List.dropWhile, hc]

/-- The sign that `stripSign` removes. -/
theorem stripSign_spec (s : List Char) : ∃ sg, IsSign sg ∧ s = sg ++ (stripSign s).2 := by
  cases s with
  | nil => exact ⟨[], Or.inl rfl, rfl⟩
  | cons ch rest =>
    by_cases h1 : ch = '-'
    · subst h1
      exact ⟨['-'], Or.inr (Or.inr rfl), by simp [stripSign]⟩
    · by_cases h2 : ch = '+'
      · subst h2
        exact ⟨['+'], Or.inr (Or.inl rfl), by simp [stripSign]⟩
      · exact ⟨[], Or.inl rfl, by simp [stripSign, h1, h2]⟩

/-- A sign is removed, and nothing else when the input does not start with one. -/
theorem stripSign_append (sg body : List Char) (hs : IsSign sg)
    (hb : sg = [] → ∀ ch ∈ body.head?, ch ≠ '+' ∧ ch ≠ '-') :
    (stripSign (sg ++ body)).2 = body := by
  rcases hs with rfl | rfl | rfl
  · cases body with
    | nil => rfl
    | cons c tl =>
      obtain ⟨h1, h2⟩ := hb rfl c (by simp)
      simp [stripSign, h1, h2]
  · simp [stripSign]
  · simp [stripSign]

/-- A sign is not white space. -/
theorem sign_head (sg rest : List Char) (hs : IsSign sg)
    (hr : ∀ ch ∈ rest.head?, isspace ch = false) :
    ∀ ch ∈ (sg ++ rest).head?, isspace ch = false := by
  rcases hs with rfl | rfl | rfl
  · simpa using hr
  · intro ch hch
    simp at hch
    rw [← hch]; decide
  · intro ch hch
    simp at hch
    rw [← hch]; decide

/-- What the conversion `%d` reads: white space and the text of an integer, up to a
character that is not a digit. -/
theorem scanInt_sound (s rest : List Char) (v : Int) (h : scanInt s = .ok v rest) :
    ∃ ws i, s = ws ++ i ++ rest ∧ AllChars isspace ws ∧ IsIntText i ∧
      (∀ ch ∈ rest.head?, isdigit ch = false) := by
  obtain ⟨e1, hws, -⟩ := span_spec isspace s
  obtain ⟨sg, hsg, e2⟩ := stripSign_spec (s.dropWhile isspace)
  obtain ⟨e3, hds, hrest⟩ := span_spec isdigit (stripSign (s.dropWhile isspace)).2
  unfold scanInt at h
  split at h
  · cases h
  · simp only at h
    by_cases hemp : ((stripSign (s.dropWhile isspace)).2.takeWhile isdigit).isEmpty = true
    · rw [if_pos hemp] at h
      cases h
    · rw [if_neg hemp] at h
      injection h with _ hr
      subst hr
      refine ⟨s.takeWhile isspace,
        sg ++ (stripSign (s.dropWhile isspace)).2.takeWhile isdigit, ?_, hws,
        ⟨sg, _, rfl, hsg, ?_, hds⟩, hrest⟩
      · rw [List.append_assoc, List.append_assoc, ← e3, ← e2, ← e1]
      · intro h0
        rw [h0] at hemp
        exact hemp rfl

/-- The conversion `%d` reads white space and the text of an integer in full. -/
theorem scanInt_complete (ws i rest : List Char) (hws : AllChars isspace ws)
    (hi : IsIntText i) (hr : ∀ ch ∈ rest.head?, isdigit ch = false) :
    ∃ v, scanInt (ws ++ i ++ rest) = .ok v rest := by
  obtain ⟨sg, ds, rfl, hsg, hne, hds⟩ := hi
  obtain ⟨d, tl, rfl⟩ := List.exists_cons_of_ne_nil hne
  have hd : isdigit d = true := hds d (by simp)
  have hhead : ∀ ch ∈ (sg ++ (d :: tl ++ rest)).head?, isspace ch = false :=
    sign_head sg _ hsg (by
      intro ch hch
      simp at hch
      rw [← hch]; exact isspace_of_isdigit d hd)
  have e1 : (ws ++ (sg ++ (d :: tl ++ rest))).dropWhile isspace = sg ++ (d :: tl ++ rest) :=
    (span_append isspace ws _ hws hhead).2
  have e2 : (stripSign (sg ++ (d :: tl ++ rest))).2 = d :: tl ++ rest :=
    stripSign_append sg _ hsg (by
      intro _ ch hch
      simp at hch
      rw [← hch]
      exact ⟨ne_of_isdigit d _ hd (by decide), ne_of_isdigit d _ hd (by decide)⟩)
  obtain ⟨e3, e4⟩ := span_append isdigit (d :: tl) rest hds hr
  have hne2 : sg ++ (d :: tl ++ rest) ≠ [] := by
    intro h0
    have := congrArg List.length h0
    simp at this
  unfold scanInt
  rw [List.append_assoc, List.append_assoc, e1]
  split
  · rename_i h0
    exact absurd h0 hne2
  · simp only [e2, e3, e4]
    simp

/-- The pair scan reads exactly two integers only from a text of the pair grammar. -/
theorem sscanf_d_d_c_sound (s : List Char) (n d : Int) (h : sscanf_d_d_c s = .two n d) :
    IsPairText s := by
  unfold sscanf_d_d_c at h
  split at h
  · cases h
  · cases h
  · rename_i n1 r1 h1
    split at h
    · cases h
    · rename_i ch r2
      by_cases hc : (ch == ':') = true
      · rw [if_pos hc] at h
        split at h
        · rename_i d1 r3 h3
          split at h
          · obtain ⟨ws1, i1, e1, hw1, hi1, -⟩ := scanInt_sound _ _ _ h1
            obtain ⟨ws2, i2, e2, hw2, hi2, -⟩ := scanInt_sound _ _ _ h3
            refine ⟨ws1, i1, ws2, i2, ?_, hw1, hi1, hw2, hi2⟩
            have hch : ch = ':' := by simpa using hc
            rw [e1, e2, hch, List.append_nil]
          · cases h
        · cases h
      · rw [if_neg hc] at h
        cases h

/-- The pair scan reads exactly two integers from every text of the pair grammar. -/
theorem sscanf_d_d_c_complete (s : List Char) (h : IsPairText s) :
    ∃ n d, sscanf_d_d_c s = .two n d := by
  obtain ⟨ws1, i1, ws2, i2, rfl, hw1, hi1, hw2, hi2⟩ := h
  obtain ⟨n, h1⟩ := scanInt_complete ws1 i1 (':' :: (ws2 ++ i2)) hw1 hi1
    (by intro ch hch; simp at hch; rw [← hch]; decide)
  obtain ⟨d, h2⟩ := scanInt_complete ws2 i2 [] hw2 hi2 (by simp)
  rw [List.append_nil] at h2
  refine ⟨n, d, ?_⟩
  unfold sscanf_d_d_c
  rw [h1]
  simp only [beq_self_eq_true, if_true]
  rw [h2]

/-- The pair scan reads both integers of a text of the pair grammar and the
character after it. -/
theorem sscanf_d_d_c_complete_more (w : List Char) (ch : Char) (rest : List Char)
    (h : IsPairText w) (hch : isdigit ch = false) :
    ∃ n d, sscanf_d_d_c (w ++ ch :: rest) = .three n d ch := by
  obtain ⟨ws1, i1, ws2, i2, rfl, hw1, hi1, hw2, hi2⟩ := h
  obtain ⟨n, h1⟩ := scanInt_complete ws1 i1 (':' :: (ws2 ++ i2 ++ ch :: rest)) hw1 hi1
    (by intro x hx; simp at hx; rw [← hx]; decide)
  obtain ⟨d, h2⟩ := scanInt_complete ws2 i2 (ch :: rest) hw2 hi2
    (by intro x hx; simp at hx; rw [← hx]; exact hch)
  refine ⟨n, d, ?_⟩
  have e : ws1 ++ i1 ++ ':' :: (ws2 ++ i2) ++ ch :: rest
      = ws1 ++ i1 ++ ':' :: (ws2 ++ i2 ++ ch :: rest) := by simp
  unfold sscanf_d_d_c
  rw [e, h1]
  simp only [beq_self_eq_true, if_true]
  rw [h2]

/-- Below the capital letters `toLower` changes nothing. -/
theorem toLower_of_lt (c : Char) (h : c.toNat < 65) : c.toLower = c := by
  unfold Char.toLower
  simp only []
  rw [if_neg (by omega)]

/-- A digit lies below the capital letters. -/
theorem isdigit_lt (c : Char) (h : isdigit c = true) : c.toNat < 65 := by
  unfold isdigit at h
  simp only [Bool.and_eq_true, decide_eq_true_eq] at h
  omega

/-- A decimal digit is a hexadecimal digit. -/
theorem isxdigit_of_isdigit (c : Char) (h : isdigit c = true) : isxdigit c = true := by
  unfold isxdigit
  rw [h]
  rfl

/-- The word match in terms of the input: the part read matches the start of the
word, letter case ignored. -/
theorem matchWord_spec : ∀ (w s : List Char), ∃ pre, s = pre ++ (matchWord w s).2 ∧
    pre.length = (matchWord w s).1 ∧ pre.map Char.toLower = w.take (matchWord w s).1 := by
  intro w
  induction w with
  | nil => intro s; exact ⟨[], by simp [matchWord]⟩
  | cons x xs ih =>
    intro s
    cases s with
    | nil => exact ⟨[], by simp [matchWord]⟩
    | cons ch rest =>
      by_cases hc : ch.toLower = x
      · obtain ⟨pre, e, hl, hm⟩ := ih rest
        refine ⟨ch :: pre, ?_, ?_, ?_⟩
        · simp only [matchWord, hc, beq_self_eq_true, if_true, List.cons_append]
          rw [← e]
        · simp only [matchWord, hc, beq_self_eq_true, if_true, List.length_cons, hl]
        · simp only [matchWord, hc, beq_self_eq_true, if_true, List.map_cons, List.take_succ_cons,
            hm]
      · have hb : (ch.toLower == x) = false := beq_eq_false_iff_ne.2 hc
        exact ⟨[], by simp [matchWord, hb]⟩

/-- An input that is the start of the word, letter case ignored, is matched in
full. -/
theorem matchWord_start : ∀ (w pre : List Char), pre.map Char.toLower <+: w →
    matchWord w pre = (pre.length, []) := by
  intro w
  induction w with
  | nil =>
    intro pre h
    have : pre = [] := by simpa using h
    subst this
    rfl
  | cons x xs ih =>
    intro pre h
    cases pre with
    | nil => rfl
    | cons c t =>
      rw [List.map_cons, List.cons_prefix_cons] at h
      have hb : (c.toLower == x) = true := by simpa using h.1
      simp only [matchWord, hb, if_true, ih t h.2, List.length_cons]

/-- What the mantissa loop reads is a mantissa; it has a digit when one was
read, and is not empty when the point was read. -/
theorem scanMantissa_sound (dig : Char → Bool) (s : List Char) :
    ∃ m, s = m ++ (scanMantissa dig s).2.2 ∧ IsMantissa dig m ∧
      ((scanMantissa dig s).1 = true → HasDigit dig m) ∧
      ((scanMantissa dig s).2.1 = true → m ≠ []) := by
  obtain ⟨e1, h1, -⟩ := span_spec dig s
  have hne : ∀ l : List Char, AllChars dig l → (!l.isEmpty) = true → HasDigit dig l := by
    intro l hl hl'
    cases l with
    | nil => simp at hl'
    | cons c t => exact ⟨c, by simp, hl c (by simp)⟩
  unfold scanMantissa
  split
  · rename_i hd
    rw [hd, List.append_nil] at e1
    refine ⟨s.takeWhile dig, by simpa using e1, ⟨_, [], by simp, h1, Or.inl rfl⟩, ?_, ?_⟩
    · intro h
      exact hne _ h1 h
    · intro h
      cases h
  · rename_i ch rest hd
    rw [hd] at e1
    by_cases hc : (ch == '.') = true
    · rw [if_pos hc]
      have hch : ch = '.' := by simpa using hc
      subst hch
      obtain ⟨e2, h2, -⟩ := span_spec dig rest
      refine ⟨s.takeWhile dig ++ '.' :: rest.takeWhile dig, ?_,
        ⟨_, _, rfl, h1, Or.inr ⟨_, rfl, h2⟩⟩, ?_, ?_⟩
      · simp only [List.append_assoc, List.cons_append]
        rw [← e2]
        exact e1
      · intro h
        simp only [Bool.or_eq_true] at h
        rcases h with h | h
        · obtain ⟨c, hc1, hc2⟩ := hne _ h1 h
          exact ⟨c, by simp [hc1], hc2⟩
        · obtain ⟨c, hc1, hc2⟩ := hne _ h2 h
          exact ⟨c, by simp [hc1], hc2⟩
      · intro _
        simp
    · rw [if_neg hc]
      refine ⟨s.takeWhile dig, e1, ⟨_, [], by simp, h1, Or.inl rfl⟩, ?_, ?_⟩
      · intro h
        exact hne _ h1 h
      · intro h
        cases h

/-- The mantissa loop reads a mantissa in full when the input after it cannot
continue it. -/
theorem scanMantissa_complete (dig : Char → Bool) (ip fr rest : List Char)
    (hdot : dig '.' = false) (hip : AllChars dig ip) (hfr : IsFraction dig fr)
    (hr : ∀ ch ∈ rest.head?, dig ch = false ∧ (fr = [] → ch ≠ '.')) :
    (scanMantissa dig (ip ++ fr ++ rest)).2.2 = rest ∧
      ((scanMantissa dig (ip ++ fr ++ rest)).1 = true ↔ HasDigit dig (ip ++ fr)) ∧
      ((scanMantissa dig (ip ++ fr ++ rest)).2.1 = true ↔ fr ≠ []) := by
  have hne : ∀ l : List Char, AllChars dig l → ((!l.isEmpty) = true ↔ l ≠ []) := by
    intro l _
    cases l <;> simp
  rcases hfr with rfl | ⟨ds, rfl, hds⟩
  · obtain ⟨e1, e2⟩ := span_append dig ip rest hip (fun ch hch => (hr ch hch).1)
    have hgd : ((!ip.isEmpty) = true ↔ HasDigit dig (ip ++ [])) := by
      rw [List.append_nil]
      constructor
      · intro h
        cases ip with
        | nil => simp at h
        | cons c t => exact ⟨c, by simp, hip c (by simp)⟩
      · rintro ⟨c, hc, -⟩
        cases ip with
        | nil => simp at hc
        | cons c t => simp
    unfold scanMantissa
    simp only [List.append_nil, e1, e2]
    cases rest with
    | nil =>
      simp only [ne_eq, not_true_eq_false, iff_false, Bool.false_eq_true, not_false_eq_true,
        true_and]
      simpa using hgd
    | cons c tl =>
      have hc : (c == '.') = false := beq_eq_false_iff_ne.2 ((hr c (by simp)).2 rfl)
      simp only [hc, Bool.false_eq_true, if_false, ne_eq, not_true_eq_false, iff_false,
        not_false_eq_true, true_and]
      simpa using hgd
  · obtain ⟨e1, e2⟩ := span_append dig ip ('.' :: (ds ++ rest)) hip
      (by intro ch hch; simp at hch; rw [← hch]; exact hdot)
    obtain ⟨e3, e4⟩ := span_append dig ds rest hds (fun ch hch => (hr ch hch).1)
    have e : ip ++ '.' :: ds ++ rest = ip ++ '.' :: (ds ++ rest) := by simp
    unfold scanMantissa
    simp only [e, e1, e2, beq_self_eq_true, if_true, e3, e4, ne_eq, reduceCtorEq,
      not_false_eq_true, iff_true, true_and]
    refine ⟨⟨?_, ?_⟩, trivial⟩
    · intro h
      simp only [Bool.or_eq_true] at h
      rcases h with h | h
      · cases ip with
        | nil => simp at h
        | cons c t => exact ⟨c, by simp, hip c (by simp)⟩
      · cases ds with
        | nil => simp at h
        | cons c t => exact ⟨c, by simp, hds c (by simp)⟩
    · rintro ⟨c, hc, hcd⟩
      rcases List.mem_append.1 hc with h | h
      · cases ip with
        | nil => simp at h
        | cons c t => simp
      · rcases List.mem_cons.1 h with h | h
        · rw [h, hdot] at hcd
          cases hcd
        · cases ds with
          | nil => simp at h
          | cons c t => simp

/-- What the exponent step reads is an exponent part. -/
theorem scanExponent_sound (lo up : Char) (s : List Char) :
    ∃ ex, s = ex ++ scanExponent lo up s ∧ IsExponentPart lo up ex := by
  cases s with
  | nil => exact ⟨[], rfl, Or.inl rfl⟩
  | cons c rest =>
    by_cases hc : (c == lo || c == up) = true
    · obtain ⟨sg, hsg, e1⟩ := stripSign_spec rest
      obtain ⟨e2, hds, -⟩ := span_spec isdigit (stripSign rest).2
      refine ⟨c :: (sg ++ (stripSign rest).2.takeWhile isdigit), ?_,
        Or.inr ⟨c, sg, _, rfl, by simpa using hc, hsg, hds⟩⟩
      simp only [scanExponent, hc, if_true, List.cons_append, List.append_assoc]
      rw [← e2, ← e1]
    · exact ⟨[], by simp only [scanExponent, hc]; simp, Or.inl rfl⟩

/-- The exponent step reads an exponent part in full when the input after it
cannot continue it. -/
theorem scanExponent_complete (lo up : Char) (ex rest : List Char)
    (hex : IsExponentPart lo up ex)
    (hr : ∀ ch ∈ rest.head?, (ex = [] → ch ≠ lo ∧ ch ≠ up) ∧ (ex ≠ [] → isdigit ch = false) ∧
      (ex.length = 1 → ch ≠ '+' ∧ ch ≠ '-')) :
    scanExponent lo up (ex ++ rest) = rest := by
  rcases hex with rfl | ⟨m, sg, ds, rfl, hm, hsg, hds⟩
  · cases rest with
    | nil => rfl
    | cons c tl =>
      obtain ⟨h1, h2⟩ := (hr c (by simp)).1 rfl
      simp [scanExponent, h1, h2]
  · have hmk : (m == lo || m == up) = true := by simpa using hm
    have e1 : (stripSign (sg ++ (ds ++ rest))).2 = ds ++ rest := by
      apply stripSign_append sg _ hsg
      rintro rfl ch hch
      cases ds with
      | nil =>
        simp only [List.nil_append] at hch
        exact (hr ch hch).2.2 (by simp)
      | cons d t =>
        simp at hch
        rw [← hch]
        have hd : isdigit d = true := hds d (by simp)
        exact ⟨ne_of_isdigit d _ hd (by decide), ne_of_isdigit d _ hd (by decide)⟩
    have e2 : (ds ++ rest).dropWhile isdigit = rest :=
      (span_append isdigit ds rest hds (fun ch hch => (hr ch hch).2.1 (by simp))).2
    simp only [List.cons_append, List.append_assoc, scanExponent, hmk, if_true, e1, e2]

/-- A character that `toLower` sends to a letter is no white space, sign, digit or
point. -/
theorem toLower_letter (c x : Char) (hx : 65 ≤ x.toNat) (h : c.toLower = x) :
    65 ≤ c.toNat := by
  by_contra hlt
  rw [toLower_of_lt c (by omega)] at h
  subst h
  exact hlt hx

/-- A character from the capital letters on is no white space and no sign. -/
theorem head_of_letter (c : Char) (h : 65 ≤ c.toNat) :
    isspace c = false ∧ c ≠ '+' ∧ c ≠ '-' := by
  refine ⟨?_, ?_, ?_⟩
  · unfold isspace
    simp only [Bool.or_eq_false_iff, Bool.and_eq_false_imp, decide_eq_false_iff_not,
      decide_eq_true_eq]
    omega
  · rintro rfl
    revert h
    decide
  · rintro rfl
    revert h
    decide

/-- A digit or a point is no white space and no sign, and `toLower` leaves it. -/
theorem head_of_mantissa (c : Char) (h : isdigit c = true ∨ c = '.') :
    isspace c = false ∧ c ≠ '+' ∧ c ≠ '-' ∧ c.toNat < 65 := by
  rcases h with h | rfl
  · exact ⟨isspace_of_isdigit c h, ne_of_isdigit c _ h (by decide),
      ne_of_isdigit c _ h (by decide), isdigit_lt c h⟩
  · decide

/-- The characters of a decimal mantissa are digits and points. -/
theorem mantissa_chars (m : List Char) (hm : IsMantissa isdigit m) :
    ∀ ch ∈ m, isdigit ch = true ∨ ch = '.' := by
  obtain ⟨ip, fr, rfl, hip, hfr⟩ := hm
  intro ch hch
  rcases List.mem_append.1 hch with h | h
  · exact Or.inl (hip ch h)
  · rcases hfr with rfl | ⟨ds, rfl, hds⟩
    · simp at h
    · rcases List.mem_cons.1 h with h | h
      · exact Or.inr h
      · exact Or.inl (hds ch h)

/-- What the unsigned part of `%lf` reads is a number of the grammar. -/
theorem scanFloatBody_sound (s r : List Char) (h : scanFloatBody s = some r) :
    ∃ b, s = b ++ r ∧ IsNumberBody b := by
  cases s with
  | nil => simp [scanFloatBody] at h
  | cons ch rest =>
    unfold scanFloatBody at h
    simp only at h
    by_cases hn : (ch.toLower == 'n') = true
    · rw [if_pos hn] at h
      by_cases hk : (matchWord "nan".toList (ch :: rest)).1 = 3
      · rw [if_pos hk] at h
        injection h with h
        obtain ⟨pre, e, -, hm⟩ := matchWord_spec "nan".toList (ch :: rest)
        rw [hk] at hm
        rw [h] at e
        exact ⟨pre, e, Or.inl hm⟩
      · rw [if_neg hk] at h
        cases h
    · rw [if_neg hn] at h
      by_cases hi : (ch.toLower == 'i') = true
      · rw [if_pos hi] at h
        by_cases hk : (matchWord "infinity".toList (ch :: rest)).1 = 3
            ∨ (matchWord "infinity".toList (ch :: rest)).1 = 8
        · rw [if_pos hk] at h
          injection h with h
          obtain ⟨pre, e, -, hm⟩ := matchWord_spec "infinity".toList (ch :: rest)
          rw [h] at e
          rcases hk with hk | hk
          · rw [hk] at hm
            exact ⟨pre, e, Or.inr (Or.inl hm)⟩
          · rw [hk] at hm
            exact ⟨pre, e, Or.inr (Or.inr (Or.inl hm))⟩
        · rw [if_neg hk] at h
          cases h
      · rw [if_neg hi] at h
        by_cases hx : (ch == '0' && (rest.head? == some 'x' || rest.head? == some 'X')) = true
        · rw [if_pos hx] at h
          simp only [Bool.and_eq_true, Bool.or_eq_true, beq_iff_eq] at hx
          obtain ⟨rfl, hx⟩ := hx
          cases rest with
          | nil => simp at hx
          | cons x tl =>
            have hx' : x = 'x' ∨ x = 'X' := by simpa using hx
            simp only [List.tail_cons] at h
            obtain ⟨m, e1, hm, hd, hp⟩ := scanMantissa_sound isxdigit tl
            by_cases hg : (scanMantissa isxdigit tl).1 = true
            · rw [if_pos hg] at h
              injection h with h
              obtain ⟨ex, e2, hex⟩ :=
                scanExponent_sound 'p' 'P' (scanMantissa isxdigit tl).2.2
              have hdm := hd hg
              have hne : m ≠ [] := by
                obtain ⟨c, hc, -⟩ := hdm
                exact List.ne_nil_of_mem hc
              refine ⟨'0' :: x :: (m ++ ex), ?_,
                Or.inr (Or.inr (Or.inr (Or.inl
                  ⟨x, m, ex, rfl, hx', hm, hne, hex, fun _ => hdm⟩)))⟩
              simp only [List.cons_append, List.append_assoc]
              rw [← h, ← e2, ← e1]
            · rw [if_neg hg] at h
              by_cases hq : (scanMantissa isxdigit tl).2.1 = true
              · rw [if_pos hq] at h
                injection h with h
                refine ⟨'0' :: x :: (m ++ []), ?_,
                  Or.inr (Or.inr (Or.inr (Or.inl
                    ⟨x, m, [], rfl, hx', hm, hp hq, Or.inl rfl, fun h0 => absurd rfl h0⟩)))⟩
                simp only [List.cons_append, List.append_nil]
                rw [← h, ← e1]
              · rw [if_neg hq] at h
                cases h
        · rw [if_neg hx] at h
          by_cases hg : (scanMantissa isdigit (ch :: rest)).1 = true
          · rw [if_pos hg] at h
            injection h with h
            obtain ⟨m, e1, hm, hd, -⟩ := scanMantissa_sound isdigit (ch :: rest)
            obtain ⟨ex, e2, hex⟩ :=
              scanExponent_sound 'e' 'E' (scanMantissa isdigit (ch :: rest)).2.2
            refine ⟨m ++ ex, ?_, Or.inr (Or.inr (Or.inr (Or.inr ⟨m, ex, rfl, hm, hd hg, hex⟩)))⟩
            rw [List.append_assoc, ← h, ← e2]
            exact e1
          · rw [if_neg hg] at h
            cases h

/-- The unsigned part of `%lf` reads a decimal number in full when the input after
it cannot continue it. -/
theorem scanFloatBody_decimal (m ex rest : List Char) (hm : IsMantissa isdigit m)
    (hd : HasDigit isdigit m) (hex : IsExponentPart 'e' 'E' ex)
    (hr : ∀ ch ∈ rest.head?, EndsDecimal m ex ch) :
    scanFloatBody (m ++ ex ++ rest) = some rest := by
  have hchars := mantissa_chars m hm
  have hexhead : ∀ ch ∈ ex.head?, ch = 'e' ∨ ch = 'E' := by
    intro ch hch
    rcases hex with rfl | ⟨mk, sg, ds, rfl, hmk, -, -⟩
    · simp at hch
    · simp at hch
      rw [← hch]
      exact hmk
  obtain ⟨c, t, hct⟩ : ∃ c t, m = c :: t := by
    obtain ⟨c, hc, -⟩ := hd
    exact List.exists_cons_of_ne_nil (List.ne_nil_of_mem hc)
  have hc := hchars c (by rw [hct]; simp)
  obtain ⟨-, -, -, hlow⟩ := head_of_mantissa c hc
  have hn : (c.toLower == 'n') = false := by
    rw [toLower_of_lt c hlow]
    apply beq_eq_false_iff_ne.2
    rintro rfl
    revert hlow
    decide
  have hi : (c.toLower == 'i') = false := by
    rw [toLower_of_lt c hlow]
    apply beq_eq_false_iff_ne.2
    rintro rfl
    revert hlow
    decide
  have hx : (c == '0' && ((t ++ ex ++ rest).head? == some 'x'
      || (t ++ ex ++ rest).head? == some 'X')) = false := by
    by_cases h0 : c = '0'
    · have key : ∀ ch ∈ (t ++ ex ++ rest).head?, ch ≠ 'x' ∧ ch ≠ 'X' := by
        intro ch hch
        cases t with
        | cons c2 t2 =>
          simp at hch
          rw [← hch]
          rcases hchars c2 (by rw [hct]; simp) with h | h
          · exact ⟨ne_of_isdigit c2 _ h (by decide), ne_of_isdigit c2 _ h (by decide)⟩
          · rw [h]; decide
        | nil =>
          cases ex with
          | cons mk ex2 =>
            simp at hch
            rw [← hch]
            rcases hexhead mk (by simp) with h | h <;> rw [h] <;> decide
          | nil =>
            simp only [List.nil_append] at hch
            exact (hr ch hch).2.2.2.1 rfl (by rw [hct, h0])
      cases hh : (t ++ ex ++ rest).head? with
      | none => simp
      | some y =>
        obtain ⟨h1, h2⟩ := key y (by rw [hh]; simp)
        simp [h1, h2]
    · simp [h0]
  obtain ⟨ip, fr, rfl, hip, hfr⟩ := hm
  have hrest : ∀ ch ∈ (ex ++ rest).head?, isdigit ch = false ∧ (fr = [] → ch ≠ '.') := by
    intro ch hch
    cases ex with
    | cons mk ex2 =>
      simp at hch
      rw [← hch]
      rcases hexhead mk (by simp) with h | h <;> rw [h] <;> exact ⟨by decide, fun _ => by decide⟩
    | nil =>
      simp only [List.nil_append] at hch
      refine ⟨(hr ch hch).1, fun hf => (hr ch hch).2.2.1 rfl ?_⟩
      intro hmem
      rw [hf, List.append_nil] at hmem
      have := hip _ hmem
      revert this
      decide
  obtain ⟨k1, k2, -⟩ := scanMantissa_complete isdigit ip fr (ex ++ rest) (by decide) hip hfr hrest
  have hgd := k2.2 hd
  have hexp := scanExponent_complete 'e' 'E' ex rest hex (by
    intro ch hch
    exact ⟨(hr ch hch).2.1, fun _ => (hr ch hch).1, (hr ch hch).2.2.2.2⟩)
  have e0 : ip ++ fr ++ ex ++ rest = c :: (t ++ ex ++ rest) := by
    rw [hct]
    simp
  have e1 : c :: (t ++ ex ++ rest) = ip ++ fr ++ (ex ++ rest) := by
    rw [← e0]
    simp
  rw [e0]
  unfold scanFloatBody
  simp only [hn, hi, hx, Bool.false_eq_true, if_false]
  rw [e1, if_pos hgd, k1, hexp]

/-- The unsigned part of `%lf` reads every number of the grammar in full. -/
theorem scanFloatBody_complete (b : List Char) (h : IsNumberBody b) :
    scanFloatBody b = some [] := by
  rcases h with h | h | h | h | h
  · unfold IsWord at h
    have hp := matchWord_start "nan".toList b (by rw [h])
    have hl : b.length = 3 := by
      have := congrArg List.length h
      simpa using this
    cases b with
    | nil => simp at hl
    | cons c t =>
      have hc : c.toLower = 'n' := by
        have := congrArg List.head? h
        simpa using this
      have hn : (c.toLower == 'n') = true := by rw [hc]; rfl
      unfold scanFloatBody
      simp only [hn, if_true, hp, hl]
  · unfold IsWord at h
    have hp := matchWord_start "infinity".toList b (by rw [h]; exact ⟨"inity".toList, rfl⟩)
    have hl : b.length = 3 := by
      have := congrArg List.length h
      simpa using this
    cases b with
    | nil => simp at hl
    | cons c t =>
      have hc : c.toLower = 'i' := by
        have := congrArg List.head? h
        simpa using this
      have hn : (c.toLower == 'n') = false := by rw [hc]; rfl
      have hi : (c.toLower == 'i') = true := by rw [hc]; rfl
      unfold scanFloatBody
      simp only [hn, hi, if_true, hp, hl, Bool.false_eq_true, if_false, true_or]
  · unfold IsWord at h
    have hp := matchWord_start "infinity".toList b (by rw [h])
    have hl : b.length = 8 := by
      have := congrArg List.length h
      simpa using this
    cases b with
    | nil => simp at hl
    | cons c t =>
      have hc : c.toLower = 'i' := by
        have := congrArg List.head? h
        simpa using this
      have hn : (c.toLower == 'n') = false := by rw [hc]; rfl
      have hi : (c.toLower == 'i') = true := by rw [hc]; rfl
      unfold scanFloatBody
      simp only [hn, hi, if_true, hp, hl, Bool.false_eq_true, if_false, or_true]
  · obtain ⟨x, m, ex, rfl, hx, ⟨ip, fr, rfl, hip, hfr⟩, hne, hex, hdig⟩ := h
    have hexhead : ∀ ch ∈ (ex ++ []).head?, isxdigit ch = false ∧ (fr = [] → ch ≠ '.') := by
      intro ch hch
      rcases hex with rfl | ⟨mk, sg, ds, rfl, hmk, -, -⟩
      · simp at hch
      · simp at hch
        rw [← hch]
        rcases hmk with h | h <;> rw [h] <;> exact ⟨by decide, fun _ => by decide⟩
    obtain ⟨k1, k2, k3⟩ :=
      scanMantissa_complete isxdigit ip fr (ex ++ []) (by decide) hip hfr hexhead
    have hxb : (('0' : Char) == '0' && ((x :: (ip ++ fr ++ ex)).head? == some 'x'
        || (x :: (ip ++ fr ++ ex)).head? == some 'X')) = true := by
      rcases hx with rfl | rfl <;> rfl
    have e : (x :: (ip ++ fr ++ ex)).tail = ip ++ fr ++ (ex ++ []) := by simp
    unfold scanFloatBody
    simp only [show (('0' : Char).toLower == 'n') = false by decide,
      show (('0' : Char).toLower == 'i') = false by decide, Bool.false_eq_true, if_false]
    rw [if_pos hxb, e, k1]
    by_cases hd : HasDigit isxdigit (ip ++ fr)
    · rw [if_pos (k2.2 hd)]
      have := scanExponent_complete 'p' 'P' ex [] hex (by simp)
      rw [List.append_nil] at this ⊢
      rw [this]
    · have hex0 : ex = [] := by
        by_contra h0
        exact hd (hdig h0)
      have hfr0 : fr ≠ [] := by
        intro h0
        apply hd
        rw [h0, List.append_nil] at hne ⊢
        obtain ⟨c, t, rfl⟩ := List.exists_cons_of_ne_nil hne
        exact ⟨c, by simp, hip c (by simp)⟩
      rw [if_neg (fun hg => hd (k2.1 hg)), if_pos (k3.2 hfr0), hex0]
      rfl
  · obtain ⟨m, ex, rfl, hm, hd, hex⟩ := h
    have := scanFloatBody_decimal m ex [] hm hd hex (by simp)
    rw [List.append_nil] at this
    exact this

/-- A number of the grammar starts with a character that is neither white space
nor a sign. -/
theorem numberBody_head (b : List Char) (h : IsNumberBody b) :
    ∃ c t, b = c :: t ∧ isspace c = false ∧ c ≠ '+' ∧ c ≠ '-' := by
  have word : ∀ (x : Char) (xs : List Char), 65 ≤ x.toNat → b.map Char.toLower = x :: xs →
      ∃ c t, b = c :: t ∧ isspace c = false ∧ c ≠ '+' ∧ c ≠ '-' := by
    intro x xs hx hb
    cases b with
    | nil => simp at hb
    | cons c t =>
      have hc : c.toLower = x := by
        have := congrArg List.head? hb
        simpa using this
      exact ⟨c, t, rfl, head_of_letter c (toLower_letter c x hx hc)⟩
  rcases h with h | h | h | h | h
  · exact word 'n' "an".toList (by decide) h
  · exact word 'i' "nf".toList (by decide) h
  · exact word 'i' "nfinity".toList (by decide) h
  · obtain ⟨x, m, ex, rfl, -⟩ := h
    exact ⟨'0', _, rfl, by decide, by decide, by decide⟩
  · obtain ⟨m, ex, rfl, hm, hd, -⟩ := h
    obtain ⟨c, t, rfl⟩ : ∃ c t, m = c :: t := by
      obtain ⟨c, hc, -⟩ := hd
      exact List.exists_cons_of_ne_nil (List.ne_nil_of_mem hc)
    obtain ⟨h1, h2, h3, -⟩ := head_of_mantissa c (mantissa_chars _ hm c (by simp))
    exact ⟨c, t ++ ex, rfl, h1, h2, h3⟩

/-- What `%lf` reads: white space, an optional sign and a number of the grammar. -/
theorem scanFloat_sound (s r : List Char) (h : scanFloat s = .ok () r) :
    ∃ ws sg b, s = ws ++ sg ++ b ++ r ∧ AllChars isspace ws ∧ IsSign sg ∧ IsNumberBody b := by
  obtain ⟨e1, hws, -⟩ := span_spec isspace s
  obtain ⟨sg, hsg, e2⟩ := stripSign_spec (s.dropWhile isspace)
  unfold scanFloat at h
  split at h
  · cases h
  · split at h
    · cases h
    · rename_i r1 hb
      cases h
      obtain ⟨b, e3, hb'⟩ := scanFloatBody_sound _ _ hb
      refine ⟨_, sg, b, ?_, hws, hsg, hb'⟩
      rw [List.append_assoc, List.append_assoc, ← e3, ← e2, ← e1]

/-- The conversion `%lf` reads white space, a sign and the number after them once
the unsigned part reads that number. -/
theorem scanFloat_complete (ws sg b rest : List Char) (hws : AllChars isspace ws)
    (hsg : IsSign sg) (hhead : ∃ c t, b = c :: t ∧ isspace c = false ∧ c ≠ '+' ∧ c ≠ '-')
    (hb : scanFloatBody (b ++ rest) = some rest) :
    scanFloat (ws ++ sg ++ b ++ rest) = .ok () rest := by
  obtain ⟨c, t, rfl, hc1, hc2, hc3⟩ := hhead
  have e1 : (ws ++ (sg ++ (c :: t ++ rest))).dropWhile isspace = sg ++ (c :: t ++ rest) :=
    (span_append isspace ws _ hws (sign_head sg _ hsg (by
      intro ch hch
      simp at hch
      rw [← hch]; exact hc1))).2
  have e2 : (stripSign (sg ++ (c :: t ++ rest))).2 = c :: t ++ rest :=
    stripSign_append sg _ hsg (by
      intro _ ch hch
      simp at hch
      rw [← hch]
      exact ⟨hc2, hc3⟩)
  have hne : sg ++ (c :: t ++ rest) ≠ [] := by
    intro h0
    have := congrArg List.length h0
    simp at this
  unfold scanFloat
  rw [List.append_assoc, List.append_assoc, e1]
  split
  · rename_i h0
    exact absurd h0 hne
  · rw [e2, hb]

/-- The input left by `%lf` is a suffix of the input. -/
theorem scanFloat_suffix (s r : List Char) (h : scanFloat s = .ok () r) : r <:+ s := by
  obtain ⟨ws, sg, b, e, -⟩ := scanFloat_sound s r h
  exact ⟨ws ++ sg ++ b, e.symm⟩

/-- The number scan reads exactly one number only from a text of the number
grammar. -/
theorem sscanf_lf_c_sound (s : List Char) (h : sscanf_lf_c s = .one) : IsNumberText s := by
  unfold sscanf_lf_c at h
  split at h
  · cases h
  · cases h
  · rename_i u r hr
    split at h
    · obtain ⟨ws, sg, b, e, hws, hsg, hb⟩ := scanFloat_sound _ _ hr
      rw [List.append_nil] at e
      exact ⟨ws, sg, b, e, hws, hsg, hb⟩
    · cases h

/-- The number scan reads exactly one number from every text of the number
grammar. -/
theorem sscanf_lf_c_complete (s : List Char) (h : IsNumberText s) : sscanf_lf_c s = .one := by
  obtain ⟨ws, sg, b, rfl, hws, hsg, hb⟩ := h
  have := scanFloat_complete ws sg b [] hws hsg (numberBody_head b hb)
    (by rw [List.append_nil]; exact scanFloatBody_complete b hb)
  rw [List.append_nil] at this
  unfold sscanf_lf_c
  rw [this]

/-- The number scan reads a decimal number and the character after it when that
character cannot continue the number. -/
theorem sscanf_lf_c_decimal (sg m ex : List Char) (ch : Char) (rest : List Char)
    (hsg : IsSign sg) (hm : IsMantissa isdigit m) (hd : HasDigit isdigit m)
    (hex : IsExponentPart 'e' 'E' ex) (hch : EndsDecimal m ex ch) :
    sscanf_lf_c (sg ++ m ++ ex ++ ch :: rest) = .two ch := by
  have hb := scanFloatBody_decimal m ex (ch :: rest) hm hd hex (by
    intro x hx
    simp at hx
    rw [← hx]; exact hch)
  have hhead := numberBody_head (m ++ ex)
    (Or.inr (Or.inr (Or.inr (Or.inr ⟨m, ex, rfl, hm, hd, hex⟩))))
  have := scanFloat_complete [] sg (m ++ ex) (ch :: rest) (by intro x hx; simp at hx) hsg hhead
    hb
  have e : sg ++ m ++ ex ++ ch :: rest = [] ++ sg ++ (m ++ ex) ++ ch :: rest := by simp
  unfold sscanf_lf_c
  rw [e, this]

/-- The character read by the number scan is a character of the string. -/
theorem sscanf_lf_c_mem (s : List Char) (c : Char) (h : sscanf_lf_c s = .two c) : c ∈ s := by
  unfold sscanf_lf_c at h
  split at h
  · cases h
  · cases h
  · rename_i u r hr
    split at h
    · cases h
    · rename_i c1 r1
      cases h
      exact (scanFloat_suffix _ _ hr).subset (by simp)

/-- The pair scan reads both integers and a further character only from a text of
the pair grammar followed by a character that is not a digit. -/
theorem sscanf_d_d_c_sound_more (s : List Char) (n d : Int) (c : Char)
    (h : sscanf_d_d_c s = .three n d c) :
    ∃ w rest, s = w ++ c :: rest ∧ IsPairText w ∧ isdigit c = false := by
  unfold sscanf_d_d_c at h
  split at h
  · cases h
  · cases h
  · rename_i n1 r1 h1
    split at h
    · cases h
    · rename_i ch r2
      by_cases hc : (ch == ':') = true
      · rw [if_pos hc] at h
        split at h
        · rename_i d1 r3 h3
          split at h
          · cases h
          · rename_i c1 r4
            cases h
            obtain ⟨ws1, i1, e1, hw1, hi1, -⟩ := scanInt_sound _ _ _ h1
            obtain ⟨ws2, i2, e2, hw2, hi2, hr⟩ := scanInt_sound _ _ _ h3
            have hch : ch = ':' := by simpa using hc
            refine ⟨ws1 ++ i1 ++ ':' :: (ws2 ++ i2), r4, ?_,
              ⟨ws1, i1, ws2, i2, rfl, hw1, hi1, hw2, hi2⟩, hr c (by simp)⟩
            rw [e1, e2, hch]
            simp
        · cases h
      · rw [if_neg hc] at h
        cases h

/-- The texts of the pair grammar are those on which the pair scan returns 2. -/
theorem pairText_iff (s : List Char) : IsPairText s ↔ (sscanf_d_d_c s).ret = 2 := by
  constructor
  · intro h
    obtain ⟨n, d, e⟩ := sscanf_d_d_c_complete s h
    rw [e]
    rfl
  · intro h
    cases e : sscanf_d_d_c s with
    | two n d => exact sscanf_d_d_c_sound s n d e
    | eof => rw [e] at h; cases h
    | none => rw [e] at h; cases h
    | one n => rw [e] at h; cases h
    | three n d c => rw [e] at h; cases h

/-- The texts of the pair grammar followed by a character that is not a digit are
those on which the pair scan returns 3. -/
theorem pairMore_iff (s : List Char) :
    (∃ w ch rest, s = w ++ ch :: rest ∧ IsPairText w ∧ isdigit ch = false) ↔
      (sscanf_d_d_c s).ret = 3 := by
  constructor
  · rintro ⟨w, ch, rest, rfl, hw, hch⟩
    obtain ⟨n, d, e⟩ := sscanf_d_d_c_complete_more w ch rest hw hch
    rw [e]
    rfl
  · intro h
    cases e : sscanf_d_d_c s with
    | three n d c =>
      obtain ⟨w, rest, e1, hw, hc⟩ := sscanf_d_d_c_sound_more s n d c e
      exact ⟨w, c, rest, e1, hw, hc⟩
    | eof => rw [e] at h; cases h
    | none => rw [e] at h; cases h
    | one n => rw [e] at h; cases h
    | two n d => rw [e] at h; cases h

/-- The texts of the number grammar are those on which the number scan returns 1. -/
theorem numberText_iff (s : List Char) : IsNumberText s ↔ (sscanf_lf_c s).ret = 1 := by
  constructor
  · intro h
    rw [sscanf_lf_c_complete s h]
    rfl
  · intro h
    cases e : sscanf_lf_c s with
    | one => exact sscanf_lf_c_sound s e
    | eof => rw [e] at h; cases h
    | none => rw [e] at h; cases h
    | two c => rw [e] at h; cases h

/-- The two scans on inputs where the C library departs from the usual lexical
form of a number: an exponent marker without digits is read and the mantissa
converted, `nan` is read without a parenthesised part, `0x.` is read as zero, and
`0x` alone or a broken `infinity` is a matching failure. -/
theorem sscanf_lf_c_examples :
    sscanf_lf_c "3e".toList = .one ∧ sscanf_lf_c "1.5e".toList = .one ∧
      sscanf_lf_c "1e+".toList = .one ∧ sscanf_lf_c "0x1p".toList = .one ∧
      sscanf_lf_c "0x.".toList = .one ∧ sscanf_lf_c "3ex".toList = .two 'x' ∧
      sscanf_lf_c "nan(".toList = .two '(' ∧ sscanf_lf_c "nan(1)".toList = .two '(' ∧
      sscanf_lf_c "0x.p".toList = .two 'p' ∧ sscanf_lf_c "1e5e3".toList = .two 'e' ∧
      sscanf_lf_c "0x".toList = .none ∧ sscanf_lf_c "infi".toList = .none ∧
      sscanf_lf_c ".".toList = .none ∧ sscanf_lf_c "-".toList = .none ∧
      sscanf_lf_c " ".toList = .eof := by
  decide

/-! ### From the scans to `init` -/

/-- A character read by either scan makes `init` fail -/
theorem init_of_trailing (d2q : AVRational) (ctx : AspectContext) (a : List Char)
    (h : (sscanf_d_d_c (cstr a)).ret = 3 ∨
      ((sscanf_d_d_c (cstr a)).ret ≠ 2 ∧ (sscanf_lf_c (cstr a)).ret = 2)) :
    (init d2q ctx (some a)).1 = AVERROR EINVAL := by
  have hc1 : ∀ n d c, sscanf_d_d_c (cstr a) = .three n d c → c ≠ NUL := fun n d c e =>
    cstr_ne_NUL a c (sscanf_d_d_c_mem _ n d c e)
  have hc2 : ∀ c, sscanf_lf_c (cstr a) = .two c → c ≠ NUL := fun c e =>
    cstr_ne_NUL a c (sscanf_lf_c_mem _ c e)
  unfold init
  cases h1 : sscanf_d_d_c (cstr a) <;> cases h2 : sscanf_lf_c (cstr a) <;>
    simp_all [PairScan.ret, PairScan.num, PairScan.den, PairScan.c, NumScan.ret, NumScan.c]

/-- On a zero-initialised node `init` fails when the pair scan does not return 2
and the number scan does not return 1 -/
theorem init_of_unparsed (d2q : AVRational) (a : List Char)
    (h1 : (sscanf_d_d_c (cstr a)).ret ≠ 2) (h2 : (sscanf_lf_c (cstr a)).ret ≠ 1) :
    (init d2q ⟨⟨0, 0⟩⟩ (some a)).1 = AVERROR EINVAL := by
  have hc1 : ∀ n d c, sscanf_d_d_c (cstr a) = .three n d c → c ≠ NUL := fun n d c e =>
    cstr_ne_NUL a c (sscanf_d_d_c_mem _ n d c e)
  have hc2 : ∀ c, sscanf_lf_c (cstr a) = .two c → c ≠ NUL := fun c e =>
    cstr_ne_NUL a c (sscanf_lf_c_mem _ c e)
  unfold init
  cases e1 : sscanf_d_d_c (cstr a) <;> cases e2 : sscanf_lf_c (cstr a) <;>
    simp_all [PairScan.ret, PairScan.num, PairScan.den, PairScan.c, NumScan.ret, NumScan.c]

/-- The function `init` on an argument string, in terms of what the scans leave. -/
theorem init_some (d2q : AVRational) (ctx : AspectContext) (a : List Char) :
    init d2q ctx (some a) =
      if (afterScans d2q ctx a).2 ≠ NUL ∨ (afterScans d2q ctx a).1.num ≤ 0
          ∨ (afterScans d2q ctx a).1.den ≤ 0 then
        (AVERROR EINVAL, ⟨(afterScans d2q ctx a).1⟩)
      else
        (0, ⟨⟨(afterScans d2q ctx a).1.num /
              (Int.gcd (afterScans d2q ctx a).1.num (afterScans d2q ctx a).1.den : Int),
            (afterScans d2q ctx a).1.den /
              (Int.gcd (afterScans d2q ctx a).1.num (afterScans d2q ctx a).1.den : Int)⟩⟩) := by
  have e : init d2q ctx (some a) =
      if (afterScans d2q ctx a).2 ≠ NUL ∨ (afterScans d2q ctx a).1.num ≤ 0
          ∨ (afterScans d2q ctx a).1.den ≤ 0 then
        (AVERROR EINVAL, ⟨(afterScans d2q ctx a).1⟩)
      else
        (0, ⟨if (if av_gcd (FFABS (afterScans d2q ctx a).1.num)
                    (FFABS (afterScans d2q ctx a).1.den) ≠ 0 then
                (⟨Int.tdiv (afterScans d2q ctx a).1.num
                    (av_gcd (FFABS (afterScans d2q ctx a).1.num)
                      (FFABS (afterScans d2q ctx a).1.den)),
                  Int.tdiv (afterScans d2q ctx a).1.den
                    (av_gcd (FFABS (afterScans d2q ctx a).1.num)
                      (FFABS (afterScans d2q ctx a).1.den))⟩ : AVRational)
              else (afterScans d2q ctx a).1).den = 0 then ⟨0, 1⟩
            else (if av_gcd (FFABS (afterScans d2q ctx a).1.num)
                    (FFABS (afterScans d2q ctx a).1.den) ≠ 0 then
                (⟨Int.tdiv (afterScans d2q ctx a).1.num
                    (av_gcd (FFABS (afterScans d2q ctx a).1.num)
                      (FFABS (afterScans d2q ctx a).1.den)),
                  Int.tdiv (afterScans d2q ctx a).1.den
                    (av_gcd (FFABS (afterScans d2q ctx a).1.num)
                      (FFABS (afterScans d2q ctx a).1.den))⟩ : AVRational)
              else (afterScans d2q ctx a).1)⟩) := rfl
  rw [e]
  generalize afterScans d2q ctx a = st
  obtain ⟨⟨n, d⟩, c⟩ := st
  simp only
  by_cases hbad : c ≠ NUL ∨ n ≤ 0 ∨ d ≤ 0
  · rw [if_pos hbad, if_pos hbad]
  · rw [if_neg hbad, if_neg hbad]
    have hn : 0 < n := by omega
    have hd : 0 < d := by omega
    have hg : (0 : Int) < (Int.gcd n d : Int) := by
      exact_mod_cast Int.gcd_pos_of_ne_zero_left d (by omega)
    rw [av_gcd_pos n d hn hd]
    have hdvd : (Int.gcd n d : Int) ∣ d := Int.gcd_dvd_right
    have hq : 0 < d / (Int.gcd n d : Int) := Int.ediv_pos_of_pos_of_dvd hd (by omega) hdvd
    rw [Int.tdiv_eq_ediv (by omega) (by omega), Int.tdiv_eq_ediv (by omega) (by omega)]
    simp only [ne_eq, hg.ne', not_false_eq_true, if_true, hq.ne', if_false]

/-- The outcome of `init` does not depend on the prior aspect when the pair scan
returns at least 2 or the number scan returns 1 -/
theorem init_of_converts (d2q : AVRational) (a : List Char) (ctx1 ctx2 : AspectContext)
    (h : 2 ≤ (sscanf_d_d_c (cstr a)).ret ∨ (sscanf_lf_c (cstr a)).ret = 1) :
    init d2q ctx1 (some a) = init d2q ctx2 (some a) := by
  rw [init_some, init_some]
  unfold afterScans
  cases e1 : sscanf_d_d_c (cstr a) <;> cases e2 : sscanf_lf_c (cstr a) <;>
    simp_all [PairScan.ret, PairScan.num, PairScan.den, PairScan.c, NumScan.ret, NumScan.c]

/-- The outcome of `init` on a zero-initialised node differs from that on a node
holding `(1, 1)` when the pair scan returns less than 2 and the number scan does
not return 1 -/
theorem init_of_not_converts (d2q : AVRational) (a : List Char)
    (h1 : (sscanf_d_d_c (cstr a)).ret < 2) (h2 : (sscanf_lf_c (cstr a)).ret ≠ 1) :
    init d2q ⟨⟨0, 0⟩⟩ (some a) ≠ init d2q ⟨⟨1, 1⟩⟩ (some a) := by
  have hE : AVERROR EINVAL ≠ 0 := by decide
  rw [init_some, init_some]
  unfold afterScans
  cases e1 : sscanf_d_d_c (cstr a) <;> cases e2 : sscanf_lf_c (cstr a) <;>
    simp_all [PairScan.ret, PairScan.num, PairScan.den, PairScan.c, NumScan.ret, NumScan.c] <;>
    split_ifs <;> simp_all

/-- The characters of a sign, a decimal mantissa and an exponent part are not
NUL. -/
theorem decimal_ne_NUL (sg m ex : List Char) (hsg : IsSign sg) (hm : IsMantissa isdigit m)
    (hex : IsExponentPart 'e' 'E' ex) : ∀ ch ∈ sg ++ m ++ ex, ch ≠ NUL := by
  have hsign : ∀ (l : List Char), IsSign l → ∀ ch ∈ l, ch ≠ NUL := by
    intro l hl ch hch
    rcases hl with rfl | rfl | rfl
    · simp at hch
    · simp at hch
      rw [hch]; decide
    · simp at hch
      rw [hch]; decide
  intro ch hch
  rcases List.mem_append.1 hch with h | h
  · rcases List.mem_append.1 h with h | h
    · exact hsign sg hsg ch h
    · rcases mantissa_chars m hm ch h with h' | h'
      · exact ne_of_isdigit ch NUL h' (by decide)
      · rw [h']; decide
  · rcases hex with rfl | ⟨mk, sg2, ds, rfl, hmk, hsg2, hds⟩
    · simp at h
    · rcases List.mem_cons.1 h with h | h
      · rcases hmk with h' | h' <;> rw [h, h'] <;> decide
      · rcases List.mem_append.1 h with h | h
        · exact hsign sg2 hsg2 ch h
        · exact ne_of_isdigit ch NUL (hds ch h) (by decide)

/-- A string that starts with a sign, a decimal mantissa, an exponent part and a
further character, as a C string. -/
theorem cstr_decimal_more (sg m ex : List Char) (ch : Char) (rest : List Char)
    (hsg : IsSign sg) (hm : IsMantissa isdigit m) (hex : IsExponentPart 'e' 'E' ex)
    (hch : ch ≠ NUL) :
    cstr (sg ++ m ++ ex ++ ch :: rest) = sg ++ m ++ ex ++ ch :: cstr rest := by
  rw [cstr_append _ _ (decimal_ne_NUL sg m ex hsg hm hex)]
  congr 1
  have hx : (ch != NUL) = true := by simpa using hch
  simp [cstr, List.takeWhile, hx]

/-- A non-empty run of characters satisfying `p` ends in one. -/
theorem last_of_all (p : Char → Bool) (l : List Char) (hne : l ≠ []) (h : AllChars p l) :
    ∃ t c, l = t ++ [c] ∧ p c = true :=
  ⟨l.dropLast, l.getLast hne, (List.dropLast_append_getLast hne).symm,
    h _ (List.getLast_mem hne)⟩

/-- A decimal literal ends in a digit or in its radix point. -/
theorem decimalLiteral_last (s : List Char) (h : IsDecimalLiteral s) :
    ∃ t c, s = t ++ [c] ∧ (isdigit c = true ∨ c = '.') := by
  obtain ⟨sg, m, ex, rfl, hsg, ⟨ip, fr, rfl, hip, hfr⟩, hd, hex, hexd⟩ := h
  rcases hex with rfl | ⟨mk, sg2, ds, rfl, hmk, hsg2, hds⟩
  · rcases hfr with rfl | ⟨ds, rfl, hds⟩
    · have hne : ip ≠ [] := by
        obtain ⟨c, hc, -⟩ := hd
        rw [List.append_nil] at hc
        exact List.ne_nil_of_mem hc
      obtain ⟨t, c, e, hc⟩ := last_of_all isdigit ip hne hip
      exact ⟨sg ++ t, c, by rw [e]; simp, Or.inl hc⟩
    · by_cases hne : ds = []
      · exact ⟨sg ++ ip, '.', by rw [hne]; simp, Or.inr rfl⟩
      · obtain ⟨t, c, e, hc⟩ := last_of_all isdigit ds hne hds
        exact ⟨sg ++ ip ++ '.' :: t, c, by rw [e]; simp, Or.inl hc⟩
  · have hne : ds ≠ [] := by
      obtain ⟨c, hc, hcd⟩ := hexd (by simp)
      rcases List.mem_cons.1 hc with h | h
      · rcases hmk with h' | h' <;> rw [h, h'] at hcd <;> exact absurd hcd (by decide)
      · rcases List.mem_append.1 h with h | h
        · rcases hsg2 with rfl | rfl | rfl
          · simp at h
          · simp at h
            rw [h] at hcd
            exact absurd hcd (by decide)
          · simp at h
            rw [h] at hcd
            exact absurd hcd (by decide)
        · exact List.ne_nil_of_mem h
    obtain ⟨t, c, e, hc⟩ := last_of_all isdigit ds hne hds
    exact ⟨sg ++ (ip ++ fr) ++ mk :: (sg2 ++ t), c, by rw [e]; simp, Or.inl hc⟩

/-- A text whose last character is neither a digit nor a point is no decimal
literal. -/
theorem not_decimalLiteral (t : List Char) (c : Char) (h1 : isdigit c = false)
    (h2 : c ≠ '.') : ¬ IsDecimalLiteral (t ++ [c]) := by
  intro h
  obtain ⟨t', c', e, hc⟩ := decimalLiteral_last _ h
  have := congrArg List.reverse e
  simp only [List.reverse_append, List.reverse_cons, List.reverse_nil, List.nil_append,
    List.singleton_append, List.cons.injEq] at this
  obtain ⟨rfl, -⟩ := this
  rcases hc with hc | hc
  · rw [hc] at h1
    cases h1
  · exact h2 hc

/-- The mantissa loop reads a digit from an input that starts with a mantissa
having one. -/
theorem scanMantissa_digit (m r : List Char) (hm : IsMantissa isdigit m)
    (hd : HasDigit isdigit m) : (scanMantissa isdigit (m ++ r)).1 = true := by
  obtain ⟨ip, fr, rfl, hip, hfr⟩ := hm
  cases ip with
  | cons c t =>
    have hc : isdigit c = true := hip c (by simp)
    have ht : ((c :: t ++ fr ++ r).takeWhile isdigit).isEmpty = false := by
      simp [List.takeWhile, hc]
    unfold scanMantissa
    split
    · simp only [ht, Bool.not_false]
    · split_ifs
      · simp only [ht, Bool.not_false, Bool.true_or]
      · simp only [ht, Bool.not_false]
  | nil =>
    rcases hfr with rfl | ⟨ds, rfl, hds⟩
    · obtain ⟨c, hc, -⟩ := hd
      simp at hc
    · cases ds with
      | nil =>
        obtain ⟨c, hc, hcd⟩ := hd
        simp at hc
        rw [hc] at hcd
        exact absurd hcd (by decide)
      | cons d ds2 =>
        have hdd : isdigit d = true := hds d (by simp)
        simp [scanMantissa, List.takeWhile, List.dropWhile, hdd,
          show isdigit '.' = false by decide]

/-- The conversion `%lf` on an input without white space in front: the sign is
removed and the unsigned part read. -/
theorem scanFloat_signed (sg body : List Char) (hsg : IsSign sg)
    (hhead : ∃ c t, body = c :: t ∧ isspace c = false ∧ c ≠ '+' ∧ c ≠ '-') :
    scanFloat (sg ++ body) =
      match scanFloatBody body with
      | Option.none => .matchFailure
      | some r => .ok () r := by
  obtain ⟨c, t, rfl, hc1, hc2, hc3⟩ := hhead
  have e1 : (sg ++ c :: t).dropWhile isspace = sg ++ c :: t := by
    have := (span_append isspace [] (sg ++ c :: t) (by intro x hx; simp at hx)
      (sign_head sg _ hsg (by
        intro ch hch
        simp at hch
        rw [← hch]; exact hc1))).2
    simpa using this
  have e2 : (stripSign (sg ++ c :: t)).2 = c :: t :=
    stripSign_append sg _ hsg (by
      intro _ ch hch
      simp at hch
      rw [← hch]
      exact ⟨hc2, hc3⟩)
  have hne : sg ++ c :: t ≠ [] := by
    intro h0
    have := congrArg List.length h0
    simp at this
  unfold scanFloat
  rw [e1]
  split
  · rename_i h0
    exact absurd h0 hne
  · rw [e2]

/-- The conversion `%d` reads a lone zero, signed or not, as 0. -/
theorem scanInt_zero (sg : List Char) (x : Char) (t : List Char) (hsg : IsSign sg)
    (hx : isdigit x = false) : scanInt (sg ++ '0' :: x :: t) = .ok 0 (x :: t) := by
  have hr : ∀ ch ∈ (x :: t).head?, isdigit ch = false := by
    intro ch hch
    simp at hch
    rw [← hch]; exact hx
  have hd : ∀ ch ∈ ['0'], isdigit ch = true := by
    intro ch hch
    simp at hch
    rw [hch]; decide
  rcases hsg with rfl | rfl | rfl
  · have := scanInt_digits ['0'] (x :: t) (by simp) hd hr
    simpa using this
  · obtain ⟨ht, hdr⟩ := takeWhile_digits ['0'] (x :: t) hd hr
    have hsp : ('+' :: ('0' :: x :: t)).dropWhile isspace = '+' :: ('0' :: x :: t) := by
      simp [List.dropWhile, show isspace '+' = false by decide]
    have hs : stripSign ('+' :: ('0' :: x :: t)) = (false, '0' :: x :: t) := by
      simp [stripSign]
    simp only [List.singleton_append] at ht hdr
    unfold scanInt
    simp only [List.singleton_append, hsp, hs, ht, hdr]
    simp
    decide
  · have := scanInt_neg_digits ['0'] (x :: t) (by simp) hd hr
    simpa using this

/-- On an input that starts with a decimal number, signed or not, the number scan
converts the number, unless the input starts with `0x`, where the pair scan
reads the integer 0 and stops. -/
theorem scans_of_decimal_start (sg m r : List Char) (hsg : IsSign sg)
    (hm : IsMantissa isdigit m) (hd : HasDigit isdigit m) :
    1 ≤ (sscanf_lf_c (sg ++ m ++ r)).ret ∨ sscanf_d_d_c (sg ++ m ++ r) = .one 0 := by
  have hchars := mantissa_chars m hm
  obtain ⟨c, t, hct⟩ : ∃ c t, m = c :: t := by
    obtain ⟨c, hc, -⟩ := hd
    exact List.exists_cons_of_ne_nil (List.ne_nil_of_mem hc)
  have hc := hchars c (by rw [hct]; simp)
  obtain ⟨hc1, hc2, hc3, hlow⟩ := head_of_mantissa c hc
  by_cases hx : (c == '0' && ((t ++ r).head? == some 'x' || (t ++ r).head? == some 'X')) = true
  · right
    simp only [Bool.and_eq_true, Bool.or_eq_true, beq_iff_eq] at hx
    obtain ⟨rfl, hx⟩ := hx
    obtain ⟨x, u, hu, hxx⟩ : ∃ x u, t ++ r = x :: u ∧ (x = 'x' ∨ x = 'X') := by
      cases htr : t ++ r with
      | nil => rw [htr] at hx; simp at hx
      | cons x u =>
        rw [htr] at hx
        exact ⟨x, u, rfl, by simpa using hx⟩
    have hxd : isdigit x = false := by
      rcases hxx with h | h <;> rw [h] <;> decide
    have e : sg ++ m ++ r = sg ++ '0' :: x :: u := by
      rw [hct, List.append_assoc, List.cons_append, hu]
    have hcolon : (x == ':') = false := by
      rcases hxx with h | h <;> rw [h] <;> decide
    unfold sscanf_d_d_c
    rw [e, scanInt_zero sg x u hsg hxd]
    simp only [hcolon, Bool.false_eq_true, if_false]
  · left
    have hn : (c.toLower == 'n') = false := by
      rw [toLower_of_lt c hlow]
      apply beq_eq_false_iff_ne.2
      rintro rfl
      revert hlow
      decide
    have hi : (c.toLower == 'i') = false := by
      rw [toLower_of_lt c hlow]
      apply beq_eq_false_iff_ne.2
      rintro rfl
      revert hlow
      decide
    have hgd := scanMantissa_digit m r hm hd
    have hb : scanFloatBody (m ++ r) =
        some (scanExponent 'e' 'E' (scanMantissa isdigit (m ++ r)).2.2) := by
      have e0 : m ++ r = c :: (t ++ r) := by rw [hct]; rfl
      rw [e0] at hgd ⊢
      unfold scanFloatBody
      simp only [hn, hi, hx, Bool.false_eq_true, if_false]
      rw [if_pos hgd]
    have := scanFloat_signed sg (m ++ r) hsg ⟨c, t ++ r, by rw [hct]; rfl, hc1, hc2, hc3⟩
    rw [hb] at this
    unfold sscanf_lf_c
    rw [List.append_assoc, this]
    simp only
    split <;> simp [NumScan.ret]

/-- When the pair scan reads only the integer 0 and the number scan does not
return 1, `init` fails -/
theorem init_of_zero_num (d2q : AVRational) (ctx : AspectContext) (a : List Char)
    (h1 : sscanf_d_d_c (cstr a) = .one 0) (h2 : (sscanf_lf_c (cstr a)).ret ≠ 1) :
    (init d2q ctx (some a)).1 = AVERROR EINVAL := by
  unfold init
  cases e2 : sscanf_lf_c (cstr a) <;>
    simp_all [PairScan.ret, PairScan.num, PairScan.den, PairScan.c, NumScan.ret, NumScan.c]

/-- A string that starts with a decimal number, and is neither an integer pair nor
a number as a whole, makes `init` fail -/
theorem init_of_decimal_start (d2q : AVRational) (ctx : AspectContext) (a sg m r : List Char)
    (hsg : IsSign sg) (hm : IsMantissa isdigit m) (hd : HasDigit isdigit m)
    (ha : cstr a = sg ++ m ++ r) (hp : ¬ IsPairText (cstr a)) (hn : ¬ IsNumberText (cstr a)) :
    (init d2q ctx (some a)).1 = AVERROR EINVAL := by
  have k1 : (sscanf_d_d_c (cstr a)).ret ≠ 2 := fun e => hp ((pairText_iff _).2 e)
  have k2 : (sscanf_lf_c (cstr a)).ret ≠ 1 := fun e => hn ((numberText_iff _).2 e)
  rcases scans_of_decimal_start sg m r hsg hm hd with h | h
  · rw [← ha] at h
    apply init_of_trailing
    right
    refine ⟨k1, ?_⟩
    cases e : sscanf_lf_c (cstr a) <;> rw [e] at h k2 <;>
      simp_all [NumScan.ret]
  · rw [← ha] at h
    exact init_of_zero_num d2q ctx a h k2

/-- A decimal number followed by a character that cannot continue it is no number
as a whole. -/
theorem not_numberText_of_ends (sg m ex : List Char) (ch : Char) (rest : List Char)
    (hsg : IsSign sg) (hm : IsMantissa isdigit m) (hd : HasDigit isdigit m)
    (hex : IsExponentPart 'e' 'E' ex) (hch : EndsDecimal m ex ch) :
    ¬ IsNumberText (sg ++ m ++ ex ++ ch :: rest) := by
  intro h
  have h1 := (numberText_iff _).1 h
  rw [sscanf_lf_c_decimal sg m ex ch rest hsg hm hd hex hch] at h1
  simp [NumScan.ret] at h1

/-! ### The claims about `init` and `setsar_config_props` -/

/-- C5: for all integers `N`, `D` with `1 ≤ N, D ≤ INT_MAX`, `init` called with the text
`N:D` returns 0 and leaves the aspect `(N/g, D/g)`, `g = gcd(N, D)`, whatever the aspect
was before; the stored pair is in lowest terms, has a positive denominator and the same
value as `N/D`. -/
theorem init_pair (d2q : AVRational) (ctx : AspectContext) (N D : Int)
    (hN : 1 ≤ N) (hN' : N ≤ INT_MAX) (hD : 1 ≤ D) (hD' : D ≤ INT_MAX) :
    init d2q ctx (some (pairText N D))
        = (0, ⟨⟨N / (Int.gcd N D : Int), D / (Int.gcd N D : Int)⟩⟩)
      ∧ Int.gcd (N / (Int.gcd N D : Int)) (D / (Int.gcd N D : Int)) = 1
      ∧ 0 < D / (Int.gcd N D : Int)
      ∧ (N / (Int.gcd N D : Int)) * D = N * (D / (Int.gcd N D : Int)) := by
  have hmin : INT_MIN ≤ 1 := by decide
  have hs := sscanf_pairText N D (le_trans hmin hN) hN' (le_trans hmin hD) hD'
  rw [← cstr_pairText N D] at hs
  have hg : 0 < Int.gcd N D := Int.gcd_pos_of_ne_zero_left D (by omega)
  have hg' : (0 : Int) < (Int.gcd N D : Int) := by exact_mod_cast hg
  have hdN : (Int.gcd N D : Int) ∣ N := Int.gcd_dvd_left
  have hdD : (Int.gcd N D : Int) ∣ D := Int.gcd_dvd_right
  refine ⟨?_, Int.gcd_div_gcd_div_gcd hg, ?_, ?_⟩
  · rw [init_of_two d2q ctx _ N D hs, if_neg (by omega),
      Int.tdiv_eq_ediv (by omega) (by omega), Int.tdiv_eq_ediv (by omega) (by omega)]
  · exact Int.ediv_pos_of_pos_of_dvd (by omega) (by omega) hdD
  · rw [mul_comm, ← Int.mul_ediv_assoc _ hdN, ← Int.mul_ediv_assoc _ hdD, mul_comm]

/-- C8: for all integers `N`, `D` in the `int` range with `N ≤ 0` or `D ≤ 0`, `init` called
with the text `N:D` returns `AVERROR(EINVAL)`. -/
theorem init_nonpositive (d2q : AVRational) (ctx : AspectContext) (N D : Int)
    (hN : INT_MIN ≤ N) (hN' : N ≤ INT_MAX) (hD : INT_MIN ≤ D) (hD' : D ≤ INT_MAX)
    (h : N ≤ 0 ∨ D ≤ 0) :
    (init d2q ctx (some (pairText N D))).1 = AVERROR EINVAL := by
  have hs := sscanf_pairText N D hN hN' hD hD'
  rw [← cstr_pairText N D] at hs
  rw [init_of_two d2q ctx _ N D hs, if_pos h]

/-- C6 (amended): for every argument string made of a valid `N:D` pair followed by at least
one further non-digit character, and for every argument string made of a decimal number
(an optional sign, a mantissa of digits with an optional point and at least one digit, and
an optional exponent part) followed by at least one further non-digit character, where
the string is not as a whole an integer pair or a number as `%d:%d` and `%lf` read them,
`init` returns `AVERROR(EINVAL)`, for every prior value of the aspect.  The string is no
number as a whole when the further character cannot continue the number
(`not_numberText_of_ends`). -/
theorem init_trailing (d2q : AVRational) (ctx : AspectContext) (a : List Char)
    (h : (∃ N D ch rest, INT_MIN ≤ N ∧ N ≤ INT_MAX ∧ INT_MIN ≤ D ∧ D ≤ INT_MAX ∧
            isdigit ch = false ∧ ch ≠ NUL ∧ a = pairText N D ++ ch :: rest)
          ∨ (∃ sg m ex ch rest, IsSign sg ∧ IsMantissa isdigit m ∧ HasDigit isdigit m ∧
              IsExponentPart 'e' 'E' ex ∧ isdigit ch = false ∧ ch ≠ NUL ∧
              a = sg ++ m ++ ex ++ ch :: rest ∧
              ¬ IsPairText (cstr a) ∧ ¬ IsNumberText (cstr a))) :
    (init d2q ctx (some a)).1 = AVERROR EINVAL := by
  rcases h with ⟨N, D, ch, rest, hN, hN', hD, hD', hdig, hnul, rfl⟩ |
    ⟨sg, m, ex, ch, rest, hsg, hm, hd, hex, -, hnul, rfl, hp, hn⟩
  · apply init_of_trailing
    left
    rw [cstr_pairText_more N D ch rest hnul,
      sscanf_pairText_more N D ch _ hN hN' hD hD' hdig]
    rfl
  · exact init_of_decimal_start d2q ctx _ sg m (ex ++ ch :: cstr rest) hsg hm hd
      (by rw [cstr_decimal_more sg m ex ch rest hsg hm hex hnul, List.append_assoc]) hp hn

/-- C7 (amended): for every non-NULL argument string that is neither an integer pair as
`%d:%d` reads it (white space and an optional sign may precede each integer, the colon
follows the first one directly) nor a number as `%lf` reads it (white space, an optional
sign, then `nan`, `inf` or `infinity` in either letter case, or a decimal or `0x`
hexadecimal mantissa with an optional exponent part, whose digits may be missing), `init`
on a zero-initialised node returns `AVERROR(EINVAL)`. -/
theorem init_unparsed (d2q : AVRational) (a : List Char)
    (h1 : ¬ IsPairText (cstr a)) (h2 : ¬ IsNumberText (cstr a)) :
    (init d2q ⟨⟨0, 0⟩⟩ (some a)).1 = AVERROR EINVAL :=
  init_of_unparsed d2q a (fun h => h1 ((pairText_iff _).2 h))
    (fun h => h2 ((numberText_iff _).2 h))

/-- C9: `init` called with `args == NULL` on a zero-initialised node returns 0 and leaves
the aspect equal to the unset sentinel `(0, 1)`. -/
theorem init_no_args (d2q : AVRational) :
    init d2q ⟨⟨0, 0⟩⟩ Option.none = (0, ⟨⟨0, 1⟩⟩) := by
  rfl

/-- C10: for every aspect `a` stored in the node and every prior state of the link,
`setsar_config_props` returns 0 and leaves `sample_aspect_ratio` equal to `a`, the
node and every other field of the link unchanged; the ratio it leaves is `a` whatever
the peer, the other fields of the node and the previous ratio of the link are. -/
theorem setsar_config_props_spec {σ ν μ : Type} (a : AVRational) (src : σ) (node : ν)
    (sar : AVRational) (rest : μ) :
    setsar_config_props ⟨src, ⟨⟨a⟩, node⟩, sar, rest⟩ = (0, ⟨src, ⟨⟨a⟩, node⟩, a, rest⟩)
      ∧ ∀ (src' : σ) (node' : ν) (sar' : AVRational) (rest' : μ),
          (setsar_config_props ⟨src', ⟨⟨a⟩, node'⟩, sar', rest'⟩).1 = 0 ∧
          (setsar_config_props ⟨src', ⟨⟨a⟩, node'⟩, sar', rest'⟩).2.sample_aspect_ratio = a :=
  ⟨rfl, fun _ _ _ _ => ⟨rfl, rfl⟩⟩

/-- C5 (witness): the argument `4:2` on a node holding `(7, 0)` gives `(2, 1)`. -/
theorem init_pair_witness :
    ((1 : Int) ≤ 4 ∧ (4 : Int) ≤ INT_MAX ∧ (1 : Int) ≤ 2 ∧ (2 : Int) ≤ INT_MAX) ∧
      pairText 4 2 = "4:2".toList ∧
      init ⟨0, 1⟩ ⟨⟨7, 0⟩⟩ (some (pairText 4 2)) = (0, ⟨⟨2, 1⟩⟩) :=
  ⟨by decide, by decide,
    (init_pair ⟨0, 1⟩ ⟨⟨7, 0⟩⟩ 4 2 (by decide) (by decide) (by decide) (by decide)).1⟩

/-- C6 (counterexample): `1` is a valid decimal number and `.` a further non-digit
character, yet `init` called with `1.` returns 0: the number scan reads `1.` as one
number, and `av_d2q(1.0, 100)` is `1/1`.  The same holds for `1` followed by `e`, for
`0` followed by `x1`, which is the hexadecimal number one, and for `1` followed by `:2`,
which is the pair `1:2`. -/
theorem init_accepts_continued_number :
    IsDecimalLiteral "1".toList ∧ IsDecimalLiteral "0".toList ∧
      isdigit '.' = false ∧
      init ⟨1, 1⟩ ⟨⟨0, 0⟩⟩ (some "1.".toList) = (0, ⟨⟨1, 1⟩⟩) ∧
      (init ⟨1, 1⟩ ⟨⟨0, 0⟩⟩ (some "1.".toList)).1 ≠ AVERROR EINVAL ∧
      isdigit 'e' = false ∧
      init ⟨1, 1⟩ ⟨⟨0, 0⟩⟩ (some "1e".toList) = (0, ⟨⟨1, 1⟩⟩) ∧
      isdigit 'x' = false ∧
      init ⟨1, 1⟩ ⟨⟨0, 0⟩⟩ (some "0x1".toList) = (0, ⟨⟨1, 1⟩⟩) ∧
      isdigit ':' = false ∧
      init ⟨1, 1⟩ ⟨⟨0, 0⟩⟩ (some "1:2".toList) = (0, ⟨⟨1, 2⟩⟩) :=
  ⟨⟨[], "1".toList, [], rfl, by decide, ⟨"1".toList, [], rfl, by decide, Or.inl rfl⟩,
      by decide, Or.inl rfl, fun h => absurd rfl h⟩,
    ⟨[], "0".toList, [], rfl, by decide, ⟨"0".toList, [], rfl, by decide, Or.inl rfl⟩,
      by decide, Or.inl rfl, fun h => absurd rfl h⟩,
    by decide, by decide, by decide, by decide, by decide, by decide, by decide, by decide,
    by decide⟩

/-- C6 (witness): `3:4x`, `4:2 `, `1.5x`, `3ex`, `-.5e+1 ` and `0xg` are rejected.  In
`1.5x` and `3ex` the further character cannot continue the number, which is why the
string is no number as a whole. -/
theorem init_trailing_witness :
    (("3:4x".toList = pairText 3 4 ++ 'x' :: [] ∧ isdigit 'x' = false ∧ 'x' ≠ NUL) ∧
      (init ⟨3, 2⟩ ⟨⟨16, 9⟩⟩ (some "3:4x".toList)).1 = AVERROR EINVAL) ∧
    (("4:2 ".toList = pairText 4 2 ++ ' ' :: [] ∧ isdigit ' ' = false ∧ ' ' ≠ NUL) ∧
      (init ⟨3, 2⟩ ⟨⟨16, 9⟩⟩ (some "4:2 ".toList)).1 = AVERROR EINVAL) ∧
    (("1.5x".toList = [] ++ "1.5".toList ++ [] ++ 'x' :: [] ∧
        EndsDecimal "1.5".toList [] 'x' ∧ ¬ IsPairText (cstr "1.5x".toList) ∧
        ¬ IsNumberText (cstr "1.5x".toList)) ∧
      (init ⟨3, 2⟩ ⟨⟨16, 9⟩⟩ (some "1.5x".toList)).1 = AVERROR EINVAL) ∧
    (("3ex".toList = [] ++ "3".toList ++ "e".toList ++ 'x' :: [] ∧
        EndsDecimal "3".toList "e".toList 'x' ∧ ¬ IsPairText (cstr "3ex".toList) ∧
        ¬ IsNumberText (cstr "3ex".toList)) ∧
      (init ⟨3, 1⟩ ⟨⟨16, 9⟩⟩ (some "3ex".toList)).1 = AVERROR EINVAL) ∧
    (("-.5e+1 ".toList = "-".toList ++ ".5".toList ++ "e+1".toList ++ ' ' :: [] ∧
        ¬ IsPairText (cstr "-.5e+1 ".toList) ∧ ¬ IsNumberText (cstr "-.5e+1 ".toList)) ∧
      (init ⟨-5, 1⟩ ⟨⟨16, 9⟩⟩ (some "-.5e+1 ".toList)).1 = AVERROR EINVAL) ∧
    (("0xg".toList = [] ++ "0".toList ++ [] ++ 'x' :: "g".toList ∧
        ¬ IsPairText (cstr "0xg".toList) ∧ ¬ IsNumberText (cstr "0xg".toList)) ∧
      (init ⟨3, 2⟩ ⟨⟨16, 9⟩⟩ (some "0xg".toList)).1 = AVERROR EINVAL) :=
  ⟨⟨by decide, init_trailing ⟨3, 2⟩ ⟨⟨16, 9⟩⟩ "3:4x".toList
      (Or.inl ⟨3, 4, 'x', [], by decide, by decide, by decide, by decide, by decide,
        by decide, by decide⟩)⟩,
    ⟨by decide, init_trailing ⟨3, 2⟩ ⟨⟨16, 9⟩⟩ "4:2 ".toList
      (Or.inl ⟨4, 2, ' ', [], by decide, by decide, by decide, by decide, by decide,
        by decide, by decide⟩)⟩,
    ⟨⟨by decide, by decide, (pairText_iff _).not.2 (by decide),
        not_numberText_of_ends [] "1.5".toList [] 'x' [] (by decide)
          ⟨"1".toList, ".5".toList, rfl, by decide, Or.inr ⟨"5".toList, rfl, by decide⟩⟩
          (by decide) (Or.inl rfl) (by decide)⟩,
      init_trailing ⟨3, 2⟩ ⟨⟨16, 9⟩⟩ "1.5x".toList
        (Or.inr ⟨[], "1.5".toList, [], 'x', [], by decide,
          ⟨"1".toList, ".5".toList, rfl, by decide, Or.inr ⟨"5".toList, rfl, by decide⟩⟩,
          by decide, Or.inl rfl, by decide, by decide, by decide,
          (pairText_iff _).not.2 (by decide),
          not_numberText_of_ends [] "1.5".toList [] 'x' [] (by decide)
            ⟨"1".toList, ".5".toList, rfl, by decide, Or.inr ⟨"5".toList, rfl, by decide⟩⟩
            (by decide) (Or.inl rfl) (by decide)⟩)⟩,
    ⟨⟨by decide, by decide, (pairText_iff _).not.2 (by decide),
        not_numberText_of_ends [] "3".toList "e".toList 'x' [] (by decide)
          ⟨"3".toList, [], rfl, by decide, Or.inl rfl⟩
          (by decide) (Or.inr ⟨'e', [], [], rfl, Or.inl rfl, by decide, by decide⟩)
          (by decide)⟩,
      init_trailing ⟨3, 1⟩ ⟨⟨16, 9⟩⟩ "3ex".toList
        (Or.inr ⟨[], "3".toList, "e".toList, 'x', [], by decide,
          ⟨"3".toList, [], rfl, by decide, Or.inl rfl⟩,
          by decide, Or.inr ⟨'e', [], [], rfl, Or.inl rfl, by decide, by decide⟩, by decide,
          by decide, by decide, (pairText_iff _).not.2 (by decide),
          not_numberText_of_ends [] "3".toList "e".toList 'x' [] (by decide)
            ⟨"3".toList, [], rfl, by decide, Or.inl rfl⟩
            (by decide) (Or.inr ⟨'e', [], [], rfl, Or.inl rfl, by decide, by decide⟩)
            (by decide)⟩)⟩,
    ⟨⟨by decide, (pairText_iff _).not.2 (by decide), (numberText_iff _).not.2 (by decide)⟩,
      init_trailing ⟨-5, 1⟩ ⟨⟨16, 9⟩⟩ "-.5e+1 ".toList
        (Or.inr ⟨"-".toList, ".5".toList, "e+1".toList, ' ', [], by decide,
          ⟨[], ".5".toList, rfl, by decide, Or.inr ⟨"5".toList, rfl, by decide⟩⟩,
          by decide,
          Or.inr ⟨'e', "+".toList, "1".toList, rfl, Or.inl rfl, by decide, by decide⟩,
          by decide, by decide, by decide, (pairText_iff _).not.2 (by decide),
          (numberText_iff _).not.2 (by decide)⟩)⟩,
    ⟨⟨by decide, (pairText_iff _).not.2 (by decide), (numberText_iff _).not.2 (by decide)⟩,
      init_trailing ⟨3, 2⟩ ⟨⟨16, 9⟩⟩ "0xg".toList
        (Or.inr ⟨[], "0".toList, [], 'x', "g".toList, by decide,
          ⟨"0".toList, [], rfl, by decide, Or.inl rfl⟩,
          by decide, Or.inl rfl, by decide, by decide, by decide,
          (pairText_iff _).not.2 (by decide), (numberText_iff _).not.2 (by decide)⟩)⟩⟩

/-- C7 (counterexample): `3e` is neither an integer pair nor a decimal literal, a
decimal literal ending in a digit or in its point, yet `init` called with `3e` on a
zero-initialised node returns 0: the number scan reads the exponent marker, converts
`3`, and `av_d2q(3.0, 100)` is `3/1`.  Likewise `0x1p`, read as the hexadecimal number
one, is accepted with `1/1`. -/
theorem init_accepts_bare_exponent :
    (¬ IsPairText "3e".toList ∧ ¬ IsDecimalLiteral "3e".toList ∧
      init ⟨3, 1⟩ ⟨⟨0, 0⟩⟩ (some "3e".toList) = (0, ⟨⟨3, 1⟩⟩) ∧
      (init ⟨3, 1⟩ ⟨⟨0, 0⟩⟩ (some "3e".toList)).1 ≠ AVERROR EINVAL) ∧
    (¬ IsPairText "0x1p".toList ∧ ¬ IsDecimalLiteral "0x1p".toList ∧
      init ⟨1, 1⟩ ⟨⟨0, 0⟩⟩ (some "0x1p".toList) = (0, ⟨⟨1, 1⟩⟩) ∧
      (init ⟨1, 1⟩ ⟨⟨0, 0⟩⟩ (some "0x1p".toList)).1 ≠ AVERROR EINVAL) :=
  ⟨⟨(pairText_iff _).not.2 (by decide),
      not_decimalLiteral "3".toList 'e' (by decide) (by decide), by decide, by decide⟩,
    ⟨(pairText_iff _).not.2 (by decide),
      not_decimalLiteral "0x1".toList 'p' (by decide) (by decide), by decide, by decide⟩⟩

/-- C7 (witness): `abc`, the empty string, `0x` and `1.5x` are neither an integer pair
nor a number, and are rejected on a fresh node. -/
theorem init_unparsed_witness :
    ((¬ IsPairText (cstr "abc".toList) ∧ ¬ IsNumberText (cstr "abc".toList)) ∧
      (init ⟨3, 2⟩ ⟨⟨0, 0⟩⟩ (some "abc".toList)).1 = AVERROR EINVAL) ∧
    ((¬ IsPairText (cstr []) ∧ ¬ IsNumberText (cstr [])) ∧
      (init ⟨3, 2⟩ ⟨⟨0, 0⟩⟩ (some [])).1 = AVERROR EINVAL) ∧
    ((¬ IsPairText (cstr "0x".toList) ∧ ¬ IsNumberText (cstr "0x".toList)) ∧
      (init ⟨3, 2⟩ ⟨⟨0, 0⟩⟩ (some "0x".toList)).1 = AVERROR EINVAL) ∧
    ((¬ IsPairText (cstr "1.5x".toList) ∧ ¬ IsNumberText (cstr "1.5x".toList)) ∧
      (init ⟨3, 2⟩ ⟨⟨0, 0⟩⟩ (some "1.5x".toList)).1 = AVERROR EINVAL) :=
  ⟨⟨⟨(pairText_iff _).not.2 (by decide), (numberText_iff _).not.2 (by decide)⟩,
      init_unparsed ⟨3, 2⟩ "abc".toList ((pairText_iff _).not.2 (by decide))
        ((numberText_iff _).not.2 (by decide))⟩,
    ⟨⟨(pairText_iff _).not.2 (by decide), (numberText_iff _).not.2 (by decide)⟩,
      init_unparsed ⟨3, 2⟩ [] ((pairText_iff _).not.2 (by decide))
        ((numberText_iff _).not.2 (by decide))⟩,
    ⟨⟨(pairText_iff _).not.2 (by decide), (numberText_iff _).not.2 (by decide)⟩,
      init_unparsed ⟨3, 2⟩ "0x".toList ((pairText_iff _).not.2 (by decide))
        ((numberText_iff _).not.2 (by decide))⟩,
    ⟨⟨(pairText_iff _).not.2 (by decide), (numberText_iff _).not.2 (by decide)⟩,
      init_unparsed ⟨3, 2⟩ "1.5x".toList ((pairText_iff _).not.2 (by decide))
        ((numberText_iff _).not.2 (by decide))⟩⟩

/-- C8 (witness): the arguments `-4:2` and `4:0` are rejected. -/
theorem init_nonpositive_witness :
    ((INT_MIN ≤ -4 ∧ (-4 : Int) ≤ INT_MAX ∧ INT_MIN ≤ 2 ∧ (2 : Int) ≤ INT_MAX ∧
        ((-4 : Int) ≤ 0 ∨ (2 : Int) ≤ 0)) ∧
      pairText (-4) 2 = "-4:2".toList ∧
      (init ⟨3, 2⟩ ⟨⟨16, 9⟩⟩ (some (pairText (-4) 2))).1 = AVERROR EINVAL) ∧
    ((INT_MIN ≤ 4 ∧ (4 : Int) ≤ INT_MAX ∧ INT_MIN ≤ 0 ∧ (0 : Int) ≤ INT_MAX ∧
        ((4 : Int) ≤ 0 ∨ (0 : Int) ≤ 0)) ∧
      pairText 4 0 = "4:0".toList ∧
      (init ⟨3, 2⟩ ⟨⟨16, 9⟩⟩ (some (pairText 4 0))).1 = AVERROR EINVAL) :=
  ⟨⟨by decide, by decide,
      init_nonpositive ⟨3, 2⟩ ⟨⟨16, 9⟩⟩ (-4) 2 (by decide) (by decide) (by decide) (by decide)
        (by decide)⟩,
    ⟨by decide, by decide,
      init_nonpositive ⟨3, 2⟩ ⟨⟨16, 9⟩⟩ 4 0 (by decide) (by decide) (by decide) (by decide)
        (by decide)⟩⟩

/-- C20 (amended): for every non-NULL argument string that is an integer pair as `%d:%d`
reads it, such a pair followed by a character that is not a digit and anything after it,
or a number as `%lf` reads it, the outcome of `init` (the status returned and the aspect
left) is the same for every prior aspect: it is determined by the argument alone, given
the value `av_d2q` yields.  For every other string the outcome depends on the prior
aspect: on a zero-initialised node it differs from the outcome on a node holding
`(1, 1)`. -/
theorem init_prior_independent (d2q : AVRational) (a : List Char) :
    ((IsPairText (cstr a) ∨
        (∃ w ch rest, cstr a = w ++ ch :: rest ∧ IsPairText w ∧ isdigit ch = false) ∨
        IsNumberText (cstr a)) →
      ∀ ctx1 ctx2 : AspectContext, init d2q ctx1 (some a) = init d2q ctx2 (some a)) ∧
    (¬ (IsPairText (cstr a) ∨
        (∃ w ch rest, cstr a = w ++ ch :: rest ∧ IsPairText w ∧ isdigit ch = false) ∨
        IsNumberText (cstr a)) →
      init d2q ⟨⟨0, 0⟩⟩ (some a) ≠ init d2q ⟨⟨1, 1⟩⟩ (some a)) := by
  constructor
  · intro h ctx1 ctx2
    apply init_of_converts
    rcases h with h | h | h
    · left
      rw [(pairText_iff _).1 h]
    · left
      rw [(pairMore_iff _).1 h]
      decide
    · right
      exact (numberText_iff _).1 h
  · intro hn
    simp only [not_or] at hn
    obtain ⟨h1, h2, h3⟩ := hn
    have r1 : (sscanf_d_d_c (cstr a)).ret < 2 := by
      have k2 : (sscanf_d_d_c (cstr a)).ret ≠ 2 := fun e => h1 ((pairText_iff _).2 e)
      have k3 : (sscanf_d_d_c (cstr a)).ret ≠ 3 := fun e => h2 ((pairMore_iff _).2 e)
      cases e : sscanf_d_d_c (cstr a) <;> simp_all [PairScan.ret]
    exact init_of_not_converts d2q a r1 (fun e => h3 ((numberText_iff _).2 e))

/-- C20 (counterexample): the argument `abc` is rejected on a zero-initialised node
and accepted, with status 0, on a node that holds the aspect `(2, 1)`; the argument
`1.5x` is rejected on both a zero-initialised node and a node holding `(16, 9)`, but
leaves the aspect `(1, 0)` in the first and `(1, 9)` in the second. -/
theorem init_depends_on_prior :
    init ⟨1, 1⟩ ⟨⟨0, 0⟩⟩ (some "abc".toList) = (AVERROR EINVAL, ⟨⟨0, 0⟩⟩) ∧
      init ⟨1, 1⟩ ⟨⟨2, 1⟩⟩ (some "abc".toList) = (0, ⟨⟨2, 1⟩⟩) ∧
      (init ⟨1, 1⟩ ⟨⟨0, 0⟩⟩ (some "abc".toList)).1
        ≠ (init ⟨1, 1⟩ ⟨⟨2, 1⟩⟩ (some "abc".toList)).1 ∧
      init ⟨3, 2⟩ ⟨⟨0, 0⟩⟩ (some "1.5x".toList) = (AVERROR EINVAL, ⟨⟨1, 0⟩⟩) ∧
      init ⟨3, 2⟩ ⟨⟨16, 9⟩⟩ (some "1.5x".toList) = (AVERROR EINVAL, ⟨⟨1, 9⟩⟩) ∧
      (init ⟨3, 2⟩ ⟨⟨0, 0⟩⟩ (some "1.5x".toList)).2
        ≠ (init ⟨3, 2⟩ ⟨⟨16, 9⟩⟩ (some "1.5x".toList)).2 := by
  decide

/-- C20 (witness): `4:2`, `3:4x` and `1.5` are of the three forms and give the same outcome
on a fresh node and on one that holds `(16, 9)`; `abc`, `0x` and `1.5x` are of none of
the three forms, and their outcome on a fresh node differs from that on a node holding
`(1, 1)`. -/
theorem init_prior_independent_witness :
    (IsPairText (cstr "4:2".toList) ∧
      init ⟨3, 2⟩ ⟨⟨0, 0⟩⟩ (some "4:2".toList) = init ⟨3, 2⟩ ⟨⟨16, 9⟩⟩ (some "4:2".toList)) ∧
    ((∃ w ch rest, cstr "3:4x".toList = w ++ ch :: rest ∧ IsPairText w ∧
        isdigit ch = false) ∧
      init ⟨3, 2⟩ ⟨⟨0, 0⟩⟩ (some "3:4x".toList)
        = init ⟨3, 2⟩ ⟨⟨16, 9⟩⟩ (some "3:4x".toList)) ∧
    (IsNumberText (cstr "1.5".toList) ∧
      init ⟨3, 2⟩ ⟨⟨0, 0⟩⟩ (some "1.5".toList) = init ⟨3, 2⟩ ⟨⟨16, 9⟩⟩ (some "1.5".toList)) ∧
    (¬ (IsPairText (cstr "abc".toList) ∨
        (∃ w ch rest, cstr "abc".toList = w ++ ch :: rest ∧ IsPairText w ∧
          isdigit ch = false) ∨
        IsNumberText (cstr "abc".toList)) ∧
      init ⟨1, 1⟩ ⟨⟨0, 0⟩⟩ (some "abc".toList) ≠ init ⟨1, 1⟩ ⟨⟨1, 1⟩⟩ (some "abc".toList)) ∧
    (¬ (IsPairText (cstr "0x".toList) ∨
        (∃ w ch rest, cstr "0x".toList = w ++ ch :: rest ∧ IsPairText w ∧
          isdigit ch = false) ∨
        IsNumberText (cstr "0x".toList)) ∧
      init ⟨1, 1⟩ ⟨⟨0, 0⟩⟩ (some "0x".toList) ≠ init ⟨1, 1⟩ ⟨⟨1, 1⟩⟩ (some "0x".toList)) ∧
    (¬ (IsPairText (cstr "1.5x".toList) ∨
        (∃ w ch rest, cstr "1.5x".toList = w ++ ch :: rest ∧ IsPairText w ∧
          isdigit ch = false) ∨
        IsNumberText (cstr "1.5x".toList)) ∧
      init ⟨1, 1⟩ ⟨⟨0, 0⟩⟩ (some "1.5x".toList)
        ≠ init ⟨1, 1⟩ ⟨⟨1, 1⟩⟩ (some "1.5x".toList)) :=
  ⟨⟨(pairText_iff _).2 (by decide),
      (init_prior_independent ⟨3, 2⟩ "4:2".toList).1
        (Or.inl ⟨[], "4".toList, [], "2".toList, by decide, by decide,
          ⟨[], "4".toList, rfl, by decide, by decide, by decide⟩, by decide,
          ⟨[], "2".toList, rfl, by decide, by decide, by decide⟩⟩) ⟨⟨0, 0⟩⟩ ⟨⟨16, 9⟩⟩⟩,
    ⟨(pairMore_iff _).2 (by decide),
      (init_prior_independent ⟨3, 2⟩ "3:4x".toList).1
        (Or.inr (Or.inl ⟨"3:4".toList, 'x', [], by decide,
          ⟨[], "3".toList, [], "4".toList, by decide, by decide,
            ⟨[], "3".toList, rfl, by decide, by decide, by decide⟩, by decide,
            ⟨[], "4".toList, rfl, by decide, by decide, by decide⟩⟩, by decide⟩))
        ⟨⟨0, 0⟩⟩ ⟨⟨16, 9⟩⟩⟩,
    ⟨(numberText_iff _).2 (by decide),
      (init_prior_independent ⟨3, 2⟩ "1.5".toList).1
        (Or.inr (Or.inr ⟨[], [], "1.5".toList, by decide, by decide, by decide,
          Or.inr (Or.inr (Or.inr (Or.inr ⟨"1.5".toList, [], by decide,
            ⟨"1".toList, ".5".toList, rfl, by decide, Or.inr ⟨"5".toList, rfl, by decide⟩⟩,
            by decide, Or.inl rfl⟩)))⟩)) ⟨⟨0, 0⟩⟩ ⟨⟨16, 9⟩⟩⟩,
    ⟨not_or.2 ⟨(pairText_iff _).not.2 (by decide),
        not_or.2 ⟨(pairMore_iff _).not.2 (by decide), (numberText_iff _).not.2 (by decide)⟩⟩,
      (init_prior_independent ⟨1, 1⟩ "abc".toList).2
        (not_or.2 ⟨(pairText_iff _).not.2 (by decide),
          not_or.2 ⟨(pairMore_iff _).not.2 (by decide),
            (numberText_iff _).not.2 (by decide)⟩⟩)⟩,
    ⟨not_or.2 ⟨(pairText_iff _).not.2 (by decide),
        not_or.2 ⟨(pairMore_iff _).not.2 (by decide), (numberText_iff _).not.2 (by decide)⟩⟩,
      (init_prior_independent ⟨1, 1⟩ "0x".toList).2
        (not_or.2 ⟨(pairText_iff _).not.2 (by decide),
          not_or.2 ⟨(pairMore_iff _).not.2 (by decide),
            (numberText_iff _).not.2 (by decide)⟩⟩)⟩,
    ⟨not_or.2 ⟨(pairText_iff _).not.2 (by decide),
        not_or.2 ⟨(pairMore_iff _).not.2 (by decide), (numberText_iff _).not.2 (by decide)⟩⟩,
      (init_prior_independent ⟨1, 1⟩ "1.5x".toList).2
        (not_or.2 ⟨(pairText_iff _).not.2 (by decide),
          not_or.2 ⟨(pairMore_iff _).not.2 (by decide),
            (numberText_iff _).not.2 (by decide)⟩⟩)⟩⟩

/-- C16 (amended): when the argument parses to a ratio whose denominator is zero (the
text `N:0`), `init` returns `AVERROR(EINVAL)` and leaves the pair `(N, 0)`; the aspect is
not reset.  With an argument string a success always leaves a positive numerator and
denominator, so the reset to `(0, 1)` is reached only with `args == NULL`, where it
replaces a zero denominator. -/
theorem init_zero_den (d2q : AVRational) (ctx : AspectContext) (N : Int)
    (hN : INT_MIN ≤ N) (hN' : N ≤ INT_MAX) :
    init d2q ctx (some (pairText N 0)) = (AVERROR EINVAL, ⟨⟨N, 0⟩⟩) ∧
      (∀ a, (init d2q ctx (some a)).1 = 0 →
        0 < (init d2q ctx (some a)).2.aspect.num ∧ 0 < (init d2q ctx (some a)).2.aspect.den) ∧
      (ctx.aspect.den = 0 → init d2q ctx Option.none = (0, ⟨⟨0, 1⟩⟩)) := by
  refine ⟨?_, ?_, ?_⟩
  · have hs := sscanf_pairText N 0 hN hN' (by decide) (by decide)
    rw [← cstr_pairText N 0] at hs
    rw [init_of_two d2q ctx _ N 0 hs, if_pos (Or.inr (le_refl _))]
  · intro a
    rw [init_some]
    generalize afterScans d2q ctx a = st
    obtain ⟨⟨n, d⟩, c⟩ := st
    simp only
    split_ifs with hbad
    · intro h
      have hE : AVERROR EINVAL ≠ 0 := by decide
      exact absurd h hE
    · intro _
      have hn : 0 < n := by omega
      have hd : 0 < d := by omega
      have hg : (0 : Int) < (Int.gcd n d : Int) := by
        exact_mod_cast Int.gcd_pos_of_ne_zero_left d (by omega)
      exact ⟨Int.ediv_pos_of_pos_of_dvd hn (by omega) Int.gcd_dvd_left,
        Int.ediv_pos_of_pos_of_dvd hd (by omega) Int.gcd_dvd_right⟩
  · intro h0
    unfold init
    simp [h0]

/-- C16 (counterexample): the argument `4:0` makes `init` return `AVERROR(EINVAL)` and
leaves `(4, 0)`; it neither succeeds nor resets the aspect to `(0, 1)`. -/
theorem init_rejects_zero_den :
    init ⟨1, 1⟩ ⟨⟨0, 0⟩⟩ (some "4:0".toList) = (AVERROR EINVAL, ⟨⟨4, 0⟩⟩) ∧
      (init ⟨1, 1⟩ ⟨⟨0, 0⟩⟩ (some "4:0".toList)).1 ≠ 0 ∧
      (init ⟨1, 1⟩ ⟨⟨0, 0⟩⟩ (some "4:0".toList)).2 ≠ ⟨⟨0, 1⟩⟩ := by
  decide

/-- C16 (witness): `4:0` is rejected on a node holding `(16, 9)`, and with no arguments a
node holding `(5, 0)` is reset to `(0, 1)`. -/
theorem init_zero_den_witness :
    (INT_MIN ≤ 4 ∧ (4 : Int) ≤ INT_MAX) ∧ pairText 4 0 = "4:0".toList ∧
      init ⟨3, 2⟩ ⟨⟨16, 9⟩⟩ (some (pairText 4 0)) = (AVERROR EINVAL, ⟨⟨4, 0⟩⟩) ∧
      init ⟨3, 2⟩ ⟨⟨5, 0⟩⟩ Option.none = (0, ⟨⟨0, 1⟩⟩) :=
  ⟨by decide, by decide,
    (init_zero_den ⟨3, 2⟩ ⟨⟨16, 9⟩⟩ 4 (by decide) (by decide)).1,
    (init_zero_den ⟨3, 2⟩ ⟨⟨5, 0⟩⟩ 4 (by decide) (by decide)).2.2 rfl⟩

end VfAspect

namespace AacDec

open VfAspect (AVRational av_gcd AVERROR)

/-! ## Properties of `adts_aac_read_header` -/

/-- The timebase `1 / ADTS_TIMEBASE_DEN` is already in lowest terms. -/
theorem av_set_pts_info_adts (st : AVStream) :
    av_set_pts_info st 64 1 ADTS_TIMEBASE_DEN =
      { st with pts_wrap_bits := 64, time_base := ⟨1, 28224000⟩ } := by
  have hg : av_gcd ((1 : Nat) : Int) ((ADTS_TIMEBASE_DEN : Nat) : Int) = ((1 : Nat) : Int) := by
    rw [VfAspect.av_gcd_nat]
    simp
  unfold av_set_pts_info
  rw [hg]
  simp [ADTS_TIMEBASE_DEN]

/-- C11: whenever `adts_aac_read_header` succeeds, the stream table holds one more
stream, the one it created; that stream is audio, has `need_parsing =
AVSTREAM_PARSE_FULL`, the codec id of the input format, and the timebase
`1/28224000` with 64 timestamp bits, whatever the byte source, the tag block and the
context are. -/
theorem read_header_stream {π μ : Type} (fresh : Option AVStream) (id3 : π → μ → μ)
    (s : AVFormatContext π μ) (h : (adts_aac_read_header fresh id3 s).1 = 0) :
    ∃ st, (adts_aac_read_header fresh id3 s).2.streams = s.streams ++ [st] ∧
      st.codec.codec_type = AVMediaType.AVMEDIA_TYPE_AUDIO ∧
      st.codec.codec_id = s.iformat_value ∧
      st.need_parsing = .AVSTREAM_PARSE_FULL ∧
      st.time_base = ⟨1, 28224000⟩ ∧
      st.pts_wrap_bits = 64 := by
  cases fresh with
  | none =>
    have hE : AVERROR ENOMEM ≠ 0 := by decide
    exact absurd h hE
  | some st0 =>
    refine ⟨_, rfl, ?_⟩
    rw [av_set_pts_info_adts]
    exact ⟨rfl, rfl, rfl, rfl, rfl⟩

/-- C11 (witness): reading the header with a blank new stream succeeds and gives the
timebase `1/28224000`. -/
theorem read_header_stream_witness :
    (adts_aac_read_header (some blankStream) (fun (_ : List UInt8) (m : List String) => m)
        ⟨86018, [0xFF, 0xF1, 0x50, 0x80], [], []⟩).1 = 0 ∧
      ∃ st, (adts_aac_read_header (some blankStream)
          (fun (_ : List UInt8) (m : List String) => m)
          ⟨86018, [0xFF, 0xF1, 0x50, 0x80], [], []⟩).2.streams = [] ++ [st] ∧
        st.codec.codec_type = AVMediaType.AVMEDIA_TYPE_AUDIO ∧
        st.codec.codec_id = 86018 ∧
        st.need_parsing = .AVSTREAM_PARSE_FULL ∧
        st.time_base = ⟨1, 28224000⟩ ∧
        st.pts_wrap_bits = 64 :=
  ⟨rfl, read_header_stream (some blankStream) (fun (_ : List UInt8) (m : List String) => m)
    ⟨86018, [0xFF, 0xF1, 0x50, 0x80], [], []⟩ rfl⟩

/-- A number that every element of a list divides is a multiple of their least common
multiple. -/
theorem lcm_list_dvd (l : List Nat) (m : Nat) (h : ∀ r ∈ l, r ∣ m) :
    l.foldr Nat.lcm 1 ∣ m := by
  induction l with
  | nil => simp
  | cons x xs ih =>
    simp only [List.foldr_cons]
    exact Nat.lcm_dvd (h x (by simp)) (ih (fun r hr => h r (by simp [hr])))

/-- C12: the timebase denominator 28224000 used by `adts_aac_read_header` is the least
common multiple of the thirteen standard ADTS sample rates; every rate divides it, so
any whole number of samples lasts a whole number of ticks, and no smaller positive
integer is a multiple of every rate. -/
theorem timebase_den_is_lcm :
    ADTS_TIMEBASE_DEN = 28224000 ∧
      ADTS_SAMPLE_RATES.length = 13 ∧
      ADTS_SAMPLE_RATES.foldr Nat.lcm 1 = ADTS_TIMEBASE_DEN ∧
      (∀ r ∈ ADTS_SAMPLE_RATES, ADTS_TIMEBASE_DEN % r = 0) ∧
      (∀ r ∈ ADTS_SAMPLE_RATES, ∀ n : Nat, (n * ADTS_TIMEBASE_DEN) % r = 0) ∧
      (∀ m : Nat, 0 < m → (∀ r ∈ ADTS_SAMPLE_RATES, m % r = 0) → ADTS_TIMEBASE_DEN ≤ m) := by
  have hl : ADTS_SAMPLE_RATES.foldr Nat.lcm 1 = ADTS_TIMEBASE_DEN := by decide
  have hd : ∀ r ∈ ADTS_SAMPLE_RATES, ADTS_TIMEBASE_DEN % r = 0 := by decide
  refine ⟨rfl, rfl, hl, hd, ?_, ?_⟩
  · intro r hr n
    exact Nat.mod_eq_zero_of_dvd (Dvd.dvd.mul_left (Nat.dvd_of_mod_eq_zero (hd r hr)) n)
  · intro m hm hall
    rw [← hl]
    exact Nat.le_of_dvd hm (lcm_list_dvd _ m (fun r hr => Nat.dvd_of_mod_eq_zero (hall r hr)))

/-- C12 (witness): 1024 samples at 44100 Hz last 655360 ticks, and the multiple
56448000 of every rate is not below 28224000. -/
theorem timebase_den_is_lcm_witness :
    (1024 * ADTS_TIMEBASE_DEN) % 44100 = 0 ∧ 1024 * ADTS_TIMEBASE_DEN / 44100 = 655360 ∧
      ((0 < 56448000 ∧ ∀ r ∈ ADTS_SAMPLE_RATES, 56448000 % r = 0) ∧
        ADTS_TIMEBASE_DEN ≤ 56448000) :=
  ⟨timebase_den_is_lcm.2.2.2.2.1 44100 (by decide) 1024, by decide,
    ⟨by decide, by decide⟩, timebase_den_is_lcm.2.2.2.2.2 56448000 (by decide) (by decide)⟩

/-! ## Further properties of `adts_aac_probe` -/

/-- A byte value is below 256. -/
theorem byteAt_lt (b : List UInt8) (i : Nat) : byteAt b i < 256 := by
  unfold byteAt
  exact UInt8.toNat_lt _

/-- Big-endian composition of four bytes as a sum. -/
theorem rb32_eq_sum (b : List UInt8) (i : Nat) :
    rb32 b i = byteAt b i * 2 ^ 24 + byteAt b (i + 1) * 2 ^ 16 + byteAt b (i + 2) * 2 ^ 8
      + byteAt b (i + 3) := by
  have h0 := byteAt_lt b i
  have h1 := byteAt_lt b (i + 1)
  have h2 := byteAt_lt b (i + 2)
  have h3 := byteAt_lt b (i + 3)
  unfold rb32
  generalize byteAt b i = x0 at *
  generalize byteAt b (i + 1) = x1 at *
  generalize byteAt b (i + 2) = x2 at *
  generalize byteAt b (i + 3) = x3 at *
  rw [Nat.or_assoc, Nat.or_assoc, Nat.shiftLeft_eq, Nat.shiftLeft_eq, Nat.shiftLeft_eq]
  have e1 : x2 * 2 ^ 8 ||| x3 = 2 ^ 8 * x2 + x3 := by
    rw [Nat.mul_comm]
    exact (Nat.mul_add_lt_is_or (i := 8) (by omega) x2).symm
  have e2 : x1 * 2 ^ 16 ||| (2 ^ 8 * x2 + x3) = 2 ^ 16 * x1 + (2 ^ 8 * x2 + x3) := by
    rw [Nat.mul_comm]
    exact (Nat.mul_add_lt_is_or (i := 16) (by omega) x1).symm
  have e3 : x0 * 2 ^ 24 ||| (2 ^ 16 * x1 + (2 ^ 8 * x2 + x3))
      = 2 ^ 24 * x0 + (2 ^ 16 * x1 + (2 ^ 8 * x2 + x3)) := by
    rw [Nat.mul_comm]
    exact (Nat.mul_add_lt_is_or (i := 24) (by omega) x0).symm
  rw [e1, e2, e3]
  omega

/-- The length field, written with the three header bytes that hold it. -/
theorem fsizeAt_eq_bits (b : List UInt8) (j : Nat) :
    fsizeAt b j = ((byteAt b (j + 3) &&& 0x03) <<< 11) ||| (byteAt b (j + 4) <<< 3)
      ||| (byteAt b (j + 5) >>> 5) := by
  have h3 := byteAt_lt b (j + 3)
  have h4 := byteAt_lt b (j + 4)
  have h5 := byteAt_lt b (j + 5)
  have h6 := byteAt_lt b (j + 6)
  unfold fsizeAt
  rw [rb32_eq_sum]
  simp only [Nat.add_assoc, Nat.reduceAdd]
  generalize byteAt b (j + 3) = x3 at *
  generalize byteAt b (j + 4) = x4 at *
  generalize byteAt b (j + 5) = x5 at *
  generalize byteAt b (j + 6) = x6 at *
  have m1 : ∀ x : Nat, x &&& 0x1FFF = x % 2 ^ 13 := fun x =>
    Nat.and_pow_two_sub_one_eq_mod x 13
  have m2 : x3 &&& 0x03 = x3 % 2 ^ 2 := Nat.and_pow_two_sub_one_eq_mod x3 2
  rw [m1, m2, Nat.shiftRight_eq_div_pow, Nat.shiftRight_eq_div_pow, Nat.or_assoc,
    Nat.shiftLeft_eq, Nat.shiftLeft_eq]
  have e1 : x4 * 2 ^ 3 ||| x5 / 2 ^ 5 = 2 ^ 3 * x4 + x5 / 2 ^ 5 := by
    rw [Nat.mul_comm]
    exact (Nat.mul_add_lt_is_or (i := 3) (by omega) x4).symm
  have e2 : x3 % 2 ^ 2 * 2 ^ 11 ||| (2 ^ 3 * x4 + x5 / 2 ^ 5)
      = 2 ^ 11 * (x3 % 2 ^ 2) + (2 ^ 3 * x4 + x5 / 2 ^ 5) := by
    rw [Nat.mul_comm]
    exact (Nat.mul_add_lt_is_or (i := 11) (by omega) (x3 % 2 ^ 2)).symm
  rw [e1, e2]
  omega

/-- C15: for a header at offset `j` below `buf_size - 7`, the frame size decoded by
`adts_aac_probe`, `(AV_RB32(buf + j + 3) >> 13) & 0x1FFF`, equals
`((b[j+3] & 0x03) << 11) | (b[j+4] << 3) | (b[j+5] >> 5)`; it is at most 8191, it is the
same for any buffer that agrees on the low two bits of byte `j+3`, on byte `j+4` and on
the high three bits of byte `j+5`, and, the sync word matching, the run is extended by
that frame exactly when the value is at least 7. -/
theorem frame_size_field (p : AVProbeData) (j : Nat) (hj : (j : Int) < p.buf_size - 7) :
    (∃ w, AV_RB32 p (j + 3) = .ok w ∧
      (w >>> 13) &&& 0x1FFF =
        ((byteAt p.buf (j + 3) &&& 0x03) <<< 11) ||| (byteAt p.buf (j + 4) <<< 3)
          ||| (byteAt p.buf (j + 5) >>> 5) ∧
      (w >>> 13) &&& 0x1FFF = fsizeAt p.buf j) ∧
    fsizeAt p.buf j ≤ 8191 ∧
    (∀ q : AVProbeData,
      byteAt q.buf (j + 3) &&& 0x03 = byteAt p.buf (j + 3) &&& 0x03 →
      byteAt q.buf (j + 4) = byteAt p.buf (j + 4) →
      byteAt q.buf (j + 5) >>> 5 = byteAt p.buf (j + 5) >>> 5 →
      fsizeAt q.buf j = fsizeAt p.buf j) ∧
    (syncAt p.buf j → ∀ (fuel : Nat) (frames : Int),
      scanFrames p (p.buf_size - 7) (fuel + 1) j frames =
        if 7 ≤ ((byteAt p.buf (j + 3) &&& 0x03) <<< 11) ||| (byteAt p.buf (j + 4) <<< 3)
            ||| (byteAt p.buf (j + 5) >>> 5) then
          scanFrames p (p.buf_size - 7) fuel
            (j + (((byteAt p.buf (j + 3) &&& 0x03) <<< 11) ||| (byteAt p.buf (j + 4) <<< 3)
              ||| (byteAt p.buf (j + 5) >>> 5))) (frames + 1)
        else .ok (j, frames)) := by
  have hl : j + 7 < p.buf.length := by unfold AVProbeData.buf_size at hj; omega
  refine ⟨⟨rb32 p.buf (j + 3), AV_RB32_ok p (j + 3) (by omega), ?_, rfl⟩, ?_, ?_, ?_⟩
  · exact fsizeAt_eq_bits p.buf j
  · have : fsizeAt p.buf j = rb32 p.buf (j + 3) >>> 13 % 2 ^ 13 :=
      Nat.and_pow_two_sub_one_eq_mod _ 13
    rw [this]
    have := Nat.mod_lt (rb32 p.buf (j + 3) >>> 13) (show 0 < 2 ^ 13 by norm_num)
    omega
  · intro q h3 h4 h5
    rw [fsizeAt_eq_bits, fsizeAt_eq_bits, h3, h4, h5]
  · intro hs fuel frames
    rw [← fsizeAt_eq_bits]
    by_cases h7 : 7 ≤ fsizeAt p.buf j
    · rw [if_pos h7]
      exact scanFrames_step p fuel j frames hj hs h7
    · rw [if_neg h7]
      exact scanFrames_break p fuel j frames hj (fun hv => h7 hv.2)

/-- C15 (witness): in the sample with a 9-byte frame at offset 1 the length field is
`(0x80 & 3) << 11 | 0x01 << 3 | 0x3F >> 5 = 9`, and the run from offset 1 goes on at
offset 10. -/
theorem frame_size_field_witness :
    ((1 : Int) < (AVProbeData.mk paddedFrame).buf_size - 7 ∧ syncAt paddedFrame 1) ∧
      fsizeAt paddedFrame 1 = 9 ∧
      scanFrames ⟨paddedFrame⟩ ((AVProbeData.mk paddedFrame).buf_size - 7) 3 1 0
        = scanFrames ⟨paddedFrame⟩ ((AVProbeData.mk paddedFrame).buf_size - 7) 2 10 1 :=
  ⟨by decide, by decide,
    (frame_size_field ⟨paddedFrame⟩ 1 (by decide)).2.2.2 (by decide) 2 0⟩

/-- The inner loop computes the spec-worded run: its end and its length. -/
theorem scanFrames_eq_spec (p : AVProbeData) :
    ∀ (n fuel i : Nat) (frames : Int), p.buf.length - (i + 7) ≤ n →
      (p.buf_size - 7 - i).toNat < fuel →
      scanFrames p (p.buf_size - 7) fuel i frames
        = .ok (specRunEnd p.buf n i, frames + (specRunLength p.buf n i : Nat)) := by
  intro n
  induction n with
  | zero =>
    intro fuel i frames hn hfuel
    obtain ⟨k, rfl⟩ : ∃ k, fuel = k + 1 := ⟨fuel - 1, by omega⟩
    rw [scanFrames_stop p k i frames (by unfold AVProbeData.buf_size; omega)]
    simp [specRunEnd, specRunLength]
  | succ n ih =>
    intro fuel i frames hn hfuel
    obtain ⟨k, rfl⟩ : ∃ k, fuel = k + 1 := ⟨fuel - 1, by omega⟩
    unfold specRunEnd specRunLength
    by_cases hc : i + 7 < p.buf.length ∧ syncAt p.buf i ∧ 7 ≤ fsizeAt p.buf i
    · have hlt : (i : Int) < p.buf_size - 7 := by unfold AVProbeData.buf_size; omega
      rw [if_pos hc, if_pos hc, scanFrames_step p k i frames hlt hc.2.1 hc.2.2,
        ih k (i + fsizeAt p.buf i) (frames + 1) (by omega) (by
          unfold AVProbeData.buf_size at hfuel ⊢
          push_cast
          omega)]
      congr 2
      push_cast
      ring
    · rw [if_neg hc, if_neg hc]
      by_cases hlt : (i : Int) < p.buf_size - 7
      · rw [scanFrames_break p k i frames hlt (fun hv => hc ⟨by
          unfold AVProbeData.buf_size at hlt; omega, hv⟩)]
        simp
      · rw [scanFrames_stop p k i frames hlt]
        simp

/-- The run found by the inner loop from a fresh start at `i`. -/
theorem scanFrames_top_spec (p : AVProbeData) (i : Nat) :
    scanFrames p (p.buf_size - 7) (p.buf.length + 1) i 0
      = .ok (runEndAt p.buf i, ((runLengthAt p.buf i : Nat) : Int)) := by
  have := scanFrames_eq_spec p p.buf.length (p.buf.length + 1) i 0 (by omega)
    (by unfold AVProbeData.buf_size; omega)
  rw [this]
  simp [runEndAt, runLengthAt]

/-- A run does not end before its start. -/
theorem specRunEnd_ge (b : List UInt8) : ∀ (n i : Nat), i ≤ specRunEnd b n i := by
  intro n
  induction n with
  | zero => intro i; simp [specRunEnd]
  | succ n ih =>
    intro i
    unfold specRunEnd
    split_ifs
    · exact le_trans (Nat.le_add_right _ _) (ih _)
    · exact le_refl _

/-- An element of a list is at most its maximum. -/
theorem le_maxOf (l : List Nat) (x : Nat) (h : x ∈ l) : x ≤ maxOf l := by
  induction l with
  | nil => cases h
  | cons y ys ih =>
    unfold maxOf
    simp only [List.foldr_cons]
    rcases List.mem_cons.1 h with h | h
    · rw [h]; exact le_max_left _ _
    · exact le_trans (ih h) (le_max_right _ _)

/-- A bound on every element bounds the maximum. -/
theorem maxOf_le (l : List Nat) (k : Nat) (h : ∀ x ∈ l, x ≤ k) : maxOf l ≤ k := by
  induction l with
  | nil => simp [maxOf]
  | cons y ys ih =>
    unfold maxOf
    simp only [List.foldr_cons]
    exact max_le (h y (by simp)) (ih (fun x hx => h x (by simp [hx])))

/-- The outer loop, started at a positive offset, adds to `max_frames` the longest run
over the starting offsets it goes through and leaves `first_frames` alone. -/
theorem scanOffsets_eq_spec (p : AVProbeData) :
    ∀ (n fuel i : Nat) (m f : Int), p.buf.length - (i + 7) ≤ n →
      (p.buf_size - 7 - i).toNat < fuel → 0 < i → 0 ≤ m →
      scanOffsets p (p.buf_size - 7) fuel i m f
        = .ok (max m ((maxOf ((scanStartsFrom p.buf n i).map (runLengthAt p.buf)) : Nat) : Int),
            f) := by
  intro n
  induction n with
  | zero =>
    intro fuel i m f hn hfuel hi hm
    obtain ⟨k, rfl⟩ : ∃ k, fuel = k + 1 := ⟨fuel - 1, by omega⟩
    rw [scanOffsets_stop p k i m f (by unfold AVProbeData.buf_size; omega)]
    simp only [scanStartsFrom, List.map_nil, maxOf, List.foldr_nil, Nat.cast_zero]
    rw [max_eq_left hm]
  | succ n ih =>
    intro fuel i m f hn hfuel hi hm
    obtain ⟨k, rfl⟩ : ∃ k, fuel = k + 1 := ⟨fuel - 1, by omega⟩
    unfold scanStartsFrom
    by_cases hc : i + 7 < p.buf.length
    · have hlt : (i : Int) < p.buf_size - 7 := by unfold AVProbeData.buf_size; omega
      have hge := specRunEnd_ge p.buf p.buf.length i
      rw [if_pos hc, scanOffsets_step p k i m f _ _ hlt (scanFrames_top_spec p i),
        if_neg (by omega),
        ih k (runEndAt p.buf i + 1) _ f (by unfold runEndAt; omega) (by
          unfold AVProbeData.buf_size at hfuel ⊢
          unfold runEndAt
          push_cast
          omega) (by omega) (le_trans hm (le_max_left _ _))]
      simp only [List.map_cons, maxOf, List.foldr_cons, Nat.cast_max]
      rw [max_assoc]
    · rw [if_neg hc, scanOffsets_stop p k i m f (by unfold AVProbeData.buf_size; omega)]
      simp only [List.map_nil, maxOf, List.foldr_nil, Nat.cast_zero]
      rw [max_eq_left hm]

/-- The counters with which the loops end: `max_frames` is the longest run over the
starting offsets the outer loop goes through, `first_frames` the run at offset 0. -/
theorem probeCounts_eq_spec (b : List UInt8) :
    probeCounts ⟨b⟩ = .ok (((maxOf ((scanStarts b).map (runLengthAt b)) : Nat) : Int),
      ((specFirstFrames b : Nat) : Int)) := by
  unfold probeCounts scanStarts specFirstFrames
  by_cases hc : 0 + 7 < b.length
  · obtain ⟨n, hn⟩ : ∃ n, b.length = n + 1 := ⟨b.length - 1, by omega⟩
    have hlt : ((0 : Nat) : Int) < (AVProbeData.mk b).buf_size - 7 := by
      unfold AVProbeData.buf_size; simp only; omega
    have hge := specRunEnd_ge b b.length 0
    rw [scanOffsets_step ⟨b⟩ b.length 0 0 0 _ _ hlt (scanFrames_top_spec ⟨b⟩ 0), if_pos rfl]
    simp only
    rw [scanOffsets_eq_spec ⟨b⟩ n b.length (runEndAt b 0 + 1) _ _ (by
        simp only; unfold runEndAt; omega) (by
        unfold AVProbeData.buf_size
        simp only
        unfold runEndAt
        push_cast
        omega) (by omega) (le_max_left _ _)]
    have e : scanStartsFrom b b.length 0 = 0 :: scanStartsFrom b n (runEndAt b 0 + 1) := by
      have e' : scanStartsFrom b (n + 1) 0 = 0 :: scanStartsFrom b n (runEndAt b 0 + 1) := by
        rw [scanStartsFrom, if_pos hc]
      rw [hn]
      exact e'
    rw [e]
    simp only [List.map_cons, maxOf, List.foldr_cons, Nat.cast_max]
    rw [max_assoc, max_eq_right (by positivity)]
  · have hstop : ¬ (((0 : Nat) : Int) < (AVProbeData.mk b).buf_size - 7) := by
      unfold AVProbeData.buf_size; simp only; omega
    rw [scanOffsets_stop ⟨b⟩ b.length 0 0 0 hstop]
    have h1 : scanStartsFrom b b.length 0 = [] := by
      cases hb : b.length with
      | zero => rfl
      | succ k =>
        unfold scanStartsFrom
        rw [if_neg (by omega)]
    have h2 : runLengthAt b 0 = 0 := by
      unfold runLengthAt
      cases hb : b.length with
      | zero => rfl
      | succ k =>
        unfold specRunLength
        rw [if_neg (by omega)]
    rw [h1, h2]
    rfl

/-- Every starting offset the outer loop goes through lies below `buf_size - 7`. -/
theorem scanStartsFrom_lt (b : List UInt8) :
    ∀ (n i : Nat), ∀ j ∈ scanStartsFrom b n i, j + 7 < b.length := by
  intro n
  induction n with
  | zero => intro i j hj; simp [scanStartsFrom] at hj
  | succ n ih =>
    intro i j hj
    unfold scanStartsFrom at hj
    split_ifs at hj with hc
    · rcases List.mem_cons.1 hj with h | h
      · rw [h]; exact hc
      · exact ih _ j h
    · cases hj

/-- The score is the spec-worded mapping of the two counters. -/
theorem probe_of_probeCounts (p : AVProbeData) (m f : Int)
    (h : probeCounts p = .ok (m, f)) : adts_aac_probe p = .ok (specScore m f) := by
  unfold probeCounts at h
  rw [probe_of_counts p m f h]
  unfold specScore
  split_ifs <;> rfl

/-- C13 (amended): the `max_frames` value computed by `adts_aac_probe` equals the maximum
run length over the starting offsets the scan goes through (offset 0 and, after each
run, the offset one past the cursor where that run stopped); these offsets lie below
`buf_size - 7`, so the value is at most the maximum over every starting offset
`0 ≤ i < buf_size - 7`; `first_frames` is the run length at offset 0, and the score
returned is the spec's mapping applied to these two values. -/
theorem probe_counts_refine (b : List UInt8) :
    probeCounts ⟨b⟩ = .ok (((maxOf ((scanStarts b).map (runLengthAt b)) : Nat) : Int),
        ((specFirstFrames b : Nat) : Int)) ∧
      (∀ i ∈ scanStarts b, i + 7 < b.length) ∧
      maxOf ((scanStarts b).map (runLengthAt b)) ≤ specMaxFrames b ∧
      adts_aac_probe ⟨b⟩ = .ok (specScore ((maxOf ((scanStarts b).map (runLengthAt b)) : Nat) : Int)
        ((specFirstFrames b : Nat) : Int)) := by
  refine ⟨probeCounts_eq_spec b, scanStartsFrom_lt b _ _, ?_,
    probe_of_probeCounts _ _ _ (probeCounts_eq_spec b)⟩
  apply maxOf_le
  intro x hx
  obtain ⟨i, hi, rfl⟩ := List.mem_map.1 hx
  have hlt := scanStartsFrom_lt b _ _ i hi
  unfold specMaxFrames
  exact le_maxOf _ _ (List.mem_map.2 ⟨i, List.mem_range.2 (by omega), rfl⟩)

/-- C13 (counterexample): in a 36-byte buffer whose first header announces a 40-byte
frame, with three 7-byte frames at offsets 7, 14 and 21, the scan starts at offset 0
only: `adts_aac_probe` ends with `max_frames = 1` and returns 1, while the maximum over
every starting offset is 3 (the run from offset 7), for which the mapping gives
`AVPROBE_SCORE_MAX/4`. -/
theorem probe_skips_nested_run :
    probeCounts ⟨nestedRuns⟩ = .ok (1, 1) ∧
      specMaxFrames nestedRuns = 3 ∧ runLengthAt nestedRuns 7 = 3 ∧
      specFirstFrames nestedRuns = 1 ∧
      adts_aac_probe ⟨nestedRuns⟩ = .ok 1 ∧
      specScore (specMaxFrames nestedRuns) (specFirstFrames nestedRuns) = 25 ∧
      adts_aac_probe ⟨nestedRuns⟩
        ≠ .ok (specScore (specMaxFrames nestedRuns) (specFirstFrames nestedRuns)) := by
  decide

/-- A valid header at or after the start of the outer loop, below `buf_size - 7`, makes
the loop end with `max_frames ≥ 1`, whether or not the loop starts a run at it. -/
theorem scanOffsets_hit (p : AVProbeData) (i : Nat) (hi : (i : Int) < p.buf_size - 7)
    (hv : syncAt p.buf i ∧ 7 ≤ fsizeAt p.buf i) :
    ∀ (fuel buf : Nat) (m f : Int), (p.buf_size - 7 - buf).toNat < fuel → buf ≤ i →
      ∃ m' f', scanOffsets p (p.buf_size - 7) fuel buf m f = .ok (m', f') ∧ 1 ≤ m' := by
  intro fuel
  induction fuel with
  | zero => intro buf m f h; omega
  | succ n ih =>
    intro buf m f h hle
    have hlt : (buf : Int) < p.buf_size - 7 := by omega
    by_cases hb : syncAt p.buf buf ∧ 7 ≤ fsizeAt p.buf buf
    · obtain ⟨b2, fr, hs, hb2, hfr⟩ := scanFrames_total p p.buf.length
        (buf + fsizeAt p.buf buf) 1 (by unfold AVProbeData.buf_size at hlt ⊢; omega)
      have hrun : scanFrames p (p.buf_size - 7) (p.buf.length + 1) buf 0 = .ok (b2, fr) := by
        rw [scanFrames_step p p.buf.length buf 0 hlt hb.1 hb.2]
        exact hs
      rw [scanOffsets_step p n buf m f b2 fr hlt hrun]
      obtain ⟨m', f', ho, hm, -⟩ := scanOffsets_total p n (b2 + 1) (max m fr)
        (if buf = 0 then fr else f) (by push_cast; omega)
      exact ⟨m', f', ho, le_trans (le_trans hfr (le_max_right _ _)) hm⟩
    · have hne : buf ≠ i := fun e => hb (e ▸ hv)
      rw [scanOffsets_step p n buf m f buf 0 hlt (scanFrames_break p p.buf.length buf 0 hlt hb)]
      exact ih (buf + 1) _ _ (by push_cast; omega) (by omega)

/-- C17: `adts_aac_probe` returns 0 if and only if no offset `i` with
`0 ≤ i < buf_size - 7` has a matching sync word and a length field of at least 7; in
particular every buffer of 7 bytes or fewer scores 0, and a valid header at an offset
below `buf_size - 7` yields a score of at least 1, whether or not the scan starts a run
at that offset. -/
theorem probe_zero_iff (b : List UInt8) :
    (adts_aac_probe ⟨b⟩ = .ok 0 ↔
        ¬ ∃ i, i + 7 < b.length ∧ syncAt b i ∧ 7 ≤ fsizeAt b i) ∧
      (b.length ≤ 7 → adts_aac_probe ⟨b⟩ = .ok 0) ∧
      (∀ i, i + 7 < b.length → syncAt b i → 7 ≤ fsizeAt b i →
        ∃ s, adts_aac_probe ⟨b⟩ = .ok s ∧ 1 ≤ s) := by
  have hpos : ∀ i, i + 7 < b.length → syncAt b i → 7 ≤ fsizeAt b i →
      ∃ s, adts_aac_probe ⟨b⟩ = .ok s ∧ 1 ≤ s := by
    intro i hi hs hf
    obtain ⟨m, f, ho, hm⟩ := scanOffsets_hit ⟨b⟩ i
      (by unfold AVProbeData.buf_size; simp only; omega) ⟨hs, hf⟩ (b.length + 1) 0 0 0
      (by unfold AVProbeData.buf_size; simp only; omega) (Nat.zero_le _)
    rw [probe_of_counts _ m f ho]
    unfold AVPROBE_SCORE_MAX
    split_ifs <;> exact ⟨_, rfl, by decide⟩
  have hzero : (¬ ∃ i, i + 7 < b.length ∧ syncAt b i ∧ 7 ≤ fsizeAt b i) →
      adts_aac_probe ⟨b⟩ = .ok 0 := by
    intro hno
    have hq := scanOffsets_quiet ⟨b⟩ (b.length + 1) 0 0 0
      (by unfold AVProbeData.buf_size; simp only; omega)
      (fun k _ hk hv => hno ⟨k, by
        unfold AVProbeData.buf_size at hk; simp only at hk; omega, hv⟩)
      (le_refl _) (fun _ => rfl)
    rw [probe_of_counts _ 0 0 hq]
    simp
  refine ⟨⟨?_, hzero⟩, ?_, hpos⟩
  · rintro h0 ⟨i, hi, hs, hf⟩
    obtain ⟨s, he, h1⟩ := hpos i hi hs hf
    rw [he] at h0
    have : s = 0 := by injection h0
    omega
  · intro hlen
    exact hzero (fun ⟨i, hi, _⟩ => by omega)

/-- C17 (witness): a 7-byte frame alone scores 0, and in the 36-byte sample the valid
header at offset 14, which the scan jumps over, comes with a score of at least 1. -/
theorem probe_zero_iff_witness :
    (minimalFrame.length ≤ 7 ∧ adts_aac_probe ⟨minimalFrame⟩ = .ok 0) ∧
      ((14 + 7 < nestedRuns.length ∧ syncAt nestedRuns 14 ∧ 7 ≤ fsizeAt nestedRuns 14) ∧
        14 ∉ scanStarts nestedRuns ∧
        ∃ s, adts_aac_probe ⟨nestedRuns⟩ = .ok s ∧ 1 ≤ s) :=
  ⟨⟨by decide, (probe_zero_iff minimalFrame).2.1 (by decide)⟩,
    ⟨by decide, by decide,
      (probe_zero_iff nestedRuns).2.2 14 (by decide) (by decide) (by decide)⟩⟩

/-- The inner loop runs through a list of frames laid end to end, as long as the last
of their headers lies below `buf_size - 7`. -/
theorem scanFrames_frames : ∀ (fs : List (List UInt8)) (pre post : List UInt8)
    (fuel : Nat) (frames : Int), (∀ f ∈ fs, IsFrame f) →
    (fs ≠ [] → (pre ++ fs.dropLast.flatten).length + 7 < (pre ++ (fs.flatten ++ post)).length) →
    scanFrames ⟨pre ++ (fs.flatten ++ post)⟩
        ((AVProbeData.mk (pre ++ (fs.flatten ++ post))).buf_size - 7)
        (fuel + fs.length) pre.length frames
      = scanFrames ⟨pre ++ (fs.flatten ++ post)⟩
        ((AVProbeData.mk (pre ++ (fs.flatten ++ post))).buf_size - 7)
        fuel (pre.length + fs.flatten.length) (frames + fs.length) := by
  intro fs
  induction fs with
  | nil => intro pre post fuel frames _ _; simp
  | cons f fs ih =>
    intro pre post fuel frames hf hend
    have hff : IsFrame f := hf f (by simp)
    have hend' := hend (by simp)
    have e1 : pre ++ ((f :: fs).flatten ++ post) = pre ++ (f ++ (fs.flatten ++ post)) := by
      simp
    have e2 : pre ++ ((f :: fs).flatten ++ post) = (pre ++ f) ++ (fs.flatten ++ post) := by
      simp
    have hlen : (pre ++ (f :: fs).dropLast.flatten).length ≥ pre.length := by
      simp
    have hstep := scanFrames_frame pre f (fs.flatten ++ post) (fuel + fs.length) frames hff (by
      rw [← e1]; omega)
    rw [← e1] at hstep
    have hfuel : fuel + (f :: fs).length = fuel + fs.length + 1 := by simp; omega
    rw [hfuel, hstep]
    have hrec := ih (pre ++ f) post fuel (frames + 1) (fun g hg => hf g (by simp [hg])) (by
      intro hne
      rw [← e2]
      have : (f :: fs).dropLast = f :: fs.dropLast := by
        cases fs with
        | nil => exact absurd rfl hne
        | cons g gs => rfl
      rw [this] at hend'
      simpa using hend')
    rw [← e2] at hrec
    simp only [List.length_append] at hrec
    rw [hrec]
    congr 1
    · simp; omega
    · simp; omega

/-- With garbage in front, the outer loop goes byte by byte to the first frame; it ends
with `first_frames = 0` and with `max_frames` at least the run it finds there, exactly
that run when the run reaches the end of the scanned range. -/
theorem scanOffsets_garbage (p : AVProbeData) (k b2 : Nat) (fr : Int)
    (hk : (k : Int) < p.buf_size - 7) (hk1 : 1 ≤ k)
    (hq : ∀ j, j < k → ¬ syncAt p.buf j)
    (hrun : scanFrames p (p.buf_size - 7) (p.buf.length + 1) k 0 = .ok (b2, fr))
    (hkb : k ≤ b2) (hfr : 0 ≤ fr) :
    ∀ (fuel buf : Nat), (p.buf_size - 7 - buf).toNat + 1 < fuel → buf ≤ k →
      ∃ m, scanOffsets p (p.buf_size - 7) fuel buf 0 0 = .ok (m, 0) ∧ fr ≤ m ∧
        (p.buf_size - 7 ≤ (b2 : Int) + 1 → m = fr) := by
  intro fuel
  induction fuel with
  | zero => intro buf h; omega
  | succ n ih =>
    intro buf h hle
    by_cases hbk : buf = k
    · subst hbk
      rw [scanOffsets_step p n buf 0 0 b2 fr hk hrun, if_neg (by omega), max_eq_right hfr]
      obtain ⟨m', f', ho, hm, hf'⟩ := scanOffsets_total p n (b2 + 1) fr 0 (by push_cast; omega)
      rw [hf' (by omega)] at ho
      refine ⟨m', ho, hm, ?_⟩
      intro hb2
      obtain ⟨n', rfl⟩ : ∃ n', n = n' + 1 := ⟨n - 1, by omega⟩
      rw [scanOffsets_stop p n' (b2 + 1) fr 0 (by push_cast; omega)] at ho
      injection ho with ho
      injection ho with h1 _
      exact h1.symm
    · have hlt : (buf : Int) < p.buf_size - 7 := by omega
      have hb := scanFrames_break p p.buf.length buf 0 hlt (fun hv => hq buf (by omega) hv.1)
      rw [scanOffsets_step p n buf 0 0 buf 0 hlt hb]
      have e : (if buf = 0 then (0 : Int) else 0) = 0 := by split_ifs <;> rfl
      rw [e, max_self]
      exact ih (buf + 1) (by push_cast; omega) (by omega)

/-- Frames laid end to end take at least 7 bytes each. -/
theorem flatten_length_ge (fs : List (List UInt8)) (hf : ∀ f ∈ fs, IsFrame f) :
    7 * fs.length ≤ fs.flatten.length := by
  induction fs with
  | nil => simp
  | cons f fs ih =>
    have h1 := (hf f (by simp)).1
    have h2 := ih (fun g hg => hf g (by simp [hg]))
    simp only [List.length_cons, List.flatten_cons, List.length_append]
    omega

/-- C14: for every buffer made of `k ≥ 1` leading bytes, no offset `i < k` carrying a
matching sync word, followed by at least 3 consecutive correctly length-prefixed frames
whose headers all start before offset `buf_size - 7` (and by any further bytes),
`adts_aac_probe` ends with `first_frames = 0` and with a `max_frames` that is at least the
number of those frames, exactly that number when the buffer ends with them; it returns
`AVPROBE_SCORE_MAX/4` when `max_frames` is at most 500 and `AVPROBE_SCORE_MAX/2` when it
is more, hence at least `AVPROBE_SCORE_MAX/4`. -/
theorem probe_after_garbage (g : List UInt8) (fs : List (List UInt8)) (tail : List UInt8)
    (hk : 1 ≤ g.length)
    (hg : ∀ i, i < g.length → ¬ syncAt (g ++ (fs.flatten ++ tail)) i) (h3 : 3 ≤ fs.length)
    (hf : ∀ f ∈ fs, IsFrame f)
    (hend : (g ++ fs.dropLast.flatten).length + 7 < (g ++ (fs.flatten ++ tail)).length) :
    ∃ m : Int, probeCounts ⟨g ++ (fs.flatten ++ tail)⟩ = .ok (m, 0) ∧
      (fs.length : Int) ≤ m ∧ (tail = [] → m = fs.length) ∧
      adts_aac_probe ⟨g ++ (fs.flatten ++ tail)⟩
        = .ok (if 500 < m then AVPROBE_SCORE_MAX / 2 else AVPROBE_SCORE_MAX / 4) ∧
      AVPROBE_SCORE_MAX / 4 ≤ (if 500 < m then AVPROBE_SCORE_MAX / 2 else AVPROBE_SCORE_MAX / 4) := by
  have h7 := flatten_length_ge fs hf
  have hlen : (g ++ (fs.flatten ++ tail)).length = g.length + fs.flatten.length + tail.length := by
    simp only [List.length_append]; omega
  have hpre : g.length ≤ (g ++ fs.dropLast.flatten).length := by simp
  obtain ⟨fuel, hfuel⟩ : ∃ fuel,
      (g ++ (fs.flatten ++ tail)).length + 1 = (fuel + 1) + fs.length :=
    ⟨(g ++ (fs.flatten ++ tail)).length - fs.length, by omega⟩
  obtain ⟨b2, fr, hrest, hb2, hfr⟩ := scanFrames_total ⟨g ++ (fs.flatten ++ tail)⟩ (fuel + 1)
    (g.length + fs.flatten.length) (0 + fs.length) (by
      unfold AVProbeData.buf_size; simp only; omega)
  have hrun : scanFrames ⟨g ++ (fs.flatten ++ tail)⟩
      ((AVProbeData.mk (g ++ (fs.flatten ++ tail))).buf_size - 7)
      ((g ++ (fs.flatten ++ tail)).length + 1) g.length 0 = .ok (b2, fr) := by
    rw [hfuel, scanFrames_frames fs g tail (fuel + 1) 0 hf (fun _ => hend)]
    exact hrest
  obtain ⟨m, hcounts, hm, hexact⟩ := scanOffsets_garbage ⟨g ++ (fs.flatten ++ tail)⟩ g.length b2 fr
    (by unfold AVProbeData.buf_size; simp only; omega) hk hg hrun (by omega) (by omega)
    ((g ++ (fs.flatten ++ tail)).length + 1) 0
    (by unfold AVProbeData.buf_size; simp only; omega) (Nat.zero_le _)
  have hnm : (fs.length : Int) ≤ m := by omega
  refine ⟨m, hcounts, hnm, ?_, ?_, ?_⟩
  · intro ht
    subst ht
    simp only [List.length_nil, Nat.add_zero] at hlen
    have hstop : scanFrames ⟨g ++ (fs.flatten ++ [])⟩
        ((AVProbeData.mk (g ++ (fs.flatten ++ []))).buf_size - 7) (fuel + 1)
        (g.length + fs.flatten.length) (0 + fs.length)
        = .ok (g.length + fs.flatten.length, 0 + (fs.length : Int)) :=
      scanFrames_stop _ fuel _ _ (by
        unfold AVProbeData.buf_size; simp only; rw [hlen]; push_cast; omega)
    rw [hstop] at hrest
    injection hrest with hrest
    injection hrest with h1 h2
    have := hexact (by
      unfold AVProbeData.buf_size; simp only; rw [hlen, ← h1]; push_cast; omega)
    omega
  · rw [probe_of_counts _ _ _ hcounts, if_neg (by decide)]
    by_cases h500 : 500 < m
    · rw [if_pos h500, if_pos h500]
    · rw [if_neg h500, if_neg h500, if_pos (by omega)]
  · split_ifs <;> decide

/-- C14 (witness): two garbage bytes, then two frames of length 7 and one of length 8,
score `AVPROBE_SCORE_MAX/4`, the scan ending with `max_frames = 3`. -/
theorem probe_after_garbage_witness :
    (1 ≤ [(0x49 : UInt8), 0x44].length ∧
      (∀ i, i < [(0x49 : UInt8), 0x44].length →
        ¬ syncAt ([0x49, 0x44] ++ ([minimalFrame, minimalFrame, shortFrame].flatten ++ [])) i) ∧
      3 ≤ [minimalFrame, minimalFrame, shortFrame].length ∧
      (∀ f ∈ [minimalFrame, minimalFrame, shortFrame], IsFrame f) ∧
      ([0x49, 0x44] ++ [minimalFrame, minimalFrame, shortFrame].dropLast.flatten).length + 7
        < ([0x49, 0x44] ++ ([minimalFrame, minimalFrame, shortFrame].flatten ++ [])).length) ∧
      probeCounts ⟨[0x49, 0x44] ++ ([minimalFrame, minimalFrame, shortFrame].flatten ++ [])⟩
        = .ok (3, 0) ∧
      adts_aac_probe ⟨[0x49, 0x44] ++ ([minimalFrame, minimalFrame, shortFrame].flatten ++ [])⟩
        = .ok (AVPROBE_SCORE_MAX / 4) ∧
      ∃ m : Int,
        probeCounts ⟨[0x49, 0x44] ++ ([minimalFrame, minimalFrame, shortFrame].flatten ++ [])⟩
          = .ok (m, 0) ∧
        (([minimalFrame, minimalFrame, shortFrame].length : Nat) : Int) ≤ m ∧
        (([] : List UInt8) = [] → m = ([minimalFrame, minimalFrame, shortFrame].length : Nat)) ∧
        adts_aac_probe
            ⟨[0x49, 0x44] ++ ([minimalFrame, minimalFrame, shortFrame].flatten ++ [])⟩
          = .ok (if 500 < m then AVPROBE_SCORE_MAX / 2 else AVPROBE_SCORE_MAX / 4) ∧
        AVPROBE_SCORE_MAX / 4
          ≤ (if 500 < m then AVPROBE_SCORE_MAX / 2 else AVPROBE_SCORE_MAX / 4) :=
  ⟨⟨by decide, by decide, by decide, by decide, by decide⟩, by decide, by decide,
    probe_after_garbage [0x49, 0x44] [minimalFrame, minimalFrame, shortFrame] [] (by decide)
      (by decide) (by decide) (by decide) (by decide)⟩

/-- Every index read by the inner loop lies at least two bytes before the end of the
buffer. -/
theorem scanFramesReads_lt (p : AVProbeData) :
    ∀ (fuel buf2 : Nat), ∀ i ∈ scanFramesReads p (p.buf_size - 7) fuel buf2,
      i + 1 < p.buf.length := by
  intro fuel
  induction fuel with
  | zero => intro buf2 i hi; simp [scanFramesReads] at hi
  | succ n ih =>
    intro buf2 i hi
    unfold scanFramesReads at hi
    split_ifs at hi with hlt
    · have hl : buf2 + 7 < p.buf.length := by unfold AVProbeData.buf_size at hlt; omega
      rw [AV_RB16_ok p buf2 (by omega)] at hi
      simp only at hi
      rcases List.mem_append.1 hi with h | h
      · simp only [List.mem_cons, List.mem_singleton, List.not_mem_nil, or_false] at h
        omega
      · split_ifs at h with hs
        · cases h
        · rw [AV_RB32_ok p (buf2 + 3) (by omega)] at h
          simp only at h
          rcases List.mem_append.1 h with h' | h'
          · simp only [List.mem_cons, List.mem_singleton, List.not_mem_nil, or_false] at h'
            omega
          · split_ifs at h' with h7
            · cases h'
            · exact ih _ i h'
    · cases hi

/-- Every index read by the outer loop lies at least two bytes before the end of the
buffer. -/
theorem scanOffsetsReads_lt (p : AVProbeData) :
    ∀ (fuel buf : Nat), ∀ i ∈ scanOffsetsReads p (p.buf_size - 7) fuel buf,
      i + 1 < p.buf.length := by
  intro fuel
  induction fuel with
  | zero => intro buf i hi; simp [scanOffsetsReads] at hi
  | succ n ih =>
    intro buf i hi
    unfold scanOffsetsReads at hi
    split_ifs at hi with hlt
    · rcases List.mem_append.1 hi with h | h
      · exact scanFramesReads_lt p _ _ i h
      · obtain ⟨b2, fr, hs, -, -⟩ := scanFrames_top p buf 0
        rw [hs] at h
        exact ih _ i h
    · cases hi

/-- The inner loop gives the same run on two buffers of the same length that agree on
every byte but the last. -/
theorem scanFrames_congr (p q : AVProbeData) (hl : p.buf.length = q.buf.length)
    (hb : ∀ j, j + 1 < p.buf.length → byteAt p.buf j = byteAt q.buf j) :
    ∀ (fuel i : Nat) (frames : Int),
      scanFrames p (p.buf_size - 7) fuel i frames = scanFrames q (q.buf_size - 7) fuel i frames := by
  have hsz : p.buf_size = q.buf_size := by unfold AVProbeData.buf_size; rw [hl]
  intro fuel
  induction fuel with
  | zero => intro i frames; rfl
  | succ n ih =>
    intro i frames
    by_cases hlt : (i : Int) < p.buf_size - 7
    · have hlen : i + 7 < p.buf.length := by unfold AVProbeData.buf_size at hlt; omega
      have hs : syncAt p.buf i ↔ syncAt q.buf i := by
        unfold syncAt rb16
        rw [hb i (by omega), hb (i + 1) (by omega)]
      have hf : fsizeAt p.buf i = fsizeAt q.buf i := by
        unfold fsizeAt rb32
        rw [hb (i + 3) (by omega), hb (i + 3 + 1) (by omega), hb (i + 3 + 2) (by omega),
          hb (i + 3 + 3) (by omega)]
      have hlt' : (i : Int) < q.buf_size - 7 := by rw [← hsz]; exact hlt
      by_cases hv : syncAt p.buf i ∧ 7 ≤ fsizeAt p.buf i
      · have hv2 : 7 ≤ fsizeAt q.buf i := by rw [← hf]; exact hv.2
        rw [scanFrames_step p n i frames hlt hv.1 hv.2,
          scanFrames_step q n i frames hlt' (hs.1 hv.1) hv2, ← hf]
        exact ih _ _
      · have hv' : ¬ (syncAt q.buf i ∧ 7 ≤ fsizeAt q.buf i) := by
          rw [← hs, ← hf]; exact hv
        rw [scanFrames_break p n i frames hlt hv, scanFrames_break q n i frames hlt' hv']
    · have hlt' : ¬ ((i : Int) < q.buf_size - 7) := by rw [← hsz]; exact hlt
      rw [scanFrames_stop p n i frames hlt, scanFrames_stop q n i frames hlt']

/-- The outer loop gives the same counters on two buffers of the same length that agree
on every byte but the last. -/
theorem scanOffsets_congr (p q : AVProbeData) (hl : p.buf.length = q.buf.length)
    (hb : ∀ j, j + 1 < p.buf.length → byteAt p.buf j = byteAt q.buf j) :
    ∀ (fuel i : Nat) (m f : Int),
      scanOffsets p (p.buf_size - 7) fuel i m f = scanOffsets q (q.buf_size - 7) fuel i m f := by
  have hsz : p.buf_size = q.buf_size := by unfold AVProbeData.buf_size; rw [hl]
  intro fuel
  induction fuel with
  | zero => intro i m f; rfl
  | succ n ih =>
    intro i m f
    by_cases hlt : (i : Int) < p.buf_size - 7
    · obtain ⟨b2, fr, hs, -, -⟩ := scanFrames_top p i 0
      have hs' : scanFrames q (q.buf_size - 7) (q.buf.length + 1) i 0 = .ok (b2, fr) := by
        rw [← hl, ← scanFrames_congr p q hl hb]
        exact hs
      have hlt' : (i : Int) < q.buf_size - 7 := by rw [← hsz]; exact hlt
      rw [scanOffsets_step p n i m f b2 fr hlt hs, scanOffsets_step q n i m f b2 fr hlt' hs']
      exact ih _ _ _
    · have hlt' : ¬ ((i : Int) < q.buf_size - 7) := by rw [← hsz]; exact hlt
      rw [scanOffsets_stop p n i m f hlt, scanOffsets_stop q n i m f hlt']

/-- The score does not depend on the final byte of the buffer. -/
theorem probe_last_byte (b : List UInt8) (x y : UInt8) :
    adts_aac_probe ⟨b ++ [x]⟩ = adts_aac_probe ⟨b ++ [y]⟩ := by
  have hl : (AVProbeData.mk (b ++ [x])).buf.length = (AVProbeData.mk (b ++ [y])).buf.length := by
    simp
  have hb : ∀ j, j + 1 < (AVProbeData.mk (b ++ [x])).buf.length →
      byteAt (AVProbeData.mk (b ++ [x])).buf j = byteAt (AVProbeData.mk (b ++ [y])).buf j := by
    intro j hj
    simp only [List.length_append, List.length_singleton] at hj
    unfold byteAt
    rw [List.getD_eq_getElem?_getD, List.getD_eq_getElem?_getD,
      List.getElem?_append_left (by omega), List.getElem?_append_left (by omega)]
  unfold adts_aac_probe
  simp only
  rw [scanOffsets_congr _ _ hl hb, hl]

/-- C18: for every buffer, every byte index read by `adts_aac_probe` lies in
`[0, buf_size)` and is not the index of the final byte; the read that fails outside the
buffer is never taken, the probe returning a score, and changing the final byte of the
buffer does not change that score. -/
theorem probe_reads_in_bounds (p : AVProbeData) :
    (∀ i ∈ probeReads p, (0 : Int) ≤ (i : Int) ∧ (i : Int) < p.buf_size ∧ i + 1 ≠ p.buf.length
        ∧ ∃ v, rd p i = .ok v) ∧
      adts_aac_probe p ≠ .error .outOfBounds ∧
      (∃ s, adts_aac_probe p = .ok s) ∧
      (∀ (b : List UInt8) (x y : UInt8), p.buf = b ++ [x] →
        adts_aac_probe ⟨b ++ [y]⟩ = adts_aac_probe p) := by
  have hs : ∃ s, adts_aac_probe p = .ok s := by
    obtain ⟨m, f, he, -, -⟩ := scanOffsets_total p (p.buf.length + 1) 0 0 0 (by
      unfold AVProbeData.buf_size; omega)
    rw [probe_of_counts p m f he]
    split_ifs <;> exact ⟨_, rfl⟩
  refine ⟨?_, ?_, hs, ?_⟩
  · intro i hi
    have h := scanOffsetsReads_lt p _ _ i hi
    refine ⟨by positivity, by unfold AVProbeData.buf_size; omega, by omega, _, rd_ok p i (by omega)⟩
  · obtain ⟨s, he⟩ := hs
    rw [he]
    intro h
    cases h
  · intro b x y hp
    obtain ⟨buf⟩ := p
    simp only at hp
    subst hp
    exact probe_last_byte b y x

/-- C18 (witness): on the sample of two garbage bytes and three frames, 24 bytes long,
the probe reads the header bytes of the offsets it examines and never index 23. -/
theorem probe_reads_in_bounds_witness :
    probeReads ⟨garbageThenFrames⟩
        = [0, 1, 1, 2, 2, 3, 5, 6, 7, 8, 9, 10, 12, 13, 14, 15, 16, 17, 19, 20, 21, 22] ∧
      garbageThenFrames.length = 24 ∧
      (16 ∈ probeReads ⟨garbageThenFrames⟩ ∧
        ((0 : Int) ≤ ((16 : Nat) : Int) ∧ ((16 : Nat) : Int) < (AVProbeData.mk garbageThenFrames).buf_size
          ∧ 16 + 1 ≠ (AVProbeData.mk garbageThenFrames).buf.length
          ∧ ∃ v, rd ⟨garbageThenFrames⟩ 16 = .ok v)) :=
  ⟨by decide, by decide, by decide,
    (probe_reads_in_bounds ⟨garbageThenFrames⟩).1 16 (by decide)⟩

/-- The inner loop does not depend on its budget once the budget exceeds the distance
from the cursor to `end`. -/
theorem scanFrames_fuel (p : AVProbeData) :
    ∀ (fuel fuel' buf2 : Nat) (frames : Int), (p.buf_size - 7 - buf2).toNat < fuel →
      (p.buf_size - 7 - buf2).toNat < fuel' →
      scanFrames p (p.buf_size - 7) fuel buf2 frames
        = scanFrames p (p.buf_size - 7) fuel' buf2 frames := by
  intro fuel
  induction fuel with
  | zero => intro fuel' buf2 frames h; omega
  | succ n ih =>
    intro fuel' buf2 frames h h'
    obtain ⟨n', rfl⟩ : ∃ n', fuel' = n' + 1 := ⟨fuel' - 1, by omega⟩
    by_cases hlt : (buf2 : Int) < p.buf_size - 7
    · by_cases hv : syncAt p.buf buf2 ∧ 7 ≤ fsizeAt p.buf buf2
      · rw [scanFrames_step p n buf2 frames hlt hv.1 hv.2,
          scanFrames_step p n' buf2 frames hlt hv.1 hv.2]
        have := hv.2
        exact ih n' _ _ (by push_cast; omega) (by push_cast; omega)
      · rw [scanFrames_break p n buf2 frames hlt hv, scanFrames_break p n' buf2 frames hlt hv]
    · rw [scanFrames_stop p n buf2 frames hlt, scanFrames_stop p n' buf2 frames hlt]

/-- The cursor of the inner loop moves by at least 7 bytes for every frame counted. -/
theorem scanFrames_advance (p : AVProbeData) :
    ∀ (fuel buf2 : Nat) (frames : Int) (b : Nat) (f : Int),
      scanFrames p (p.buf_size - 7) fuel buf2 frames = .ok (b, f) →
      (buf2 : Int) + 7 * (f - frames) ≤ b := by
  intro fuel
  induction fuel with
  | zero => intro buf2 frames b f h; cases h
  | succ n ih =>
    intro buf2 frames b f h
    by_cases hlt : (buf2 : Int) < p.buf_size - 7
    · by_cases hv : syncAt p.buf buf2 ∧ 7 ≤ fsizeAt p.buf buf2
      · rw [scanFrames_step p n buf2 frames hlt hv.1 hv.2] at h
        have := ih _ _ _ _ h
        have := hv.2
        push_cast at *
        omega
      · rw [scanFrames_break p n buf2 frames hlt hv] at h
        injection h with h
        injection h with h1 h2
        subst h1 h2
        omega
    · rw [scanFrames_stop p n buf2 frames hlt] at h
      injection h with h
      injection h with h1 h2
      subst h1 h2
      omega

/-- The outer loop does not depend on its budget once the budget exceeds the distance
from the start offset to `end`. -/
theorem scanOffsets_fuel (p : AVProbeData) :
    ∀ (fuel fuel' buf : Nat) (m f : Int), (p.buf_size - 7 - buf).toNat < fuel →
      (p.buf_size - 7 - buf).toNat < fuel' →
      scanOffsets p (p.buf_size - 7) fuel buf m f
        = scanOffsets p (p.buf_size - 7) fuel' buf m f := by
  intro fuel
  induction fuel with
  | zero => intro fuel' buf m f h; omega
  | succ n ih =>
    intro fuel' buf m f h h'
    obtain ⟨n', rfl⟩ : ∃ n', fuel' = n' + 1 := ⟨fuel' - 1, by omega⟩
    by_cases hlt : (buf : Int) < p.buf_size - 7
    · obtain ⟨b2, fr, hs, hb2, -⟩ := scanFrames_top p buf 0
      rw [scanOffsets_step p n buf m f b2 fr hlt hs, scanOffsets_step p n' buf m f b2 fr hlt hs]
      exact ih n' _ _ _ (by push_cast; omega) (by push_cast; omega)
    · rw [scanOffsets_stop p n buf m f hlt, scanOffsets_stop p n' buf m f hlt]

/-- C19: `adts_aac_probe` terminates on every input.  An inner-loop iteration that
continues moves the cursor by a frame size of at least 7, and the outer loop restarts
strictly after its previous start (`buf2 + 1 > buf`); so every budget that exceeds the
remaining distance to `end` lets either loop run to its end, with a result that does not
depend on the budget, and the probe returns a score. -/
theorem probe_terminates (p : AVProbeData) :
    (∀ (fuel buf2 : Nat) (frames : Int), (p.buf_size - 7 - buf2).toNat < fuel →
        ∃ b f, scanFrames p (p.buf_size - 7) fuel buf2 frames = .ok (b, f) ∧
          (buf2 : Int) + 7 * (f - frames) ≤ b ∧
          ∀ fuel', (p.buf_size - 7 - buf2).toNat < fuel' →
            scanFrames p (p.buf_size - 7) fuel' buf2 frames = .ok (b, f)) ∧
      (∀ (fuel buf : Nat) (m f : Int), (p.buf_size - 7 - buf).toNat < fuel →
        ∃ r, scanOffsets p (p.buf_size - 7) fuel buf m f = .ok r ∧
          ∀ fuel', (p.buf_size - 7 - buf).toNat < fuel' →
            scanOffsets p (p.buf_size - 7) fuel' buf m f = .ok r) ∧
      (∀ (fuel buf : Nat) (m f : Int), (buf : Int) < p.buf_size - 7 →
        ∃ buf2 frames, scanFrames p (p.buf_size - 7) (p.buf.length + 1) buf 0
            = .ok (buf2, frames) ∧ buf < buf2 + 1 ∧
          scanOffsets p (p.buf_size - 7) (fuel + 1) buf m f
            = scanOffsets p (p.buf_size - 7) fuel (buf2 + 1) (max m frames)
                (if buf = 0 then frames else f)) ∧
      (∃ s, adts_aac_probe p = .ok s) ∧
      adts_aac_probe p ≠ .error .outOfFuel := by
  have hs : ∃ s, adts_aac_probe p = .ok s := by
    obtain ⟨m, f, he, -, -⟩ := scanOffsets_total p (p.buf.length + 1) 0 0 0 (by
      unfold AVProbeData.buf_size; omega)
    rw [probe_of_counts p m f he]
    split_ifs <;> exact ⟨_, rfl⟩
  refine ⟨?_, ?_, ?_, hs, ?_⟩
  · intro fuel buf2 frames h
    obtain ⟨b, f, he, -, -⟩ := scanFrames_total p fuel buf2 frames h
    refine ⟨b, f, he, scanFrames_advance p fuel buf2 frames b f he, ?_⟩
    intro fuel' h'
    rw [scanFrames_fuel p fuel' fuel buf2 frames h' h]
    exact he
  · intro fuel buf m f h
    obtain ⟨m', f', he, -, -⟩ := scanOffsets_total p fuel buf m f h
    refine ⟨(m', f'), he, ?_⟩
    intro fuel' h'
    rw [scanOffsets_fuel p fuel' fuel buf m f h' h]
    exact he
  · intro fuel buf m f hlt
    obtain ⟨b2, fr, hrun, hb2, -⟩ := scanFrames_top p buf 0
    exact ⟨b2, fr, hrun, by omega, scanOffsets_step p fuel buf m f b2 fr hlt hrun⟩
  · obtain ⟨s, he⟩ := hs
    rw [he]
    intro h
    cases h

/-- C19 (witness): on the sample of two garbage bytes and three frames the inner loop
started at offset 2 ends at cursor 24 with 3 frames for the budget 16 as for any larger
one, and the probe returns a score. -/
theorem probe_terminates_witness :
    (((AVProbeData.mk garbageThenFrames).buf_size - 7 - (2 : Nat)).toNat < 16 ∧
      ((AVProbeData.mk garbageThenFrames).buf_size - 7 - (2 : Nat)).toNat < 1000) ∧
    scanFrames ⟨garbageThenFrames⟩ ((AVProbeData.mk garbageThenFrames).buf_size - 7) 16 2 0
      = .ok (24, 3) ∧
    (∃ b f, scanFrames ⟨garbageThenFrames⟩ ((AVProbeData.mk garbageThenFrames).buf_size - 7) 16 2 0
        = .ok (b, f) ∧
      ((2 : Nat) : Int) + 7 * (f - 0) ≤ b ∧
      ∀ fuel', ((AVProbeData.mk garbageThenFrames).buf_size - 7 - (2 : Nat)).toNat < fuel' →
        scanFrames ⟨garbageThenFrames⟩ ((AVProbeData.mk garbageThenFrames).buf_size - 7) fuel' 2 0
          = .ok (b, f)) ∧
    adts_aac_probe ⟨garbageThenFrames⟩ = .ok 25 :=
  ⟨by decide, by decide,
    (probe_terminates ⟨garbageThenFrames⟩).1 16 2 0 (by decide), by decide⟩

end AacDec
